import Mathlib

/-!
Verification of the BlockDAG consensus core (Xelis blockchain) against its
natural-language specification.

The Rust sources are shallowly embedded: machine integers (u64/u128) become
`Nat` with explicit `% 2 ^ 64` wrapping where the source can overflow or
underflow, fallible code returns `Except BlockchainError`, and in-place
mutation of maps becomes explicit state passing over association lists.
Constants that live in configuration files absent from the source snapshot
are modelled from the specification text and marked as such.
-/

namespace Xelis

/-- Size of the u64 value space, used for explicit wrapping arithmetic. -/
def U64_SIZE : Nat := 2 ^ 64

/-- Wrapping u64 subtraction (release-mode Rust semantics of `a - b`). -/
def u64_wrapping_sub (a b : Nat) : Nat :=
  (a % U64_SIZE + U64_SIZE - b % U64_SIZE) % U64_SIZE

/-- Modelled from the spec: config constant `BLOCK_TIME_MS` (section 6 gives
the example value 15000 ms); the config module is not part of the snapshot. -/
def BLOCK_TIME_MILLIS : Nat := 15000

/-- Modelled from the spec: config constant `MINIMUM_DIFFICULTY`; the config
module is not part of the snapshot, the value is only a floor. -/
def MINIMUM_DIFFICULTY : Nat := 1

/-- From src/xelis_daemon/src/core/difficulty.rs:
`DIFFICULTY_BOUND_DIVISOR = 2048`. -/
def DIFFICULTY_BOUND_DIVISOR : Nat := 2048

/-- From src/xelis_daemon/src/core/difficulty.rs:
`CHAIN_TIME_RANGE = BLOCK_TIME_MILLIS * 2 / 3`. -/
def CHAIN_TIME_RANGE : Nat := BLOCK_TIME_MILLIS * 2 / 3

/-- Modelled from the spec: config constant `STABLE_HEIGHT_LIMIT` (section 6
gives the example value 8); the config module is not part of the snapshot. -/
def STABLE_HEIGHT_LIMIT : Nat := 8

/-- Modelled from the spec: config constant `MAX_SUPPLY`; the config module is
not part of the snapshot, a concrete plausible value is used and the supply
theorems do not depend on it. -/
def MAX_SUPPLY : Nat := 18400000 * 100000

/-- Modelled from the spec: config constant `EMISSION_SPEED_FACTOR`; the
config module is not part of the snapshot. -/
def EMISSION_SPEED_FACTOR : Nat := 21

/-- Modelled from the spec: config constant `SIDE_BLOCK_REWARD_PERCENT`
(section 4.1 gives the example value 30); the config module is not part of
the snapshot. -/
def SIDE_BLOCK_REWARD_PERCENT : Nat := 30

/-- Modelled from the spec: config constant `FEE_PER_KB`; the config module
is not part of the snapshot. -/
def FEE_PER_KB : Nat := 1000

/-- Modelled from the spec: `EXTRA_DATA_LIMIT` bound on the total size of
transfer extra data (section 3); the transaction module carrying
`EXTRA_DATA_LIMIT_SIZE` is not part of the snapshot. -/
def EXTRA_DATA_LIMIT_SIZE : Nat := 1024

/-- From src/xelis_daemon/src/core/difficulty.rs, `calculate_difficulty`.
The u64 subtractions in both branches of the `x == 0` test wrap in release
builds; they are embedded with explicit wrapping semantics. The `neg` flag
is computed before `x` is reassigned, exactly as in the source. -/
def calculate_difficulty (tips_count parent_timestamp new_timestamp previous_difficulty : Nat) : Nat :=
  let adjust := previous_difficulty / DIFFICULTY_BOUND_DIVISOR
  let x := ((new_timestamp - parent_timestamp) % U64_SIZE) / CHAIN_TIME_RANGE
  let neg : Bool := tips_count ≤ x
  let x := if x = 0 then u64_wrapping_sub x tips_count else u64_wrapping_sub tips_count x
  let x := if x > 99 then 99 else x
  let adjust := adjust * x
  let new_diff := if neg then previous_difficulty - adjust else previous_difficulty + adjust
  if new_diff < MINIMUM_DIFFICULTY then MINIMUM_DIFFICULTY else new_diff

/-- From src/xelis_daemon/src/core/blockchain.rs, `get_block_reward`:
`(MAX_SUPPLY - supply) >> EMISSION_SPEED_FACTOR`. -/
def get_block_reward (supply : Nat) : Nat :=
  (MAX_SUPPLY - supply) >>> EMISSION_SPEED_FACTOR

/-- From src/xelis_daemon/src/core/blockchain.rs, `add_new_block_for_storage`
ordering loop: the reward credited for a block, scaled by
`SIDE_BLOCK_REWARD_PERCENT / 100` when the block is a side block. -/
def ordered_block_reward (supply : Nat) (side : Bool) : Nat :=
  if side then get_block_reward supply * SIDE_BLOCK_REWARD_PERCENT / 100
  else get_block_reward supply

/-- From src/xelis_daemon/src/core/blockchain.rs, `add_new_block_for_storage`
ordering loop: `set_supply_for_block(hash, past_supply + block_reward)`; the
supply reached after a sequence of ordered blocks, starting from 0. -/
def supply_after (sides : List Bool) : Nat :=
  sides.foldl (fun s side => s + ordered_block_reward s side) 0

/-- From src/xelis_common/src/globals.rs, `calculate_tx_fee`. -/
def calculate_tx_fee (tx_size : Nat) : Nat :=
  let size_in_kb := tx_size / 1024
  let size_in_kb := if tx_size % 1024 ≠ 0 then size_in_kb + 1 else size_in_kb
  size_in_kb * FEE_PER_KB

/-- Modelled from the spec: the native asset identifier `XELIS_ASSET`
(a hash constant in the config module, absent from the snapshot); hashes are
embedded as naturals. -/
def XELIS_ASSET : Nat := 0

/-- Lookup in an association list keyed by naturals (HashMap model). -/
def alookup {α : Type} : List (Nat × α) → Nat → Option α
  | [], _ => none
  | (k, v) :: rest, key => if k = key then some v else alookup rest key

/-- Insert or replace in an association list keyed by naturals. -/
def aset {α : Type} : List (Nat × α) → Nat → α → List (Nat × α)
  | [], key, value => [(key, value)]
  | (k, v) :: rest, key, value =>
      if k = key then (k, value) :: rest else (k, v) :: aset rest key value

/-- The error taxonomy of the daemon (`BlockchainError`); payload data
carried by the Rust variants is dropped, only the variant matters here.
`dagRecursionLimit` models exhaustion of the explicit fuel that replaces the
unbounded Rust recursion over the DAG. -/
inductive BlockchainError
  | alreadyInChain
  | timestampIsInFuture
  | invalidTips
  | expectedTips
  | invalidBlockHeight
  | invalidBlockHeightStableHeight
  | invalidReachability
  | timestampIsLessThanParent
  | blockDeviation
  | invalidDifficulty
  | invalidBlockSize
  | invalidBlockTxs
  | invalidTxNonce
  | notEnoughFunds
  | txAlreadyInMempool
  | txAlreadyInBlock
  | invalidTxInBlock
  | txEmpty
  | invalidTransactionToSender
  | invalidTransactionExtraDataTooBig
  | overflow
  | smartContractTodo
  | blockNotFound
  | accountNotFound
  | noSenderOutput
  | noTxSender
  | dagRecursionLimit
  deriving DecidableEq, Repr

/-- A single transfer output of a Transfer transaction (spec section 3). -/
structure Transfer where
  «to» : Nat
  asset : Nat
  amount : Nat
  extra_data : Option (List Nat)
  deriving DecidableEq, Repr

/-- Transaction payload (`TransactionType` of xelis_common). -/
inductive TransactionType
  | transfer (txs : List Transfer)
  | burn (asset : Nat) (amount : Nat)
  | smartContract
  deriving DecidableEq, Repr

/-- Transaction: `{owner_public_key, nonce, fee, data}` (spec section 3).
`size` models the serialized byte length (`tx.size()`); the wire encoding is
out of scope of the spec (section 1), so the length is carried as data. -/
structure Transaction where
  owner : Nat
  nonce : Nat
  fee : Nat
  data : TransactionType
  size : Nat
  deriving DecidableEq, Repr

/-- The slice of the storage interface consumed by the transaction verifier
of blockchain.rs: last balance per (account, asset) and last nonce per
account, both plain u64 in this part of the source. -/
structure VStorage where
  balances : List (Nat × List (Nat × Nat))
  nonces : List (Nat × Nat)
  deriving DecidableEq, Repr

/-- Storage op `get_last_balance(key, asset)` restricted to the balance value
the verifier reads; a missing account or asset is a typed storage error. -/
def VStorage.get_last_balance (s : VStorage) (key asset : Nat) : Except BlockchainError Nat :=
  match alookup s.balances key with
  | none => .error .accountNotFound
  | some assets =>
    match alookup assets asset with
    | none => .error .accountNotFound
    | some balance => .ok balance

/-- Storage op `has_nonce(key)`. -/
def VStorage.has_nonce (s : VStorage) (key : Nat) : Bool :=
  (alookup s.nonces key).isSome

/-- Storage op `get_nonce(key)`. -/
def VStorage.get_nonce (s : VStorage) (key : Nat) : Except BlockchainError Nat :=
  match alookup s.nonces key with
  | none => .error .accountNotFound
  | some n => .ok n

/-- u64 `checked_add`. -/
def checked_add_u64 (a b : Nat) : Option Nat :=
  if a + b < U64_SIZE then some (a + b) else none

/-- From src/xelis_daemon/src/core/blockchain.rs, `verify_transaction_with_hash`,
Transfer arm: walk the outputs accumulating per-asset deductions and the
total extra-data size. -/
def verify_transfer_outputs (owner : Nat) :
    List Transfer → List (Nat × Nat) → Nat →
    Except BlockchainError (List (Nat × Nat) × Nat)
  | [], td, extra => .ok (td, extra)
  | output :: rest, td, extra =>
    if output.«to» = owner then .error .invalidTransactionToSender
    else
      let extra := extra + (match output.extra_data with
        | some data => data.length
        | none => 0)
      let balance := (alookup td output.asset).getD 0
      match checked_add_u64 balance output.amount with
      | some value => verify_transfer_outputs owner rest (aset td output.asset value) extra
      | none => .error .overflow

/-- From src/xelis_daemon/src/core/blockchain.rs, `verify_transaction_with_hash`,
final balance loop: every accumulated per-asset deduction must be covered by
the last stored balance of the owner. -/
def check_funds (s : VStorage) (owner : Nat) :
    List (Nat × Nat) → Except BlockchainError Unit
  | [] => .ok ()
  | (asset, amount) :: rest => do
    let balance ← s.get_last_balance owner asset
    if balance < amount then .error .notEnoughFunds
    else check_funds s owner rest

/-- From src/xelis_daemon/src/core/blockchain.rs, `verify_transaction_with_hash`.
The mutable maps `balances` (per-owner per-asset deductions accumulated
across the txs of a block) and the optional `nonces` map are threaded
explicitly; the function returns their updated values on success. The `hash`
parameter of the source only feeds error payloads, which this embedding
drops, so it is omitted. -/
def verify_transaction_with_hash (s : VStorage) (tx : Transaction)
    (balances : List (Nat × List (Nat × Nat))) (nonces : Option (List (Nat × Nat))) :
    Except BlockchainError (List (Nat × List (Nat × Nat)) × Option (List (Nat × Nat))) := do
  let td := (alookup balances tx.owner).getD []
  let fee_balance := (alookup td XELIS_ASSET).getD 0
  let td ← match checked_add_u64 fee_balance tx.fee with
    | some value => pure (aset td XELIS_ASSET value)
    | none => .error BlockchainError.overflow
  let td ← match tx.data with
    | .transfer txs =>
      if txs.length = 0 then .error BlockchainError.txEmpty
      else do
        let (td, extra_data_size) ← verify_transfer_outputs tx.owner txs td 0
        if extra_data_size > EXTRA_DATA_LIMIT_SIZE then
          .error BlockchainError.invalidTransactionExtraDataTooBig
        else pure td
    | .burn asset amount =>
      let balance := (alookup td asset).getD 0
      match checked_add_u64 balance amount with
      | some value => pure (aset td asset value)
      | none => .error BlockchainError.overflow
    | .smartContract => .error BlockchainError.smartContractTodo
  check_funds s tx.owner td
  let balances := aset balances tx.owner td
  match nonces with
  | some nonces => do
    let default_nonce ←
      if (alookup nonces tx.owner).isNone ∧ s.has_nonce tx.owner then
        s.get_nonce tx.owner
      else pure 0
    let expected := (alookup nonces tx.owner).getD default_nonce
    if expected ≠ tx.nonce then .error BlockchainError.invalidTxNonce
    else pure (balances, some (aset nonces tx.owner (expected + 1)))
  | none => do
    let nonce ← s.get_nonce tx.owner
    if nonce ≠ tx.nonce then .error BlockchainError.invalidTxNonce
    else pure (balances, none)

/-- Mempool: validated pending transactions keyed by hash. -/
structure Mempool where
  txs : List (Nat × Transaction)
  deriving DecidableEq, Repr

/-- Mempool op `contains_tx(hash)`. -/
def Mempool.contains_tx (m : Mempool) (hash : Nat) : Bool :=
  (alookup m.txs hash).isSome

/-- Modelled from the spec: section 4.4 `add(tx)` inserts the validated
transaction keyed by its hash (the mempool module itself is not part of the
snapshot; the hash-presence rejection happens in the caller below). -/
def Mempool.add_tx (m : Mempool) (hash : Nat) (tx : Transaction) : Mempool :=
  ⟨m.txs ++ [(hash, tx)]⟩

/-- From src/xelis_daemon/src/core/blockchain.rs, `add_tx_for_mempool`,
nonce pre-pass: for every pending tx of the same owner, `or_insert(0)` then
keep the largest pending nonce seen. -/
def mempool_owner_nonces (m : Mempool) (owner : Nat) : List (Nat × Nat) :=
  m.txs.foldl
    (fun acc entry =>
      if entry.2.owner = owner then
        let cur := (alookup acc entry.2.owner).getD 0
        aset acc entry.2.owner (if cur < entry.2.nonce then entry.2.nonce else cur)
      else acc)
    []

/-- From src/xelis_daemon/src/core/blockchain.rs, `add_tx_for_mempool`
(broadcast and RPC notification omitted: they do not touch chain state). -/
def add_tx_for_mempool (s : VStorage) (m : Mempool) (tx : Transaction) (hash : Nat) :
    Except BlockchainError Mempool := do
  if m.contains_tx hash then .error BlockchainError.txAlreadyInMempool
  else do
    let nonces := mempool_owner_nonces m tx.owner
    let nonces := match alookup nonces tx.owner with
      | some n => if n + 1 = tx.nonce then aset nonces tx.owner (n + 1) else nonces
      | none => nonces
    let _ ← verify_transaction_with_hash s tx [] (some nonces)
    pure (m.add_tx hash tx)

/-- Modelled from the spec: the genesis block hash constant
`GENESIS_BLOCK_HASH` of the config module (absent from the snapshot). -/
def GENESIS_BLOCK_HASH : Nat := 0

/-- Modelled from the spec: config constant `TIPS_LIMIT` (section 6 gives the
example value 3). -/
def TIPS_LIMIT : Nat := 3

/-- Modelled from the spec: config constant `TIMESTAMP_IN_FUTURE_LIMIT`
(section 6 gives the example value 2000 ms). -/
def TIMESTAMP_IN_FUTURE_LIMIT : Nat := 2000

/-- Modelled from the spec: config constant `MAX_BLOCK_SIZE` (section 6 gives
the example value 1 MiB). -/
def MAX_BLOCK_SIZE : Nat := 1024 * 1024

/-- Modelled from the spec: config constant `GENESIS_BLOCK_DIFFICULTY`. -/
def GENESIS_BLOCK_DIFFICULTY : Nat := 1

/-- Modelled from the spec: config constant `DEV_FEE_PERCENT` (section 4.5). -/
def DEV_FEE_PERCENT : Nat := 5

/-- Modelled from the spec: the protocol dev public key `DEV_PUBLIC_KEY`
(config module, absent from the snapshot); keys are embedded as naturals. -/
def DEV_PUBLIC_KEY : Nat := 99

/-- The record stored for a block by `storage.add_new_block`: header fields,
the block difficulty computed at admission, and the transactions (each paired
with its digest, a 32-byte opaque value embedded as a natural). `header_size`
models `block.size()`, the serialized header length. -/
structure BlockData where
  height : Nat
  timestamp : Nat
  tips : List Nat
  txs : List (Nat × Transaction)
  miner : Nat
  difficulty : Nat
  header_size : Nat
  deriving DecidableEq, Repr

/-- A last balance version in the blockchain.rs world (`VersionedBalance`
with a plain u64 amount): balance and back pointer to the previous version
topoheight. -/
structure VersionedBalance where
  balance : Nat
  previous_topoheight : Option Nat
  deriving DecidableEq, Repr

/-- Modelled from the spec: the storage contract of section 6, restricted to
the operations the coordinator consumes. Blocks are keyed by hash; the topo
order is kept in both directions; balances keep the last version and the
topoheight it was written at. The storage module itself is external to the
core (spec section 1). -/
structure Storage where
  blocks : List (Nat × BlockData)
  topo_by_hash : List (Nat × Nat)
  hash_at_topo : List (Nat × Nat)
  cumulative_difficulties : List (Nat × Nat)
  supplies : List (Nat × Nat)
  rewards : List (Nat × Nat)
  tips_set : List Nat
  balances : List (Nat × List (Nat × (Nat × VersionedBalance)))
  nonces : List (Nat × Nat)
  tx_blocks : List (Nat × List Nat)
  top_topoheight : Nat
  top_height : Nat
  deriving DecidableEq, Repr

/-- Storage op `has_block(hash)`. -/
def Storage.has_block (s : Storage) (hash : Nat) : Bool :=
  (alookup s.blocks hash).isSome

/-- Storage op `get_block_by_hash` / `get_complete_block`. -/
def Storage.get_block_by_hash (s : Storage) (hash : Nat) : Except BlockchainError BlockData :=
  match alookup s.blocks hash with
  | none => .error .blockNotFound
  | some data => .ok data

/-- Storage op `get_past_blocks_of(hash)`: the tips of the stored block. -/
def Storage.get_past_blocks_of (s : Storage) (hash : Nat) : Except BlockchainError (List Nat) :=
  (s.get_block_by_hash hash).map (fun d => d.tips)

/-- Storage op `get_height_for_block(hash)`. -/
def Storage.get_height_for_block (s : Storage) (hash : Nat) : Except BlockchainError Nat :=
  (s.get_block_by_hash hash).map (fun d => d.height)

/-- Storage op `get_timestamp_for_block(hash)`. -/
def Storage.get_timestamp_for_block (s : Storage) (hash : Nat) : Except BlockchainError Nat :=
  (s.get_block_by_hash hash).map (fun d => d.timestamp)

/-- Storage op `get_difficulty_for_block(hash)`. -/
def Storage.get_difficulty_for_block (s : Storage) (hash : Nat) : Except BlockchainError Nat :=
  (s.get_block_by_hash hash).map (fun d => d.difficulty)

/-- Storage op `is_block_topological_ordered(hash)`. -/
def Storage.is_block_topological_ordered (s : Storage) (hash : Nat) : Bool :=
  (alookup s.topo_by_hash hash).isSome

/-- Storage op `get_topo_height_for_hash(hash)`. -/
def Storage.get_topo_height_for_hash (s : Storage) (hash : Nat) : Except BlockchainError Nat :=
  match alookup s.topo_by_hash hash with
  | none => .error .blockNotFound
  | some topo => .ok topo

/-- Storage op `get_hash_at_topo_height(topoheight)`. -/
def Storage.get_hash_at_topo_height (s : Storage) (topo : Nat) : Except BlockchainError Nat :=
  match alookup s.hash_at_topo topo with
  | none => .error .blockNotFound
  | some hash => .ok hash

/-- Storage op `get_cumulative_difficulty_for_block(hash)`. -/
def Storage.get_cumulative_difficulty_for_block (s : Storage) (hash : Nat) :
    Except BlockchainError Nat :=
  match alookup s.cumulative_difficulties hash with
  | none => .error .blockNotFound
  | some cd => .ok cd

/-- Storage op `get_supply_at_topo_height(topoheight)`: the supply recorded
for the block ordered at that topoheight. -/
def Storage.get_supply_at_topo_height (s : Storage) (topo : Nat) : Except BlockchainError Nat := do
  let hash ← s.get_hash_at_topo_height topo
  match alookup s.supplies hash with
  | none => .error .blockNotFound
  | some supply => .ok supply

/-- Storage op `get_blocks_at_height(height)`: hashes of stored blocks at the
given height, in storage order. -/
def Storage.get_blocks_at_height (s : Storage) (height : Nat) : List Nat :=
  (s.blocks.filter (fun entry => entry.2.height = height)).map (fun entry => entry.1)

/-- From src/xelis_daemon/src/core/blockchain.rs, `validate_tips`: a non-best
tip is acceptable iff its stored difficulty is strictly above 91% of the best
tip difficulty (integer arithmetic). -/
def validate_tips (s : Storage) (best_tip tip : Nat) : Except BlockchainError Bool := do
  let best_difficulty ← s.get_difficulty_for_block best_tip
  let block_difficulty ← s.get_difficulty_for_block tip
  .ok (decide (best_difficulty * 91 / 100 < block_difficulty))

/-- From src/xelis_daemon/src/core/blockchain.rs, `is_side_block` while loop:
walk topoheights downward from `i`, for at most `remaining` steps and only
while `i > 0`, returning true as soon as a predecessor at least as high as
the block is found. -/
def side_block_scan (s : Storage) (height : Nat) : Nat → Nat → Except BlockchainError Bool
  | 0, _ => .ok false
  | _ + 1, 0 => .ok false
  | remaining + 1, i + 1 => do
    let hash ← s.get_hash_at_topo_height (i + 1)
    let previous_height ← s.get_height_for_block hash
    if height ≤ previous_height then .ok true
    else side_block_scan s height remaining i

/-- From src/xelis_daemon/src/core/blockchain.rs, `is_side_block`. -/
def is_side_block (s : Storage) (hash : Nat) : Except BlockchainError Bool := do
  if ¬ s.is_block_topological_ordered hash then .ok false
  else do
    let topoheight ← s.get_topo_height_for_hash hash
    if topoheight = 0 then .ok false
    else do
      let height ← s.get_height_for_block hash
      side_block_scan s height STABLE_HEIGHT_LIMIT (topoheight - 1)

/-- The side-block characterization claimed by the spec, written from the
spec words for comparison with `is_side_block`: a topologically ordered block
at topoheight at least 1 is a side block iff every one of the nearest
`STABLE_HEIGHT_LIMIT` predecessors by topoheight has height at least the
height of the block. -/
def side_block_all_preds (s : Storage) (hash : Nat) : Bool :=
  match alookup s.topo_by_hash hash with
  | none => false
  | some topoheight =>
    if topoheight = 0 then false
    else
      match alookup s.blocks hash with
      | none => false
      | some data =>
        (List.range STABLE_HEIGHT_LIMIT).all (fun k =>
          let i := topoheight - 1 - k
          decide (k ≥ topoheight) ||
          match alookup s.hash_at_topo i with
          | none => false
          | some h =>
            match alookup s.blocks h with
            | none => false
            | some pd => decide (data.height ≤ pd.height))

/-- HashSet-style insert for key sets embedded as lists. -/
def sinsert (x : Nat) (l : List Nat) : List Nat :=
  if x ∈ l then l else x :: l

/-- From src/xelis_daemon/src/core/blockchain.rs, `rewind_transaction`:
collect the keys touched by a rewound transaction and fold its nonce into
the per-owner map (`or_insert` the nonce, then overwrite whenever the stored
entry is smaller, despite the comment in the source asking for the lowest). -/
def rewind_transaction (tx : Transaction) (keys : List Nat) (nonces : List (Nat × Nat)) :
    Except BlockchainError (List Nat × List (Nat × Nat)) := do
  let keys := sinsert tx.owner keys
  let keys ← match tx.data with
    | .transfer txs => pure (txs.foldl (fun acc output => sinsert output.«to» acc) keys)
    | _ => .error BlockchainError.smartContractTodo
  let nonce := (alookup nonces tx.owner).getD tx.nonce
  let nonce := if nonce < tx.nonce then tx.nonce else nonce
  .ok (keys, aset nonces tx.owner nonce)

/-- From src/xelis_daemon/src/core/blockchain.rs, `rewind_chain_for_storage`:
the fold of `rewind_transaction` over the transactions popped from storage;
the resulting map is then written back with `set_nonce` per account. -/
def rewind_chain_nonces (txs : List Transaction) :
    Except BlockchainError (List Nat × List (Nat × Nat)) :=
  txs.foldlM (fun acc tx => rewind_transaction tx acc.1 acc.2) ([], [])

end Xelis

namespace XelisCS

open Xelis (alookup aset BlockchainError)

/-- Ciphertext of the encrypted-balance world of chain_state.rs: opaque and
additively homomorphic per the spec (section 3), embedded as the integer it
decrypts to, with ciphertext addition becoming integer addition. -/
abbrev Ciphertext := Int

/-- `VersionedBalance` of the chain_state.rs world: a ciphertext balance, an
optional output (post-spend) ciphertext, and the previous version pointer. -/
structure CSVersionedBalance where
  balance : Ciphertext
  output_balance : Option Ciphertext
  previous_topoheight : Option Nat
  deriving DecidableEq, Repr

/-- `VersionedNonce`: nonce plus previous version pointer. -/
structure VersionedNonce where
  nonce : Nat
  previous_topoheight : Option Nat
  deriving DecidableEq, Repr

/-- From src/xelis_daemon/src/core/chain_state.rs, `Echange`: the staged
state of one sender asset (its working version, the aggregated ciphertext
change of the block, and whether the output balance is the working one). -/
structure Echange where
  version : CSVersionedBalance
  change : Option Ciphertext
  use_output : Bool
  deriving DecidableEq, Repr

/-- From src/xelis_daemon/src/core/chain_state.rs, `Account`: staged nonce
and staged asset changes of a sender. -/
structure Account where
  nonce : VersionedNonce
  assets : List (Nat × Echange)
  deriving DecidableEq, Repr

/-- The slice of storage consumed by `ChainState::apply_changes`: last
balance versions (with the topoheight they were written at) and last nonce
versions. -/
structure CSStorage where
  balances : List (Nat × List (Nat × (Nat × CSVersionedBalance)))
  nonces : List (Nat × (Nat × VersionedNonce))
  deriving DecidableEq, Repr

/-- Storage op `set_last_balance_to(key, asset, topoheight, version)`. -/
def CSStorage.set_last_balance_to (s : CSStorage) (key asset topo : Nat)
    (version : CSVersionedBalance) : CSStorage :=
  let assets := (alookup s.balances key).getD []
  { s with balances := aset s.balances key (aset assets asset (topo, version)) }

/-- Storage op `set_last_nonce_to(key, topoheight, version)`. -/
def CSStorage.set_last_nonce_to (s : CSStorage) (key topo : Nat)
    (version : VersionedNonce) : CSStorage :=
  { s with nonces := aset s.nonces key (topo, version) }

/-- Storage op `has_nonce(key)`. -/
def CSStorage.has_nonce (s : CSStorage) (key : Nat) : Bool :=
  (alookup s.nonces key).isSome

/-- From src/xelis_daemon/src/core/chain_state.rs, `ChainState` (the storage
handle is carried in the structure, as in the source). -/
structure ChainState where
  storage : CSStorage
  receiver_balances : List (Nat × List (Nat × CSVersionedBalance))
  accounts : List (Nat × Account)
  topoheight : Nat
  stable_topoheight : Nat
  fees_collected : Nat
  deriving DecidableEq, Repr

/-- From src/xelis_daemon/src/core/chain_state.rs, `apply_changes`, inner
drain loop over the assets of one sender: move each staged sender version
into the receiver balances, splitting the version (setting only the output
balance, the aggregated change being left unapplied, as the source does)
when incoming funds already produced an entry for the same asset. -/
def apply_sender_assets (balances : List (Nat × CSVersionedBalance)) :
    List (Nat × Echange) → Except BlockchainError (List (Nat × CSVersionedBalance))
  | [] => .ok balances
  | (asset, echange) :: rest =>
    match alookup balances asset with
    | some final_version =>
      match echange.change with
      | none => .error .noSenderOutput
      | some _ =>
        apply_sender_assets
          (aset balances asset
            { final_version with output_balance := some echange.version.balance }) rest
    | none => apply_sender_assets (aset balances asset echange.version) rest

/-- From src/xelis_daemon/src/core/chain_state.rs, `apply_changes`, first
loop: persist every staged sender nonce and fold the staged sender assets
into the receiver balances map. -/
def apply_accounts (topoheight : Nat) :
    List (Nat × Account) → CSStorage → List (Nat × List (Nat × CSVersionedBalance)) →
    Except BlockchainError (CSStorage × List (Nat × List (Nat × CSVersionedBalance)))
  | [], storage, rb => .ok (storage, rb)
  | (key, account) :: rest, storage, rb => do
    let storage := storage.set_last_nonce_to key topoheight account.nonce
    let balances := (alookup rb key).getD []
    let balances ← apply_sender_assets balances account.assets
    apply_accounts topoheight rest storage (aset rb key balances)

/-- From src/xelis_daemon/src/core/chain_state.rs, `apply_changes`, second
loop: persist every receiver balance at the block topoheight and register a
default zero nonce for receivers that are not senders and have none. -/
def apply_balances (accounts : List (Nat × Account)) (topoheight : Nat) :
    List (Nat × List (Nat × CSVersionedBalance)) → CSStorage → CSStorage
  | [], storage => storage
  | (account, balances) :: rest, storage =>
    let storage := balances.foldl
      (fun st entry => st.set_last_balance_to account entry.1 topoheight entry.2) storage
    let storage :=
      if ¬ (alookup accounts account).isSome ∧ ¬ storage.has_nonce account then
        storage.set_last_nonce_to account topoheight ⟨0, none⟩
      else storage
    apply_balances accounts topoheight rest storage

/-- From src/xelis_daemon/src/core/chain_state.rs, `apply_changes`. -/
def apply_changes (cs : ChainState) : Except BlockchainError CSStorage := do
  let (storage, rb) ← apply_accounts cs.topoheight cs.accounts cs.storage cs.receiver_balances
  .ok (apply_balances cs.accounts cs.topoheight rb storage)

end XelisCS

namespace Xelis

/-- Storage fixture for the tip difficulty band: block 1 has difficulty 1000
(best tip), block 2 has difficulty 910. -/
def c5_storage : Storage :=
  ⟨[(1, ⟨1, 0, [], [], 0, 1000, 0⟩), (2, ⟨1, 0, [], [], 0, 910, 0⟩)],
    [], [], [], [], [], [], [], [], [], 0, 0⟩

/-- Storage fixture for the tip difficulty band with difficulties 1000 and
911. -/
def c5w_storage : Storage :=
  ⟨[(1, ⟨1, 0, [], [], 0, 1000, 0⟩), (2, ⟨1, 0, [], [], 0, 911, 0⟩)],
    [], [], [], [], [], [], [], [], [], 0, 0⟩

/-- Storage fixture for the side-block predicate: the ordered chain is
hash 100 at topoheight 0 (height 0), hash 101 at topoheight 1 (height 1),
hash 102 at topoheight 2 (height 5) and hash 103 at topoheight 3 (height 2).
Block 103 has a recent predecessor at least as high (102) but also one
strictly lower (101). -/
def c1_storage : Storage :=
  ⟨[(100, ⟨0, 0, [], [], 0, 1, 0⟩), (101, ⟨1, 0, [100], [], 0, 1, 0⟩),
    (102, ⟨5, 0, [101], [], 0, 1, 0⟩), (103, ⟨2, 0, [101], [], 0, 1, 0⟩)],
    [(100, 0), (101, 1), (102, 2), (103, 3)],
    [(0, 100), (1, 101), (2, 102), (3, 103)],
    [], [], [], [], [], [], [], 3, 5⟩

/-- Storage fixture for the side-block characterization witness: hash 200 at
topoheight 0 (height 0), hash 201 at topoheight 1 (height 3), hash 202 at
topoheight 2 (height 1). -/
def c1w_storage : Storage :=
  ⟨[(200, ⟨0, 0, [], [], 0, 1, 0⟩), (201, ⟨3, 0, [200], [], 0, 1, 0⟩),
    (202, ⟨1, 0, [200], [], 0, 1, 0⟩)],
    [(200, 0), (201, 1), (202, 2)],
    [(0, 200), (1, 201), (2, 202)],
    [], [], [], [], [], [], [], 2, 3⟩

/-- Two transactions of the same owner with nonces 3 and 5, as popped by a
rewind. -/
def c7_tx1 : Transaction := ⟨1, 3, 0, .transfer [⟨2, 0, 1, none⟩], 1⟩

/-- Second popped transaction of the same owner, nonce 5. -/
def c7_tx2 : Transaction := ⟨1, 5, 0, .transfer [⟨2, 0, 1, none⟩], 1⟩

/-- Verifier storage fixture: account 1 holds 100 of the native asset and
has nonce 0. -/
def c4_storage : VStorage := ⟨[(1, [(0, 100)])], [(1, 0)]⟩

/-- A burn transaction of owner 1 paying zero fee, of serialized size 1. -/
def c4_tx : Transaction := ⟨1, 0, 0, .burn 0 10, 1⟩

/-- Verifier storage fixture for the mempool claims: account 1 holds 100 of
the native asset and has nonce 0. -/
def c8_storage : VStorage := ⟨[(1, [(0, 100)])], [(1, 0)]⟩

/-- A pending mempool transaction of owner 1 with nonce 0. -/
def c8_tx1 : Transaction := ⟨1, 0, 0, .burn 0 1, 1⟩

/-- A second transaction of owner 1 with the same nonce 0 but a different
hash (it burns a different amount). -/
def c8_tx2 : Transaction := ⟨1, 0, 0, .burn 0 2, 1⟩

/-- Mempool holding the pending transaction `c8_tx1` under hash 10. -/
def c8_mempool : Mempool := ⟨[(10, c8_tx1)]⟩

/-- Mempool fixture for the nonce-window witness: one pending transaction of
owner 1 with nonce 4. -/
def c8w_mempool : Mempool := ⟨[(20, ⟨1, 4, 0, .burn 0 1, 1⟩)]⟩

/-- A transaction of owner 1 with nonce 9, far from the pending window. -/
def c8w_tx : Transaction := ⟨1, 9, 0, .burn 0 1, 1⟩

end Xelis

namespace XelisCS

/-- Chain state fixture for the commit split: sender 1 started the block
with balance 100 of asset 0, spent 60 (staged sender version 40, aggregated
change -60) and received 100 in the same block (receiver entry 200); the
block commits at topoheight 5. -/
def c6_state : ChainState :=
  ⟨⟨[(1, [(0, (0, ⟨100, none, none⟩))])], [(1, (0, ⟨1, none⟩))]⟩,
    [(1, [(0, ⟨200, none, some 0⟩)])],
    [(1, ⟨⟨2, some 0⟩, [(0, ⟨⟨40, none, none⟩, some (-60), false⟩)]⟩)],
    5, 0, 0⟩

/-- Chain state fixture for the default-nonce registration: account 7
receives 50 of asset 0 at topoheight 3, is not a sender and has no stored
nonce. -/
def c10w_state : ChainState :=
  ⟨⟨[], []⟩, [(7, [(0, ⟨50, none, none⟩)])], [], 3, 0, 0⟩

end XelisCS

namespace Xelis

/-- A complete block as received by `add_new_block`: header fields, declared
transaction hashes, and the transactions each paired with its computed
digest (digests are opaque 32-byte values, embedded as naturals and carried
as data, as is the header digest `hash` and the serialized header length
`header_size`). -/
structure CompleteBlock where
  hash : Nat
  height : Nat
  timestamp : Nat
  tips : List Nat
  txs_hashes : List Nat
  transactions : List (Nat × Transaction)
  miner : Nat
  header_size : Nat
  deriving DecidableEq, Repr

/-- The caches of the `Blockchain` struct (atomics read by admission). -/
structure ChainCache where
  height : Nat
  topoheight : Nat
  stable_height : Nat
  difficulty : Nat
  deriving DecidableEq, Repr

/-- The state mutated by the coordinator: storage plus mempool. -/
structure SState where
  storage : Storage
  mempool : Mempool
  deriving DecidableEq, Repr

/-- Storage op `add_new_block(block, txs, difficulty, hash)`. -/
def Storage.add_new_block (s : Storage) (b : CompleteBlock) (difficulty : Nat) : Storage :=
  let data : BlockData :=
    ⟨b.height, b.timestamp, b.tips, b.transactions, b.miner, difficulty, b.header_size⟩
  { s with blocks := aset s.blocks b.hash data }

/-- Storage op `set_topo_height_for_block(hash, topoheight)` (both directions
of the order are kept). -/
def Storage.set_topo_height_for_block (s : Storage) (hash topo : Nat) : Storage :=
  { s with topo_by_hash := aset s.topo_by_hash hash topo,
           hash_at_topo := aset s.hash_at_topo topo hash }

/-- Storage op `set_cumulative_difficulty_for_block`. -/
def Storage.set_cumulative_difficulty_for_block (s : Storage) (hash cd : Nat) : Storage :=
  { s with cumulative_difficulties := aset s.cumulative_difficulties hash cd }

/-- Storage op `set_block_reward`. -/
def Storage.set_block_reward (s : Storage) (hash reward : Nat) : Storage :=
  { s with rewards := aset s.rewards hash reward }

/-- Storage op `set_supply_for_block`. -/
def Storage.set_supply_for_block (s : Storage) (hash supply : Nat) : Storage :=
  { s with supplies := aset s.supplies hash supply }

/-- Storage op `set_nonce(key, nonce)`. -/
def Storage.set_nonce (s : Storage) (key nonce : Nat) : Storage :=
  { s with nonces := aset s.nonces key nonce }

/-- Storage op `set_balance_to(key, asset, topoheight, version)`. -/
def Storage.set_balance_to (s : Storage) (key asset topo : Nat) (version : VersionedBalance) :
    Storage :=
  let assets := (alookup s.balances key).getD []
  { s with balances := aset s.balances key (aset assets asset (topo, version)) }

/-- Storage op `get_new_versioned_balance(key, asset, topoheight)`: a fresh
version carrying the last balance and pointing back at the topoheight of the
last stored version. -/
def Storage.get_new_versioned_balance (s : Storage) (key asset : Nat) : VersionedBalance :=
  match alookup s.balances key with
  | none => ⟨0, none⟩
  | some assets =>
    match alookup assets asset with
    | none => ⟨0, none⟩
    | some (topo, version) => ⟨version.balance, some topo⟩

/-- Storage op `store_tips`. -/
def Storage.store_tips (s : Storage) (tips : List Nat) : Storage :=
  { s with tips_set := tips }

/-- Storage op `set_top_topoheight`. -/
def Storage.set_top_topoheight (s : Storage) (topo : Nat) : Storage :=
  { s with top_topoheight := topo }

/-- Storage op `set_top_height`. -/
def Storage.set_top_height (s : Storage) (height : Nat) : Storage :=
  { s with top_height := height }

/-- Storage op `has_block_linked_to_tx`. -/
def Storage.has_block_linked_to_tx (s : Storage) (tx_hash block_hash : Nat) : Bool :=
  match alookup s.tx_blocks tx_hash with
  | none => false
  | some blocks => blocks.contains block_hash

/-- Storage op `add_block_for_tx`. -/
def Storage.add_block_for_tx (s : Storage) (tx_hash block_hash : Nat) : Storage :=
  let blocks := (alookup s.tx_blocks tx_hash).getD []
  { s with tx_blocks := aset s.tx_blocks tx_hash (blocks ++ [block_hash]) }

/-- The projection of the full storage onto the slice the transaction
verifier consumes (`get_last_balance`, `get_nonce`, `has_nonce`). -/
def Storage.to_vstorage (s : Storage) : VStorage :=
  ⟨s.balances.map (fun entry => (entry.1, entry.2.map (fun a => (a.1, a.2.2.balance)))),
   s.nonces⟩

/-- u64 `add_balance` of VersionedBalance (wrapping, as release Rust). -/
def VersionedBalance.add_balance (v : VersionedBalance) (amount : Nat) : VersionedBalance :=
  { v with balance := (v.balance + amount) % U64_SIZE }

/-- u64 `sub_balance` of VersionedBalance (wrapping, as release Rust). -/
def VersionedBalance.sub_balance (v : VersionedBalance) (amount : Nat) : VersionedBalance :=
  { v with balance := u64_wrapping_sub v.balance amount }

/-- From src/xelis_daemon/src/core/blockchain.rs, `retrieve_balance` +
`add_balance`: get or create the staged version and add to it. -/
def bal_add (s : Storage) (balances : List (Nat × List (Nat × VersionedBalance)))
    (key asset amount : Nat) : List (Nat × List (Nat × VersionedBalance)) :=
  let assets := (alookup balances key).getD []
  let version := match alookup assets asset with
    | some v => v
    | none => s.get_new_versioned_balance key asset
  aset balances key (aset assets asset (version.add_balance amount))

/-- From src/xelis_daemon/src/core/blockchain.rs, `retrieve_balance` +
`sub_balance`: get or create the staged version and subtract from it. -/
def bal_sub (s : Storage) (balances : List (Nat × List (Nat × VersionedBalance)))
    (key asset amount : Nat) : List (Nat × List (Nat × VersionedBalance)) :=
  let assets := (alookup balances key).getD []
  let version := match alookup assets asset with
    | some v => v
    | none => s.get_new_versioned_balance key asset
  aset balances key (aset assets asset (version.sub_balance amount))

/-- Whether the executor can run this payload (everything except the
unimplemented smart contracts). -/
def tx_executable : TransactionType → Bool
  | .smartContract => false
  | _ => true

/-- From src/xelis_daemon/src/core/blockchain.rs, `execute_transaction`:
apply receiver credits, debit the sender for outputs plus fee, and advance
the stored nonce. -/
def execute_transaction (s : Storage) (tx : Transaction) (nonces : List (Nat × Nat))
    (balances : List (Nat × List (Nat × VersionedBalance))) :
    Except BlockchainError
      (Storage × List (Nat × Nat) × List (Nat × List (Nat × VersionedBalance))) := do
  let td : List (Nat × Nat) := [(XELIS_ASSET, tx.fee)]
  let (td, balances) ← match tx.data with
    | .burn asset amount =>
      pure (aset td asset ((alookup td asset).getD 0 + amount), balances)
    | .transfer txs =>
      pure (txs.foldl
        (fun acc output =>
          (aset acc.1 output.asset ((alookup acc.1 output.asset).getD 0 + output.amount),
           bal_add s acc.2 output.«to» output.asset output.amount))
        (td, balances))
    | .smartContract => .error BlockchainError.smartContractTodo
  let balances := td.foldl (fun bals entry => bal_sub s bals tx.owner entry.1 entry.2) balances
  let nonce := tx.nonce + 1
  let s := s.set_nonce tx.owner nonce
  .ok (s, aset nonces tx.owner nonce, balances)

/-- From src/xelis_daemon/src/core/blockchain.rs, `reward_miner`: dev fee
share first when enabled, then the miner gets the rest plus the fees. -/
def reward_miner (s : Storage) (miner block_reward total_fees : Nat)
    (balances : List (Nat × List (Nat × VersionedBalance))) :
    List (Nat × List (Nat × VersionedBalance)) :=
  if DEV_FEE_PERCENT ≠ 0 then
    let dev_fee := block_reward * DEV_FEE_PERCENT / 100
    let balances := bal_add s balances DEV_PUBLIC_KEY XELIS_ASSET dev_fee
    bal_add s balances miner XELIS_ASSET (block_reward - dev_fee + total_fees)
  else
    bal_add s balances miner XELIS_ASSET (block_reward + total_fees)

/-- Modelled from the spec: `blockdag::calculate_height_at_tips` (the
blockdag module is not under src/): invariant I2 of section 3, the block
height is one more than the highest tip height, 0 with no tips. -/
def tips_max_height (s : Storage) : List Nat → Except BlockchainError Nat
  | [] => .ok 0
  | h :: rest => do
    let ht ← s.get_height_for_block h
    let m ← tips_max_height s rest
    .ok (max ht m)

/-- Modelled from the spec: `blockdag::calculate_height_at_tips`. -/
def calculate_height_at_tips (s : Storage) (tips : List Nat) : Except BlockchainError Nat :=
  if tips.isEmpty then .ok 0
  else do
    let m ← tips_max_height s tips
    .ok (m + 1)

/-- Modelled from the spec: `blockdag::sort_descending_by_cumulative_difficulty`
(section 4.1: descending by cumulative difficulty, descending hash as the
tiebreak); a deterministic insertion sort. -/
def sort_desc_insert (x : Nat × Nat) : List (Nat × Nat) → List (Nat × Nat)
  | [] => [x]
  | y :: rest =>
    if x.2 > y.2 ∨ (x.2 = y.2 ∧ x.1 > y.1) then x :: y :: rest
    else y :: sort_desc_insert x rest

/-- Modelled from the spec: `blockdag::sort_descending_by_cumulative_difficulty`. -/
def sort_descending_by_cumulative_difficulty (l : List (Nat × Nat)) : List (Nat × Nat) :=
  l.foldr sort_desc_insert []

/-- Score collection for best-tip selection: each tip with its stored
cumulative difficulty. -/
def collect_cumulative_scores (s : Storage) : List Nat → Except BlockchainError (List (Nat × Nat))
  | [] => .ok []
  | h :: rest => do
    let d ← s.get_cumulative_difficulty_for_block h
    let tail ← collect_cumulative_scores s rest
    .ok ((h, d) :: tail)

/-- Modelled from the spec: `blockdag::find_best_tip_by_cumulative_difficulty`
(section 4.1 best-tip selection): score the tips by stored cumulative
difficulty and take the first after the descending sort; an empty tip set is
the expected-tips error, as in the sibling `find_best_tip` of blockchain.rs. -/
def find_best_tip_by_cumulative_difficulty (s : Storage) (tips : List Nat) :
    Except BlockchainError Nat := do
  let scores ← collect_cumulative_scores s tips
  match sort_descending_by_cumulative_difficulty scores with
  | [] => .error .expectedTips
  | (h, _) :: _ => .ok h

end Xelis

namespace Xelis

/-- From src/xelis_daemon/src/core/blockchain.rs, `is_block_sync_at_height`,
predecessor-height collection loop: walk heights downward from `i` while the
(u64-wrapped) lower bound is not passed and `i` is not 0. -/
def pre_blocks_scan (s : Storage) (low : Nat) : Nat → List Nat
  | 0 => []
  | i + 1 =>
    if low ≤ i + 1 then s.get_blocks_at_height (i + 1) ++ pre_blocks_scan s low i
    else []

/-- From src/xelis_daemon/src/core/blockchain.rs, `is_block_sync_at_height`,
final loop: no collected predecessor may reach the candidate cumulative
difficulty. -/
def sync_pre_check (s : Storage) (scd : Nat) : List Nat → Except BlockchainError Bool
  | [] => .ok true
  | h :: rest => do
    let cd ← s.get_cumulative_difficulty_for_block h
    if cd ≥ scd then .ok false else sync_pre_check s scd rest

/-- From src/xelis_daemon/src/core/blockchain.rs, `is_block_sync_at_height`.
The lower bound `block_height - STABLE_HEIGHT_LIMIT` is u64-wrapped as in
the source. -/
def is_block_sync_at_height (s : Storage) (hash height : Nat) :
    Except BlockchainError Bool := do
  let block_height ← s.get_height_for_block hash
  if block_height = 0 then .ok true
  else if block_height + STABLE_HEIGHT_LIMIT > height ∨ ¬ s.is_block_topological_ordered hash then
    .ok false
  else
    let tips_at_height := s.get_blocks_at_height block_height
    if tips_at_height.length = 1 then .ok true
    else if tips_at_height.length > 1 then
      if (tips_at_height.filter (fun h => s.is_block_topological_ordered h)).length > 1 then
        .ok false
      else do
        let pre_blocks := pre_blocks_scan s
          (u64_wrapping_sub block_height STABLE_HEIGHT_LIMIT) (block_height - 1)
        let scd ← s.get_cumulative_difficulty_for_block hash
        sync_pre_check s scd pre_blocks
    else .ok true

/-- Stable ascending insertion by the height component, for `sort_by` over
tip bases. -/
def insert_asc (x : Nat × Nat) : List (Nat × Nat) → List (Nat × Nat)
  | [] => [x]
  | y :: rest => if y.2 ≤ x.2 then y :: insert_asc x rest else x :: y :: rest

/-- Stable ascending sort by height (`bases.sort_by(|(_, a), (_, b)| a.cmp(b))`). -/
def sort_asc_by_height (l : List (Nat × Nat)) : List (Nat × Nat) :=
  l.foldl (fun acc x => insert_asc x acc) []

mutual
/-- From src/xelis_daemon/src/core/blockchain.rs, `find_tip_base`: DFS for
the first sync ancestor; explicit fuel replaces the unbounded recursion. -/
def find_tip_base (s : Storage) (height : Nat) (hash : Nat) :
    Nat → Except BlockchainError (Nat × Nat)
  | 0 => .error .dagRecursionLimit
  | fuel + 1 => do
    let tips ← s.get_past_blocks_of hash
    if tips.length = 0 then .ok (hash, 0)
    else find_tip_base_list s height tips [] fuel
termination_by fuel => (fuel, 0)

/-- The tip loop of `find_tip_base`: early return on a sync tip, otherwise
accumulate recursive bases, sort ascending by height and take the first. -/
def find_tip_base_list (s : Storage) (height : Nat) :
    List Nat → List (Nat × Nat) → Nat → Except BlockchainError (Nat × Nat)
  | [], bases, _ =>
    (match sort_asc_by_height bases with
      | [] => .error .expectedTips
      | b :: _ => .ok b)
  | h :: rest, bases, fuel => do
    let sync ← is_block_sync_at_height s h height
    if sync then do
      let bh ← s.get_height_for_block h
      .ok (h, bh)
    else do
      let b ← find_tip_base s height h fuel
      find_tip_base_list s height rest (bases ++ [b]) fuel
termination_by l _ fuel => (fuel, l.length + 1)
end

/-- From src/xelis_daemon/src/core/blockchain.rs, `find_common_base`, first
loop: the highest tip height. -/
def tips_best_height (s : Storage) : List Nat → Nat → Except BlockchainError Nat
  | [], best => .ok best
  | h :: rest, best => do
    let ht ← s.get_height_for_block h
    tips_best_height s rest (if ht > best then ht else best)

/-- The per-tip bases of `find_common_base`. -/
def collect_tip_bases (s : Storage) (best_height fuel : Nat) :
    List Nat → Except BlockchainError (List (Nat × Nat))
  | [] => .ok []
  | h :: rest => do
    let b ← find_tip_base s best_height h fuel
    let tail ← collect_tip_bases s best_height fuel rest
    .ok (b :: tail)

/-- From src/xelis_daemon/src/core/blockchain.rs, `find_common_base`. -/
def find_common_base (s : Storage) (tips : List Nat) (fuel : Nat) :
    Except BlockchainError (Nat × Nat) := do
  let best_height ← tips_best_height s tips 0
  let bases ← collect_tip_bases s best_height fuel tips
  match sort_asc_by_height bases with
  | [] => .error .expectedTips
  | (common_hash, _) :: _ => do
    let common_height ← s.get_height_for_block common_hash
    .ok (common_hash, common_height)

mutual
/-- From src/xelis_daemon/src/core/blockchain.rs,
`build_reachability_recursive`; the generation bound of the source
(`2 * STABLE_HEIGHT_LIMIT` levels) is the structural fuel. -/
def build_reach (s : Storage) (set : List Nat) (hash : Nat) :
    Nat → Except BlockchainError (List Nat)
  | 0 => .ok (hash :: set)
  | fuel + 1 => do
    let tips ← s.get_past_blocks_of hash
    build_reach_list s (hash :: set) tips fuel
termination_by fuel => (fuel, 0)

/-- The past loop of `build_reachability_recursive`. -/
def build_reach_list (s : Storage) (set : List Nat) :
    List Nat → Nat → Except BlockchainError (List Nat)
  | [], _ => .ok set
  | h :: rest, fuel =>
    if h ∈ set then build_reach_list s set rest fuel
    else do
      let set2 ← build_reach s set h fuel
      build_reach_list s set2 rest fuel
termination_by l fuel => (fuel, l.length + 1)
end

/-- The pairwise check of `verify_non_reachability`: no tip may appear in
the reachability set of another tip. -/
def reach_ok (tips : List Nat) (reach : List (List Nat)) : Bool :=
  (List.range tips.length).all (fun i =>
    (List.range tips.length).all (fun j =>
      decide (i = j) || ! ((reach.getD j []).contains (tips.getD i 0))))

/-- The per-tip reachability sets of `verify_non_reachability`. -/
def collect_reach_sets (s : Storage) : List Nat → Except BlockchainError (List (List Nat))
  | [] => .ok []
  | h :: rest => do
    let set ← build_reach s [] h (2 * STABLE_HEIGHT_LIMIT)
    let tail ← collect_reach_sets s rest
    .ok (set :: tail)

/-- From src/xelis_daemon/src/core/blockchain.rs, `verify_non_reachability`. -/
def verify_non_reachability (s : Storage) (tips : List Nat) :
    Except BlockchainError Bool := do
  let reach ← collect_reach_sets s tips
  .ok (reach_ok tips reach)

mutual
/-- From src/xelis_daemon/src/core/blockchain.rs,
`calculate_distance_from_mainchain_recursive`; explicit fuel replaces the
unbounded recursion. -/
def calc_distance_rec (s : Storage) (set : List Nat) (hash : Nat) :
    Nat → Except BlockchainError (List Nat)
  | 0 => .error .dagRecursionLimit
  | fuel + 1 => do
    let tips ← s.get_past_blocks_of hash
    calc_distance_list s set tips fuel
termination_by fuel => (fuel, 0)

/-- The past loop of `calculate_distance_from_mainchain_recursive`: collect
the heights of ordered ancestors, descend through unordered ones. -/
def calc_distance_list (s : Storage) (set : List Nat) :
    List Nat → Nat → Except BlockchainError (List Nat)
  | [], _ => .ok set
  | h :: rest, fuel =>
    if s.is_block_topological_ordered h then do
      let ht ← s.get_height_for_block h
      calc_distance_list s (ht :: set) rest fuel
    else do
      let set2 ← calc_distance_rec s set h fuel
      calc_distance_list s set2 rest fuel
termination_by l fuel => (fuel, l.length + 1)
end

/-- From src/xelis_daemon/src/core/blockchain.rs,
`calculate_distance_from_mainchain` (the minimum over the collected heights
starts from `u64::max_value()`). -/
def calculate_distance_from_mainchain (s : Storage) (hash fuel : Nat) :
    Except BlockchainError Nat :=
  if s.is_block_topological_ordered hash then s.get_height_for_block hash
  else do
    let set ← calc_distance_rec s [] hash fuel
    .ok (set.foldl (fun lowest h => if lowest > h then h else lowest) (U64_SIZE - 1))

mutual
/-- From src/xelis_daemon/src/core/blockchain.rs,
`find_tip_work_score_internal`; explicit fuel replaces the unbounded
recursion. -/
def work_score_rec (s : Storage) (base_topoheight : Nat) (map : List (Nat × Nat)) (hash : Nat) :
    Nat → Except BlockchainError (List (Nat × Nat))
  | 0 => .error .dagRecursionLimit
  | fuel + 1 => do
    let tips ← s.get_past_blocks_of hash
    let map2 ← work_score_list s base_topoheight map tips fuel
    let d ← s.get_difficulty_for_block hash
    .ok (aset map2 hash d)
termination_by fuel => (fuel, 0)

/-- The past loop shared by `find_tip_work_score` and its internal helper:
descend into parents that are unordered or ordered at or above the base. -/
def work_score_list (s : Storage) (base_topoheight : Nat) (map : List (Nat × Nat)) :
    List Nat → Nat → Except BlockchainError (List (Nat × Nat))
  | [], _ => .ok map
  | h :: rest, fuel => do
    let map2 ←
      if (alookup map h).isSome then pure map
      else if ¬ s.is_block_topological_ordered h then work_score_rec s base_topoheight map h fuel
      else do
        let topo ← s.get_topo_height_for_hash h
        if topo ≥ base_topoheight then work_score_rec s base_topoheight map h fuel
        else pure map
    work_score_list s base_topoheight map2 rest fuel
termination_by l fuel => (fuel, l.length + 1)
end

/-- From src/xelis_daemon/src/core/blockchain.rs, `find_tip_work_score`. -/
def find_tip_work_score (s : Storage) (hash base : Nat) (_base_height fuel : Nat) :
    Except BlockchainError (List (Nat × Nat) × Nat) := do
  let block ← s.get_block_by_hash hash
  let base_topoheight ← s.get_topo_height_for_hash base
  let map ← work_score_list s base_topoheight [] block.tips fuel
  let map ←
    if base ≠ hash then do
      let cd ← s.get_cumulative_difficulty_for_block base
      pure (aset map base cd)
    else pure map
  let d ← s.get_difficulty_for_block hash
  let map := aset map hash d
  .ok (map, (map.map Prod.snd).sum)

/-- The per-tip work scores of `find_best_tip`. -/
def collect_work_scores (s : Storage) (base base_height fuel : Nat) :
    List Nat → Except BlockchainError (List (Nat × Nat))
  | [] => .ok []
  | h :: rest => do
    let r ← find_tip_work_score s h base base_height fuel
    let tail ← collect_work_scores s base base_height fuel rest
    .ok ((h, r.2) :: tail)

/-- From src/xelis_daemon/src/core/blockchain.rs, `find_best_tip`. -/
def find_best_tip (s : Storage) (tips : List Nat) (base : Nat) (base_height fuel : Nat) :
    Except BlockchainError Nat :=
  if tips.length = 0 then .error .expectedTips
  else do
    let scores ← collect_work_scores s base base_height fuel tips
    match sort_descending_by_cumulative_difficulty scores with
    | [] => .error .expectedTips
    | (h, _) :: _ => .ok h

/-- The order-merging step of `generate_full_order`: push each hash of the
sub-order that is not already present. -/
def append_missing : List Nat → List Nat → List Nat
  | order, [] => order
  | order, x :: rest => append_missing (if order.contains x then order else order ++ [x]) rest

/-- The score collection of `generate_full_order`: parents that are
unordered or ordered at or above the base, with their cumulative
difficulties. -/
def gfo_scores (s : Storage) (base_topo : Nat) : List Nat → Except BlockchainError (List (Nat × Nat))
  | [] => .ok []
  | h :: rest => do
    let keep ←
      if ¬ s.is_block_topological_ordered h then pure true
      else do
        let topo ← s.get_topo_height_for_hash h
        pure (decide (topo ≥ base_topo))
    if keep then do
      let cd ← s.get_cumulative_difficulty_for_block h
      let tail ← gfo_scores s base_topo rest
      .ok ((h, cd) :: tail)
    else gfo_scores s base_topo rest

mutual
/-- From src/xelis_daemon/src/core/blockchain.rs, `generate_full_order`;
explicit fuel replaces the unbounded recursion. -/
def generate_full_order (s : Storage) (hash base base_topo : Nat) :
    Nat → Except BlockchainError (List Nat)
  | 0 => .error .dagRecursionLimit
  | fuel + 1 => do
    let block_tips ← s.get_past_blocks_of hash
    if block_tips.length = 0 then .ok [GENESIS_BLOCK_HASH]
    else if hash = base then .ok [base]
    else do
      let scores ← gfo_scores s base_topo block_tips
      let sorted := sort_descending_by_cumulative_difficulty scores
      let order ← gfo_fold s base base_topo sorted [] fuel
      .ok (order ++ [hash])
termination_by fuel => (fuel, 0)

/-- The sorted-parent loop of `generate_full_order`. -/
def gfo_fold (s : Storage) (base base_topo : Nat) :
    List (Nat × Nat) → List Nat → Nat → Except BlockchainError (List Nat)
  | [], order, _ => .ok order
  | entry :: rest, order, fuel => do
    let sub ← generate_full_order s entry.1 base base_topo fuel
    gfo_fold s base base_topo rest (append_missing order sub) fuel
termination_by l _ fuel => (fuel, l.length + 1)
end

/-- Modelled from the spec: the retarget of xelis_common::difficulty (module
absent from the snapshot) as called with three arguments from
`get_difficulty_at_tips`: the section 4.2 algorithm on the best-tip chain
(tip count 1). -/
def common_calculate_difficulty (parent_ts new_ts prev : Nat) : Nat :=
  let adjust := prev / DIFFICULTY_BOUND_DIVISOR
  let x := (new_ts - parent_ts) / CHAIN_TIME_RANGE
  let d := if x ≤ 1 then 1 - x else x - 1
  let d := if d > 99 then 99 else d
  let nd := if 1 ≤ x then prev - adjust * d else prev + adjust * d
  max nd MINIMUM_DIFFICULTY

/-- Modelled from the spec: the PoW check of section 4.2, `H · difficulty ≤
2^256 − 1` on the header digest (xelis_common::difficulty is absent from the
snapshot). -/
def check_difficulty (hash difficulty : Nat) : Bool :=
  hash * difficulty ≤ 2 ^ 256 - 1

/-- From src/xelis_daemon/src/core/blockchain.rs, `get_difficulty_at_tips`. -/
def get_difficulty_at_tips (s : Storage) (tips : List Nat) : Except BlockchainError Nat :=
  if tips.length = 0 then .ok GENESIS_BLOCK_DIFFICULTY
  else do
    let height ← calculate_height_at_tips s tips
    if height < 3 then .ok MINIMUM_DIFFICULTY
    else do
      let best_tip ← find_best_tip_by_cumulative_difficulty s tips
      let biggest_difficulty ← s.get_difficulty_for_block best_tip
      let best_tip_timestamp ← s.get_timestamp_for_block best_tip
      let parent_tips ← s.get_past_blocks_of best_tip
      let parent_best_tip ← find_best_tip_by_cumulative_difficulty s parent_tips
      let parent_block ← s.get_block_by_hash parent_best_tip
      .ok (common_calculate_difficulty parent_block.timestamp best_tip_timestamp
        biggest_difficulty)

/-- From src/xelis_daemon/src/core/blockchain.rs, `verify_proof_of_work`
(the simulator flag is off). -/
def verify_proof_of_work (s : Storage) (hash : Nat) (tips : List Nat) :
    Except BlockchainError Nat := do
  let difficulty ← get_difficulty_at_tips s tips
  if check_difficulty hash difficulty then .ok difficulty
  else .error .invalidDifficulty

end Xelis

namespace Xelis

/-- From src/xelis_daemon/src/core/blockchain.rs, `add_new_block_for_storage`
per-tip loop: parent timestamps may not exceed the block timestamp and no
tip may have deviated too far from the main chain. -/
def check_tips_ts_dev (s : Storage) (block_ts current_height fuel : Nat) :
    List Nat → Except BlockchainError Unit
  | [] => .ok ()
  | hash :: rest => do
    let pt ← s.get_timestamp_for_block hash
    if pt > block_ts then .error .timestampIsLessThanParent
    else do
      let distance ← calculate_distance_from_mainchain s hash fuel
      if distance ≤ current_height ∧ current_height - distance ≥ STABLE_HEIGHT_LIMIT then
        .error .blockDeviation
      else check_tips_ts_dev s block_ts current_height fuel rest

/-- From src/xelis_daemon/src/core/blockchain.rs, `add_new_block_for_storage`
multi-tip loop: every non-best tip must pass the difficulty band check. -/
def check_tips_band (s : Storage) (best_tip : Nat) : List Nat → Except BlockchainError Unit
  | [] => .ok ()
  | hash :: rest =>
    if best_tip = hash then check_tips_band s best_tip rest
    else do
      let v ← validate_tips s best_tip hash
      if v then check_tips_band s best_tip rest
      else .error .invalidTips

/-- From src/xelis_daemon/src/core/blockchain.rs, `add_new_block_for_storage`
transaction verification loop: digests must match the declared hashes, no
transaction may repeat, and each must verify against the threaded maps;
returns the distinct hashes seen and the total transaction size. -/
def verify_block_txs (vs : VStorage) :
    List ((Nat × Transaction) × Nat) → List (Nat × List (Nat × Nat)) → List (Nat × Nat) →
    List Nat → Nat → Except BlockchainError (List Nat × Nat)
  | [], _, _, cache_tx, total => .ok (cache_tx, total)
  | (txp, declared) :: rest, balances, cache_account, cache_tx, total =>
    if txp.1 ≠ declared then .error .invalidTxInBlock
    else if cache_tx.contains txp.1 then .error .txAlreadyInBlock
    else do
      let (balances2, nonces2) ← verify_transaction_with_hash vs txp.2 balances (some cache_account)
      verify_block_txs vs rest balances2 (nonces2.getD cache_account)
        (cache_tx ++ [txp.1]) (total + txp.2.size)

/-- From src/xelis_daemon/src/core/blockchain.rs, `add_new_block_for_storage`
lines 777-899: the admission checks, in source order, all of them reads; on
success the block difficulty computed by the PoW check is returned. -/
def validate_block (cache : ChainCache) (s : Storage) (block : CompleteBlock) (now fuel : Nat) :
    Except BlockchainError Nat := do
  if s.has_block block.hash then .error .alreadyInChain
  else if block.timestamp > now + TIMESTAMP_IN_FUTURE_LIMIT then .error .timestampIsInFuture
  else
    let tips_count := block.tips.length
    if tips_count > TIPS_LIMIT then .error .invalidTips
    else
      let current_height := cache.height
      if tips_count = 0 ∧ current_height ≠ 0 then .error .expectedTips
      else if ¬ block.tips.all (fun t => s.has_block t) then .error .invalidTips
      else do
        let block_height_by_tips ← calculate_height_at_tips s block.tips
        if block_height_by_tips ≠ block.height then .error .invalidBlockHeight
        else if tips_count > 0 ∧ block_height_by_tips < cache.stable_height then
          .error .invalidBlockHeightStableHeight
        else do
          let reachable ← verify_non_reachability s block.tips
          if ¬ reachable then .error .invalidReachability
          else do
            check_tips_ts_dev s block.timestamp current_height fuel block.tips
            if tips_count > 1 then do
              let best_tip ← find_best_tip_by_cumulative_difficulty s block.tips
              check_tips_band s best_tip block.tips
            else pure ()
            let difficulty ← verify_proof_of_work s block.hash block.tips
            let hashes_len := block.txs_hashes.length
            let txs_len := block.transactions.length
            if hashes_len ≠ txs_len then .error .invalidBlockTxs
            else do
              let (cache_tx, total_tx_size) ←
                verify_block_txs s.to_vstorage (block.transactions.zip block.txs_hashes)
                  [] [] [] 0
              if block.header_size + total_tx_size > MAX_BLOCK_SIZE then .error .invalidBlockSize
              else if cache_tx.length ≠ txs_len ∨ cache_tx.length ≠ hashes_len then
                .error .invalidBlockTxs
              else .ok difficulty

/-- From src/xelis_daemon/src/core/blockchain.rs, `add_new_block_for_storage`
ordering loop: persist every staged balance version at the topoheight. -/
def save_balances (topo : Nat) (balances : List (Nat × List (Nat × VersionedBalance)))
    (s : Storage) : Storage :=
  balances.foldl
    (fun st entry =>
      entry.2.foldl (fun st2 a => st2.set_balance_to entry.1 a.1 topo a.2) st) s

/-- From src/xelis_daemon/src/core/blockchain.rs, `add_new_block_for_storage`
ordering loop, transaction execution: execute every transaction of the
ordered block and link it; an error keeps the mutations already applied, as
the source mutates storage in place. -/
def tx_exec_loop (block_hash : Nat) :
    List (Nat × Transaction) → Storage → List (Nat × Nat) →
    List (Nat × List (Nat × VersionedBalance)) → Nat →
    Storage × List (Nat × Nat) × List (Nat × List (Nat × VersionedBalance)) × Nat ×
      Option BlockchainError
  | [], s, nonces, balances, fees => (s, nonces, balances, fees, none)
  | (tx_hash, tx) :: rest, s, nonces, balances, fees =>
    match execute_transaction s tx nonces balances with
    | .error e => (s, nonces, balances, fees, some e)
    | .ok (s2, nonces2, balances2) =>
      let s3 := if ¬ s2.has_block_linked_to_tx tx_hash block_hash then
        s2.add_block_for_tx tx_hash block_hash else s2
      tx_exec_loop block_hash rest s3 nonces2 balances2 (fees + tx.fee)

/-- From src/xelis_daemon/src/core/blockchain.rs, `add_new_block_for_storage`
ordering loop (lines 961-1046): walk the full order assigning topoheights,
skipping the unchanged prefix, computing rewards and supply, executing
transactions and crediting the miner; an error keeps the mutations already
applied. Events and RPC notifications carry no chain state and are omitted. -/
def order_loop (tips_count base_topo : Nat) :
    List Nat → Nat → Bool → Storage → List (Nat × Nat) → Nat →
    Storage × List (Nat × Nat) × Nat × Option BlockchainError
  | [], _, _, s, nonces, highest => (s, nonces, highest, none)
  | hash :: rest, i, is_written, s, nonces, _ =>
    let highest_topo := base_topo + i
    if ¬ is_written ∧ tips_count ≠ 0 ∧ alookup s.topo_by_hash hash = some highest_topo then
      order_loop tips_count base_topo rest (i + 1) is_written s nonces highest_topo
    else
      let s := s.set_topo_height_for_block hash highest_topo
      match (if highest_topo = 0 then Except.ok 0
        else s.get_supply_at_topo_height (highest_topo - 1)) with
      | .error e => (s, nonces, highest_topo, some e)
      | .ok past_supply =>
        match is_side_block s hash with
        | .error e => (s, nonces, highest_topo, some e)
        | .ok side =>
          let block_reward :=
            if side then get_block_reward past_supply * SIDE_BLOCK_REWARD_PERCENT / 100
            else get_block_reward past_supply
          let s := s.set_block_reward hash block_reward
          let s := s.set_supply_for_block hash (past_supply + block_reward)
          match s.get_block_by_hash hash with
          | .error e => (s, nonces, highest_topo, some e)
          | .ok blk =>
            match tx_exec_loop hash blk.txs s nonces [] 0 with
            | (s2, nonces2, _, _, some e) => (s2, nonces2, highest_topo, some e)
            | (s2, nonces2, balances, total_fees, none) =>
              let balances := reward_miner s2 blk.miner block_reward total_fees balances
              let s3 := save_balances highest_topo balances s2
              order_loop tips_count base_topo rest (i + 1) true s3 nonces2 highest_topo

/-- From src/xelis_daemon/src/core/blockchain.rs, `add_new_block_for_storage`
new-tip filter (lines 1049-1060): keep the tips whose distance from the main
chain has not deviated beyond `STABLE_HEIGHT_LIMIT - 1`. -/
def filter_new_tips (s : Storage) (best_height fuel : Nat) :
    List Nat → Except BlockchainError (List Nat)
  | [] => .ok []
  | hash :: rest => do
    let d ← calculate_distance_from_mainchain s hash fuel
    let tail ← filter_new_tips s best_height fuel rest
    .ok (if d ≤ best_height ∧ best_height - d < STABLE_HEIGHT_LIMIT - 1 then hash :: tail
      else tail)

/-- From src/xelis_daemon/src/core/blockchain.rs, `add_new_block_for_storage`
final tip validation (lines 1062-1075): keep the non-best tips within the
difficulty band. -/
def filter_valid_tips (s : Storage) (best_tip : Nat) :
    List Nat → Except BlockchainError (List Nat)
  | [] => .ok []
  | hash :: rest =>
    if best_tip = hash then filter_valid_tips s best_tip rest
    else do
      let v ← validate_tips s best_tip hash
      let tail ← filter_valid_tips s best_tip rest
      .ok (if v then hash :: tail else tail)

/-- Mempool op `remove_tx` (the source ignores a missing hash). -/
def Mempool.remove_tx (m : Mempool) (hash : Nat) : Mempool :=
  ⟨m.txs.filter (fun entry => entry.1 ≠ hash)⟩

/-- Modelled from the spec: `Mempool::clean_up(new_nonces)` of section 4.4
(the mempool module is not under src/): for every sender in the new nonce
map, drop the transactions with a lower nonce and those whose re-verification
against the committed state now fails. -/
def Mempool.clean_up (m : Mempool) (s : Storage) (nonces : List (Nat × Nat)) : Mempool :=
  ⟨m.txs.filter (fun entry =>
    match alookup nonces entry.2.owner with
    | none => true
    | some n =>
      decide (n ≤ entry.2.nonce) &&
      (match verify_transaction_with_hash s.to_vstorage entry.2 [] (some []) with
        | .ok _ => true
        | .error _ => false))⟩

/-- From src/xelis_daemon/src/core/blockchain.rs, `add_new_block_for_storage`.
The state (storage and mempool) is threaded explicitly; the second component
is the error returned, with the first holding whatever mutations the source
leaves behind at that point (none during validation). Broadcast, events and
cache updates carry no chain state and are omitted; the two reads feeding
the caches (lines 1104-1116) are kept for their error behaviour. -/
def add_new_block_for_storage (cache : ChainCache) (st : SState) (block : CompleteBlock)
    (now fuel : Nat) : SState × Option BlockchainError :=
  match validate_block cache st.storage block now fuel with
  | .error e => (st, some e)
  | .ok difficulty =>
    let tips_count := block.tips.length
    let current_height := cache.height
    let storage1 := st.storage.add_new_block block difficulty
    match (if tips_count = 0 then Except.ok GENESIS_BLOCK_DIFFICULTY
      else do
        let base ← find_common_base storage1 block.tips fuel
        let r ← find_tip_work_score storage1 block.hash base.1 base.2 fuel
        Except.ok r.2) with
    | .error e => (⟨storage1, st.mempool⟩, some e)
    | .ok cumulative_difficulty =>
      let storage2 := storage1.set_cumulative_difficulty_for_block block.hash
        cumulative_difficulty
      let mempool1 := block.txs_hashes.foldl (fun mp h => mp.remove_tx h) st.mempool
      let tips1 := (sinsert block.hash storage2.tips_set).filter (fun h => ¬ h ∈ block.tips)
      match (do
        let base ← find_common_base storage2 tips1 fuel
        let best_tip ← find_best_tip storage2 tips1 base.1 base.2 fuel
        let base_topo ← storage2.get_topo_height_for_hash base.1
        let full_order ← generate_full_order storage2 best_tip base.1 base_topo fuel
        Except.ok (best_tip, base_topo, full_order) :
          Except BlockchainError (Nat × Nat × List Nat)) with
      | .error e => (⟨storage2, mempool1⟩, some e)
      | .ok (best_tip, base_topo, full_order) =>
        match order_loop tips_count base_topo full_order 0 false storage2 [] 0 with
        | (storage3, _, _, some e) => (⟨storage3, mempool1⟩, some e)
        | (storage3, nonces, highest_topo, none) =>
          match (do
            let best_height ← storage3.get_height_for_block best_tip
            let new_tips ← filter_new_tips storage3 best_height fuel tips1
            let best_tip2 ← find_best_tip_by_cumulative_difficulty storage3 new_tips
            let tips2 ← filter_valid_tips storage3 best_tip2 new_tips
            Except.ok (best_tip2, tips2) : Except BlockchainError (Nat × List Nat)) with
          | .error e => (⟨storage3, mempool1⟩, some e)
          | .ok (best_tip2, tips2) =>
            let tips3 := sinsert best_tip2 tips2
            let storage4 := if current_height = 0 ∨ highest_topo > cache.topoheight then
              storage3.set_top_topoheight highest_topo else storage3
            let storage5 := storage4.store_tips tips3
            let storage6 := if current_height = 0 ∨ block.height > current_height then
              storage5.set_top_height block.height else storage5
            match (do
              let _ ← find_common_base storage6 tips3 fuel
              let _ ← get_difficulty_at_tips storage6 tips3
              Except.ok () : Except BlockchainError Unit) with
            | .error e => (⟨storage6, mempool1⟩, some e)
            | .ok _ => (⟨storage6, mempool1.clean_up storage6 nonces⟩, none)

/-- The errors the claim calls validation errors: the admission and PoW
errors plus every per-transaction verification error. -/
def validation_errors : List BlockchainError :=
  [.alreadyInChain, .timestampIsInFuture, .invalidTips, .expectedTips, .invalidBlockHeight,
   .invalidBlockHeightStableHeight, .invalidReachability, .timestampIsLessThanParent,
   .blockDeviation, .invalidDifficulty, .invalidBlockSize, .invalidBlockTxs, .invalidTxNonce,
   .notEnoughFunds, .txEmpty, .invalidTransactionToSender, .invalidTransactionExtraDataTooBig,
   .overflow, .smartContractTodo, .txAlreadyInBlock, .invalidTxInBlock]

end Xelis

namespace Xelis

/-- The reachable-state facts the no-mutation theorem needs, decidably: every
stored transaction is executable (verification admits no others), a stored
block without parents can only be the genesis block, and the genesis block
is not among the current tips. -/
def block_dag_well_formed (s : Storage) : Bool :=
  s.blocks.all (fun e =>
    e.2.txs.all (fun t => tx_executable t.2.data) &&
    (!e.2.tips.isEmpty || decide (e.1 = GENESIS_BLOCK_HASH))) &&
  ! s.tips_set.contains GENESIS_BLOCK_HASH

/-- Storage fixture holding only the genesis block (hash 0, height 0,
topoheight 0, supply and cumulative difficulty recorded), tips = genesis. -/
def c3_genesis_storage : Storage :=
  ⟨[(0, ⟨0, 0, [], [], 99, 1, 0⟩)], [(0, 0)], [(0, 0)], [(0, 1)], [(0, 877380)],
   [(0, 877380)], [0], [], [], [], 0, 0⟩

/-- A block extending the genesis block. -/
def c3_block1 : CompleteBlock := ⟨1, 1, 10, [0], [], [], 5, 10⟩

/-- Storage fixture where block 1 is already stored on top of genesis. -/
def c3w_storage : Storage :=
  ⟨[(0, ⟨0, 0, [], [], 99, 1, 0⟩), (1, ⟨1, 10, [0], [], 5, 1, 10⟩)],
   [(0, 0), (1, 1)], [(0, 0), (1, 1)], [(0, 1), (1, 2)], [(0, 877380)],
   [(0, 877380)], [1], [], [], [], 1, 1⟩

end Xelis

namespace Xelis

/-- The errors the commit phase can produce: storage lookups and fuel
exhaustion, none of which is a validation error. -/
def tail_safe (e : BlockchainError) : Prop :=
  e = .blockNotFound ∨ e = .accountNotFound ∨ e = .dagRecursionLimit

end Xelis

-- Theorems ------------------------------------------------------------------

namespace Xelis

/-- C2: at a zero timestamp delta the `x == 0` branch of
`calculate_difficulty` computes `x - tips_count` on u64, which wraps (panics
in debug builds) instead of yielding `x = tips_count`: with one tip and
previous difficulty 204800 the factor clamps to 99 and the function returns
214700, not the 204900 the claimed formula `|tips_count - x|` gives. -/
theorem calculate_difficulty_underflow_at_zero_delta :
    calculate_difficulty 1 0 0 204800 = 214700 ∧
    calculate_difficulty 1 0 0 204800 ≠
      204800 + 204800 / DIFFICULTY_BOUND_DIVISOR * 1 := by
  constructor
  · rfl
  · decide

/-- The nominal reward never exceeds the remaining supply headroom. -/
theorem get_block_reward_le (s : Nat) : get_block_reward s ≤ MAX_SUPPLY - s := by
  unfold get_block_reward
  rw [Nat.shiftRight_eq_div_pow]
  exact Nat.div_le_self _ _

/-- The credited reward (side-scaled or not) never exceeds the headroom. -/
theorem ordered_block_reward_le (s : Nat) (side : Bool) :
    ordered_block_reward s side ≤ MAX_SUPPLY - s := by
  unfold ordered_block_reward
  cases side with
  | false => simpa using get_block_reward_le s
  | true =>
    simp only [if_pos rfl]
    calc get_block_reward s * SIDE_BLOCK_REWARD_PERCENT / 100
        ≤ get_block_reward s * 100 / 100 := by
          apply Nat.div_le_div_right
          exact Nat.mul_le_mul_left _ (by decide)
      _ = get_block_reward s := Nat.mul_div_cancel _ (by decide)
      _ ≤ MAX_SUPPLY - s := get_block_reward_le s

/-- The per-block supply update keeps the supply under `MAX_SUPPLY`. -/
theorem supply_foldl_le (l : List Bool) :
    ∀ s, s ≤ MAX_SUPPLY →
      l.foldl (fun s side => s + ordered_block_reward s side) s ≤ MAX_SUPPLY := by
  induction l with
  | nil => intro s hs; simpa using hs
  | cons b rest ih =>
    intro s hs
    simp only [List.foldl_cons]
    apply ih
    have := ordered_block_reward_le s b
    omega

/-- C9: starting from supply 0, the per-block update adds a non-negative
reward, the running supply never exceeds `MAX_SUPPLY`, and consequently the
subtraction `MAX_SUPPLY - supply` inside `get_block_reward` is exact (never
underflows). -/
theorem supply_monotone_le_max (sides : List Bool) (b : Bool) :
    supply_after sides ≤ supply_after (sides ++ [b]) ∧
    supply_after sides ≤ MAX_SUPPLY ∧
    supply_after sides + (MAX_SUPPLY - supply_after sides) = MAX_SUPPLY := by
  have hle : supply_after sides ≤ MAX_SUPPLY :=
    supply_foldl_le sides 0 (Nat.zero_le _)
  refine ⟨?_, hle, by omega⟩
  unfold supply_after
  rw [List.foldl_append]
  exact Nat.le_add_right _ _

/-- C5 counterexample: with stored difficulties 1000 (best tip) and 910, the
check `best * 91 / 100 < tip` is `910 < 910`, which is false, so the tip is
rejected — the claim asserts this pair is accepted. -/
theorem validate_tips_910_rejected :
    validate_tips c5_storage 1 2 = .ok false := rfl

/-- C5 (amended): for stored difficulties `db` (best tip) and `dt`,
`validate_tips` returns exactly the predicate `db * 91 / 100 < dt`; in
particular it accepts the tip iff its difficulty is strictly above 91% of
the best difficulty (1000/910 is rejected, 1000/911 accepted). -/
theorem validate_tips_iff_band (s : Storage) (best tip db dt : Nat)
    (hb : s.get_difficulty_for_block best = .ok db)
    (ht : s.get_difficulty_for_block tip = .ok dt) :
    validate_tips s best tip = .ok (decide (db * 91 / 100 < dt)) ∧
    (validate_tips s best tip = .ok true ↔ db * 91 / 100 < dt) := by
  have h1 : validate_tips s best tip = .ok (decide (db * 91 / 100 < dt)) := by
    unfold validate_tips
    rw [hb, ht]
    rfl
  refine ⟨h1, ?_⟩
  rw [h1]
  simp [decide_eq_true_eq]

/-- C5 witness: the amended band check applied at difficulties 1000/911. -/
theorem validate_tips_iff_band_witness :
    validate_tips c5w_storage 1 2 = .ok true :=
  (validate_tips_iff_band c5w_storage 1 2 1000 911 rfl rfl).2.mpr (by decide)

/-- C7: rewinding two transactions of one owner with nonces 3 and 5 leaves
the owner mapped to 5, the highest popped nonce, although the source comments
("keep the lowest nonce available", "update nonces with the lowest
available") and the claim require the lowest, 3. -/
theorem rewind_nonces_keeps_highest :
    rewind_chain_nonces [c7_tx1, c7_tx2] = .ok ([2, 1], [(1, 5)]) ∧
    (5 : Nat) ≠ 3 := by
  constructor
  · rfl
  · decide

/-- C4 counterexample: a burn transaction of serialized size 1 paying zero
fee is accepted by `verify_transaction_with_hash` although the fee floor
`calculate_tx_fee` demands `FEE_PER_KB` for any transaction of positive
size; no caller of the verifier checks the floor. -/
theorem fee_floor_not_enforced_counterexample :
    verify_transaction_with_hash c4_storage c4_tx [] (some []) =
      .ok ([(1, [(0, 10)])], some [(1, 1)]) ∧
    c4_tx.fee < calculate_tx_fee c4_tx.size := by
  constructor
  · rfl
  · decide

/-- C4 (amended): `calculate_tx_fee` computes the reference floor
`ceil(size / 1024) * FEE_PER_KB`, but the verifier never consults it: the
transaction size does not even appear among the verifier inputs and a
zero-fee transaction passes verification. -/
theorem calculate_tx_fee_ceil_and_unenforced :
    (∀ n : Nat, calculate_tx_fee n = (n + 1023) / 1024 * FEE_PER_KB) ∧
    verify_transaction_with_hash c4_storage c4_tx [] (some []) =
      .ok ([(1, [(0, 10)])], some [(1, 1)]) ∧
    c4_tx.fee = 0 := by
  refine ⟨?_, rfl, rfl⟩
  intro n
  have hk : (if n % 1024 ≠ 0 then n / 1024 + 1 else n / 1024) = (n + 1023) / 1024 := by
    split <;> omega
  simp only [calculate_tx_fee]
  rw [hk]

end Xelis

namespace XelisCS

/-- C6: committing the fixture where sender 1 spent 60 (staged post-spend
balance 40, aggregated change -60) and received 100 in the same block stores
`output_balance = 40` but leaves the final balance at the receiver-side 200:
the aggregated change is discarded (the folding is a TODO in the source), so
the final balance is not `output_balance + incoming_change = 40 + 100`. -/
theorem apply_changes_change_dropped :
    apply_changes c6_state =
      .ok ⟨[(1, [(0, (5, ⟨200, some 40, some 0⟩))])], [(1, (5, ⟨2, some 0⟩))]⟩ ∧
    (200 : Int) ≠ 40 + 100 := by
  constructor
  · rfl
  · decide

end XelisCS

namespace Xelis

/-- The side-block scan returns true exactly when some checked topoheight
(at most `remaining` values below the start, never reaching topoheight 0)
carries a block at least as high as the candidate. -/
theorem side_block_scan_iff (s : Storage) (hgt : Nat) :
    ∀ remaining i,
      (∀ j, 1 ≤ j → j ≤ i → i < j + remaining →
        ∃ hj dj, alookup s.hash_at_topo j = some hj ∧ alookup s.blocks hj = some dj) →
      (side_block_scan s hgt remaining i = .ok true ↔
        ∃ j, 1 ≤ j ∧ j ≤ i ∧ i < j + remaining ∧
          ∃ hj dj, alookup s.hash_at_topo j = some hj ∧ alookup s.blocks hj = some dj ∧
            hgt ≤ dj.height) := by
  intro remaining
  induction remaining with
  | zero =>
    intro i _
    simp only [side_block_scan]
    constructor
    · intro h; exact absurd h (by simp)
    · rintro ⟨j, h1, h2, h3, -⟩; omega
  | succ rem ih =>
    intro i hdef
    match i with
    | 0 =>
      simp only [side_block_scan]
      constructor
      · intro h; exact absurd h (by simp)
      · rintro ⟨j, h1, h2, h3, -⟩; omega
    | i + 1 =>
      obtain ⟨hj, dj, hhj, hdj⟩ := hdef (i + 1) (by omega) (Nat.le_refl _) (by omega)
      by_cases hcase : hgt ≤ dj.height
      · apply iff_of_true
        · simp only [side_block_scan]
          simp [Storage.get_hash_at_topo_height, hhj, Storage.get_height_for_block,
            Storage.get_block_by_hash, hdj, Except.map, Bind.bind, Except.bind, hcase]
        · exact ⟨i + 1, by omega, Nat.le_refl _, by omega, hj, dj, hhj, hdj, hcase⟩
      · have hstep : side_block_scan s hgt (rem + 1) (i + 1) = side_block_scan s hgt rem i := by
          simp only [side_block_scan]
          simp [Storage.get_hash_at_topo_height, hhj, Storage.get_height_for_block,
            Storage.get_block_by_hash, hdj, Except.map, Bind.bind, Except.bind, hcase]
        rw [hstep, ih i (fun j h1 h2 h3 => hdef j h1 (by omega) (by omega))]
        constructor
        · rintro ⟨j, h1, h2, h3, rest⟩
          exact ⟨j, h1, by omega, by omega, rest⟩
        · rintro ⟨j, h1, h2, h3, hj2, dj2, hhj2, hdj2, hle2⟩
          rcases Nat.lt_or_ge j (i + 1) with hlt | hge
          · exact ⟨j, h1, by omega, by omega, hj2, dj2, hhj2, hdj2, hle2⟩
          · have hj_eq : j = i + 1 := by omega
            subst hj_eq
            rw [hhj] at hhj2
            have e1 := Option.some.inj hhj2
            subst e1
            rw [hdj] at hdj2
            have e2 := Option.some.inj hdj2
            subst e2
            exact absurd hle2 hcase

/-- C1 (amended): a topologically ordered block at topoheight `t ≥ 1` with
all scanned predecessors present in storage is a side block iff at least one
(not every) of the nearest `STABLE_HEIGHT_LIMIT` predecessors by topoheight,
topoheight 0 excluded, has height at least the height of the block; blocks
not ordered or at topoheight 0 are never side blocks. -/
theorem is_side_block_some_pred_iff (s : Storage) (hash t : Nat) (d : BlockData)
    (htopo : alookup s.topo_by_hash hash = some t) (ht1 : 1 ≤ t)
    (hblk : alookup s.blocks hash = some d)
    (hdef : ∀ j, 1 ≤ j → j ≤ t - 1 → t - 1 < j + STABLE_HEIGHT_LIMIT →
      ∃ hj dj, alookup s.hash_at_topo j = some hj ∧ alookup s.blocks hj = some dj) :
    (is_side_block s hash = .ok true ↔
      ∃ j, 1 ≤ j ∧ j ≤ t - 1 ∧ t - 1 < j + STABLE_HEIGHT_LIMIT ∧
        ∃ hj dj, alookup s.hash_at_topo j = some hj ∧ alookup s.blocks hj = some dj ∧
          d.height ≤ dj.height) := by
  rw [← side_block_scan_iff s d.height STABLE_HEIGHT_LIMIT (t - 1) hdef]
  have heq : is_side_block s hash = side_block_scan s d.height STABLE_HEIGHT_LIMIT (t - 1) := by
    unfold is_side_block
    have hord : s.is_block_topological_ordered hash = true := by
      simp [Storage.is_block_topological_ordered, htopo]
    have ht0 : ¬ (t = 0) := by omega
    simp [hord, Storage.get_topo_height_for_hash, htopo, Storage.get_height_for_block,
      Storage.get_block_by_hash, hblk, Except.map, Bind.bind, Except.bind, ht0]
  rw [heq]

/-- C1 counterexample: in the fixture chain, block 103 (topoheight 3,
height 2) is reported a side block by the code because its predecessor at
topoheight 2 has height 5, although the predecessor at topoheight 1 has
height 1 < 2, so the claimed every-predecessor characterization is false. -/
theorem is_side_block_all_preds_counterexample :
    is_side_block c1_storage 103 = .ok true ∧
    side_block_all_preds c1_storage 103 = false := ⟨rfl, rfl⟩

/-- C1 witness: the amended characterization applied to the fixture where
block 202 (topoheight 2, height 1) has the single scanned predecessor 201 of
height 3. -/
theorem is_side_block_some_pred_iff_witness :
    is_side_block c1w_storage 202 = .ok true :=
  (is_side_block_some_pred_iff c1w_storage 202 2 ⟨1, 0, [200], [], 0, 1, 0⟩
      rfl (by decide) rfl
      (by
        intro j h1 h2 _
        interval_cases j
        exact ⟨201, ⟨3, 0, [200], [], 0, 1, 0⟩, rfl, rfl⟩)).mpr
    ⟨1, by decide, by decide, by decide, 201, ⟨3, 0, [200], [], 0, 1, 0⟩, rfl, rfl, by decide⟩

end Xelis

namespace Xelis

/-- The transfer-output walk can only fail with a self-transfer or overflow
error. -/
theorem verify_transfer_outputs_errors (owner : Nat) :
    ∀ (l : List Transfer) (td : List (Nat × Nat)) (extra : Nat) (e : BlockchainError),
      verify_transfer_outputs owner l td extra = .error e →
      e = .invalidTransactionToSender ∨ e = .overflow := by
  intro l
  induction l with
  | nil => intro td extra e h; cases h
  | cons output rest ih =>
    intro td extra e h
    simp only [verify_transfer_outputs] at h
    split at h
    · left; cases h; rfl
    · split at h
      · exact ih _ _ _ h
      · right; cases h; rfl

/-- A failing last-balance read is always the missing-account error. -/
theorem get_last_balance_errors (s : VStorage) (k a : Nat) (e : BlockchainError)
    (h : s.get_last_balance k a = .error e) : e = .accountNotFound := by
  simp only [VStorage.get_last_balance] at h
  repeat' split at h
  all_goals first
    | (cases h; rfl)
    | cases h

/-- The funds check can only fail with a missing account or insufficient
funds. -/
theorem check_funds_errors (s : VStorage) (owner : Nat) :
    ∀ (l : List (Nat × Nat)) (e : BlockchainError),
      check_funds s owner l = .error e →
      e = .accountNotFound ∨ e = .notEnoughFunds := by
  intro l
  induction l with
  | nil => intro e h; cases h
  | cons entry rest ih =>
    intro e h
    simp only [check_funds, Bind.bind, Except.bind] at h
    cases hg : s.get_last_balance owner entry.1 with
    | error e2 =>
      simp only [hg] at h
      injection h with h2
      subst h2
      exact Or.inl (get_last_balance_errors s owner entry.1 _ hg)
    | ok balance =>
      simp only [hg] at h
      split at h
      · injection h with h2
        subst h2
        exact Or.inr rfl
      · exact ih _ h

/-- When the threaded nonce map binds the owner to a value different from
the transaction nonce, verification never succeeds. -/
theorem verify_nonce_mismatch (s : VStorage) (tx : Transaction) (nonces : List (Nat × Nat))
    (m0 : Nat) (hmax : alookup nonces tx.owner = some m0) (hne : m0 ≠ tx.nonce) :
    ∀ r, verify_transaction_with_hash s tx [] (some nonces) ≠ .ok r := by
  intro r hv
  simp only [verify_transaction_with_hash, alookup, Option.getD, Bind.bind, Except.bind] at hv
  repeat' split at hv
  all_goals simp_all [hmax, hne, pure, Except.pure]

/-- When the threaded nonce map binds the owner to exactly the transaction
nonce, verification never fails with the invalid-nonce error. -/
theorem verify_no_invalid_nonce (s : VStorage) (tx : Transaction) (nonces : List (Nat × Nat))
    (m0 : Nat) (hmax : alookup nonces tx.owner = some m0) (heq : m0 = tx.nonce) :
    verify_transaction_with_hash s tx [] (some nonces) ≠ .error .invalidTxNonce := by
  intro hv
  simp only [verify_transaction_with_hash, alookup, Option.getD, Bind.bind, Except.bind,
    pure, Except.pure] at hv
  repeat' split at hv
  all_goals try simp_all [pure, Except.pure]
  all_goals first
    | (rcases verify_transfer_outputs_errors _ _ _ _ _ (by assumption) with h9 | h9 <;> simp_all)
    | (rcases check_funds_errors _ _ _ _ (by assumption) with h9 | h9 <;> simp_all)

/-- C8 counterexample: with a pending transaction of owner 1 and nonce 0 in
the mempool, a second transaction of the same owner with the same nonce 0
and a different hash is admitted: the mempool does not deduplicate per
sender by nonce. -/
theorem add_tx_duplicate_nonce_accepted :
    add_tx_for_mempool c8_storage c8_mempool c8_tx2 11 =
      .ok ⟨[(10, c8_tx1), (11, c8_tx2)]⟩ ∧
    c8_tx1.owner = c8_tx2.owner ∧ c8_tx1.nonce = c8_tx2.nonce := ⟨rfl, rfl, rfl⟩

/-- C8 (amended): let `m0` be the highest pending nonce the admission
pre-pass computes for the sender. A new transaction whose nonce is neither
`m0` nor `m0 + 1` is never admitted; a transaction with nonce exactly `m0`
(a duplicate of the highest pending nonce, under a fresh hash) is never
rejected by the nonce check — it is admitted whenever the remaining checks
pass. -/
theorem add_tx_nonce_window (s : VStorage) (m : Mempool) (tx : Transaction) (hash m0 : Nat)
    (hfresh : m.contains_tx hash = false)
    (hmax : alookup (mempool_owner_nonces m tx.owner) tx.owner = some m0) :
    (tx.nonce ≠ m0 → tx.nonce ≠ m0 + 1 → ∃ e, add_tx_for_mempool s m tx hash = .error e) ∧
    (tx.nonce = m0 → add_tx_for_mempool s m tx hash ≠ .error .invalidTxNonce) := by
  constructor
  · intro hne hne2
    have hb : ¬ (m0 + 1 = tx.nonce) := by omega
    cases hv : verify_transaction_with_hash s tx [] (some (mempool_owner_nonces m tx.owner)) with
    | error e =>
      exact ⟨e, by simp [add_tx_for_mempool, hfresh, hmax, hb, Bind.bind, Except.bind, hv]⟩
    | ok r => exact absurd hv (verify_nonce_mismatch s tx _ m0 hmax (by omega) r)
  · intro heq hcontra
    have hb : ¬ (m0 + 1 = tx.nonce) := by omega
    cases hv : verify_transaction_with_hash s tx [] (some (mempool_owner_nonces m tx.owner)) with
    | error e =>
      rw [show add_tx_for_mempool s m tx hash = Except.error e from by
        simp [add_tx_for_mempool, hfresh, hmax, hb, Bind.bind, Except.bind, hv]] at hcontra
      injection hcontra with h2
      subst h2
      exact verify_no_invalid_nonce s tx _ m0 hmax heq.symm hv
    | ok r =>
      rw [show add_tx_for_mempool s m tx hash = Except.ok (m.add_tx hash tx) from by
        simp [add_tx_for_mempool, hfresh, hmax, hb, Bind.bind, Except.bind, hv,
          pure, Except.pure]] at hcontra
      cases hcontra

/-- C8 witness: with pending nonce 4, a transaction with nonce 9 is
rejected; with pending nonce 0, the duplicate transaction with nonce 0 is
not rejected by the nonce check. -/
theorem add_tx_nonce_window_witness :
    (∃ e, add_tx_for_mempool c8_storage c8w_mempool c8w_tx 21 = .error e) ∧
    add_tx_for_mempool c8_storage c8_mempool c8_tx2 11 ≠
      .error BlockchainError.invalidTxNonce :=
  ⟨(add_tx_nonce_window c8_storage c8w_mempool c8w_tx 21 4 rfl rfl).1
      (by decide) (by decide),
   (add_tx_nonce_window c8_storage c8_mempool c8_tx2 11 0 rfl rfl).2 rfl⟩

end Xelis

namespace Xelis

/-- Looking up the key just set returns the new value. -/
theorem alookup_aset_self {α : Type} (l : List (Nat × α)) (k : Nat) (v : α) :
    alookup (aset l k v) k = some v := by
  induction l with
  | nil => simp [aset, alookup]
  | cons head rest ih =>
    obtain ⟨k1, v1⟩ := head
    by_cases h : k1 = k
    · subst h; simp [aset, alookup]
    · simp [aset, alookup, h, ih]

/-- Setting one key leaves the lookup of any other key unchanged. -/
theorem alookup_aset_ne {α : Type} (l : List (Nat × α)) (k k2 : Nat) (v : α)
    (h : k ≠ k2) : alookup (aset l k v) k2 = alookup l k2 := by
  induction l with
  | nil => simp [aset, alookup, h]
  | cons head rest ih =>
    obtain ⟨k1, v1⟩ := head
    by_cases h1 : k1 = k
    · subst h1; simp [aset, alookup, h]
    · simp [aset, alookup, h1, ih]

/-- Key membership after a set: the old keys plus the new one. -/
theorem mem_keys_aset {α : Type} (l : List (Nat × α)) (k k2 : Nat) (v : α) :
    k2 ∈ (aset l k v).map Prod.fst ↔ k2 ∈ l.map Prod.fst ∨ k2 = k := by
  induction l with
  | nil => simp [aset]
  | cons head rest ih =>
    obtain ⟨k1, v1⟩ := head
    by_cases h1 : k1 = k
    · subst h1
      simp [aset]
      tauto
    · simp [aset, h1, ih]
      tauto

/-- A set preserves distinctness of keys. -/
theorem nodup_keys_aset {α : Type} (l : List (Nat × α)) (k : Nat) (v : α)
    (h : (l.map Prod.fst).Nodup) : ((aset l k v).map Prod.fst).Nodup := by
  induction l with
  | nil => simp [aset]
  | cons head rest ih =>
    obtain ⟨k1, v1⟩ := head
    simp only [List.map_cons, List.nodup_cons] at h
    by_cases h1 : k1 = k
    · subst h1
      have he : aset ((k1, v1) :: rest) k1 v = (k1, v) :: rest := by simp [aset]
      rw [he]
      simp only [List.map_cons, List.nodup_cons]
      exact ⟨h.1, h.2⟩
    · have he : aset ((k1, v1) :: rest) k v = (k1, v1) :: aset rest k v := by simp [aset, h1]
      rw [he]
      simp only [List.map_cons, List.nodup_cons]
      refine ⟨?_, ih h.2⟩
      rw [mem_keys_aset]
      rintro (hmem | hEq)
      · exact h.1 hmem
      · exact h1 hEq

end Xelis

namespace XelisCS

open Xelis (alookup aset alookup_aset_self alookup_aset_ne mem_keys_aset nodup_keys_aset)

/-- The balance-writing fold of the commit loop never touches nonces. -/
theorem balances_foldl_nonces (account topo : Nat)
    (bals : List (Nat × CSVersionedBalance)) :
    ∀ st : CSStorage,
      (bals.foldl (fun st entry => st.set_last_balance_to account entry.1 topo entry.2) st).nonces
        = st.nonces := by
  induction bals with
  | nil => intro st; rfl
  | cons head rest ih =>
    intro st
    simp only [List.foldl_cons, ih]
    rfl

/-- The balance-writing fold changes only the account being written. -/
theorem balances_foldl_balances_ne (account topo : Nat)
    (bals : List (Nat × CSVersionedBalance)) :
    ∀ (st : CSStorage) (k : Nat), k ≠ account →
      alookup ((bals.foldl
          (fun st entry => st.set_last_balance_to account entry.1 topo entry.2) st).balances) k
        = alookup st.balances k := by
  induction bals with
  | nil => intro st k _; rfl
  | cons head rest ih =>
    intro st k hk
    simp only [List.foldl_cons, ih _ _ hk]
    simp only [CSStorage.set_last_balance_to]
    exact alookup_aset_ne _ _ _ _ (fun h => hk h.symm)

/-- Combined behaviour of the first commit loop: balances untouched, nonces
written exactly for senders (monotonically), receiver entries of non-senders
untouched, and key distinctness preserved. -/
theorem apply_accounts_spec (topo : Nat) :
    ∀ (accts : List (Nat × Account)) (storage : CSStorage)
      (rb : List (Nat × List (Nat × CSVersionedBalance))) st1 rb1,
      apply_accounts topo accts storage rb = .ok (st1, rb1) →
      st1.balances = storage.balances ∧
      (∀ k, alookup accts k = none →
        alookup st1.nonces k = alookup storage.nonces k ∧ alookup rb1 k = alookup rb k) ∧
      (∀ k, (alookup storage.nonces k).isSome → (alookup st1.nonces k).isSome) ∧
      (∀ k, (alookup accts k).isSome → (alookup st1.nonces k).isSome) ∧
      ((rb.map Prod.fst).Nodup → (rb1.map Prod.fst).Nodup) := by
  intro accts
  induction accts with
  | nil =>
    intro storage rb st1 rb1 h
    simp only [apply_accounts] at h
    injection h with h2
    injection h2 with h3 h4
    subst h3; subst h4
    exact ⟨rfl, fun k _ => ⟨rfl, rfl⟩, fun k hk => hk, fun k hk => by simp [alookup] at hk,
      fun hn => hn⟩
  | cons head rest ih =>
    obtain ⟨key, account⟩ := head
    intro storage rb st1 rb1 h
    simp only [apply_accounts, Bind.bind, Except.bind] at h
    cases hs : apply_sender_assets ((alookup rb key).getD []) account.assets with
    | error e => rw [hs] at h; cases h
    | ok balances2 =>
      rw [hs] at h
      obtain ⟨ih1, ih2, ih3, ih4, ih5⟩ :=
        ih (storage.set_last_nonce_to key topo account.nonce) (aset rb key balances2) st1 rb1 h
      refine ⟨ih1, ?_, ?_, ?_, ?_⟩
      · intro k hk
        simp only [alookup] at hk
        by_cases hkey : key = k
        · rw [if_pos hkey] at hk; cases hk
        · rw [if_neg hkey] at hk
          obtain ⟨e1, e2⟩ := ih2 k hk
          refine ⟨?_, ?_⟩
          · rw [e1]
            simp only [CSStorage.set_last_nonce_to]
            exact alookup_aset_ne _ _ _ _ hkey
          · rw [e2]
            exact alookup_aset_ne _ _ _ _ hkey
      · intro k hk
        apply ih3
        simp only [CSStorage.set_last_nonce_to]
        by_cases hkey : key = k
        · subst hkey; rw [alookup_aset_self]; rfl
        · rw [alookup_aset_ne _ _ _ _ hkey]; exact hk
      · intro k hk
        simp only [alookup] at hk
        by_cases hkey : key = k
        · apply ih3
          subst hkey
          simp only [CSStorage.set_last_nonce_to]
          rw [alookup_aset_self]
          rfl
        · rw [if_neg hkey] at hk
          exact ih4 k hk
      · intro hn
        exact ih5 (nodup_keys_aset _ _ _ hn)

/-- The second commit loop only writes nonces for the keys it visits. -/
theorem apply_balances_nonces_not_mem (accts : List (Nat × Account)) (topo : Nat) :
    ∀ (rb : List (Nat × List (Nat × CSVersionedBalance))) (st : CSStorage) (k : Nat),
      k ∉ rb.map Prod.fst →
      alookup (apply_balances accts topo rb st).nonces k = alookup st.nonces k := by
  intro rb
  induction rb with
  | nil => intro st k _; rfl
  | cons head rest ih =>
    obtain ⟨account, balances⟩ := head
    intro st k hk
    simp only [List.map_cons, List.mem_cons, not_or] at hk
    simp only [apply_balances]
    rw [ih _ _ hk.2]
    split
    · simp only [CSStorage.set_last_nonce_to]
      rw [alookup_aset_ne _ _ _ _ (fun h => hk.1 h.symm)]
      exact (balances_foldl_nonces _ _ _ _).symm ▸ rfl
    · rw [balances_foldl_nonces]

/-- A visited receiver that is not a sender and has no nonce yet receives the
default zero nonce at the commit topoheight, and keeps it. -/
theorem apply_balances_default (accts : List (Nat × Account)) (topo : Nat) :
    ∀ (rb : List (Nat × List (Nat × CSVersionedBalance))) (st : CSStorage) (k : Nat),
      (rb.map Prod.fst).Nodup →
      (alookup rb k).isSome →
      (alookup accts k).isNone →
      (alookup st.nonces k).isNone →
      alookup (apply_balances accts topo rb st).nonces k = some (topo, ⟨0, none⟩) := by
  intro rb
  induction rb with
  | nil => intro st k _ hk _ _; simp [alookup] at hk
  | cons head rest ih =>
    obtain ⟨account, balances⟩ := head
    intro st k hnd hk hacc hnon
    simp only [List.map_cons, List.nodup_cons] at hnd
    simp only [apply_balances]
    set st1 := balances.foldl
      (fun st entry => st.set_last_balance_to account entry.1 topo entry.2) st with hst1
    have hn1 : st1.nonces = st.nonces := balances_foldl_nonces _ _ _ _
    by_cases hkey : account = k
    · subst hkey
      have hcond : ¬ ((alookup accts account).isSome = true) ∧
          ¬ (st1.has_nonce account = true) := by
        constructor
        · simp only [Option.isNone_iff_eq_none] at hacc
          simp [hacc]
        · simp only [CSStorage.has_nonce, hn1]
          simp only [Option.isNone_iff_eq_none] at hnon
          simp [hnon]
      rw [if_pos hcond]
      rw [apply_balances_nonces_not_mem accts topo rest _ account hnd.1]
      simp only [CSStorage.set_last_nonce_to]
      exact alookup_aset_self _ _ _
    · simp only [alookup, if_neg hkey] at hk
      refine ih _ k hnd.2 hk hacc ?_
      split
      · simp only [CSStorage.set_last_nonce_to]
        rw [alookup_aset_ne _ _ _ _ hkey, hn1]
        exact hnon
      · rw [hn1]
        exact hnon

/-- The second commit loop preserves the balance-implies-nonce invariant,
given every sender already has a nonce stored. -/
theorem apply_balances_invariant (accts : List (Nat × Account)) (topo : Nat) :
    ∀ (rb : List (Nat × List (Nat × CSVersionedBalance))) (st : CSStorage),
      (∀ k, (alookup st.balances k).isSome → (alookup st.nonces k).isSome) →
      (∀ k, (alookup accts k).isSome → (alookup st.nonces k).isSome) →
      ∀ k, (alookup (apply_balances accts topo rb st).balances k).isSome →
        (alookup (apply_balances accts topo rb st).nonces k).isSome := by
  intro rb
  induction rb with
  | nil => intro st hbal _ k hk; exact hbal k hk
  | cons head rest ih =>
    obtain ⟨account, balances⟩ := head
    intro st hbal hacc k hk
    simp only [apply_balances] at hk ⊢
    set st1 := balances.foldl
      (fun st entry => st.set_last_balance_to account entry.1 topo entry.2) st with hst1
    have hn1 : st1.nonces = st.nonces := balances_foldl_nonces _ _ _ _
    by_cases hcond : ¬ ((alookup accts account).isSome = true) ∧
        ¬ (st1.has_nonce account = true)
    · rw [if_pos hcond] at hk ⊢
      refine ih _ ?_ ?_ k hk
      · intro j hj
        simp only [CSStorage.set_last_nonce_to] at hj ⊢
        by_cases hja : account = j
        · subst hja
          rw [alookup_aset_self]
          rfl
        · rw [alookup_aset_ne _ _ _ _ hja, hn1]
          rw [show (({ st1 with nonces := aset st1.nonces account (topo, ⟨0, none⟩) } :
            CSStorage).balances) = st1.balances from rfl] at hj
          rw [hst1, balances_foldl_balances_ne _ _ _ _ _ (fun h => hja h.symm)] at hj
          exact hbal j hj
      · intro j hj
        simp only [CSStorage.set_last_nonce_to]
        by_cases hja : account = j
        · subst hja
          rw [alookup_aset_self]
          rfl
        · rw [alookup_aset_ne _ _ _ _ hja, hn1]
          exact hacc j hj
    · rw [if_neg hcond] at hk ⊢
      rw [not_and_or, not_not, not_not] at hcond
      refine ih _ ?_ ?_ k hk
      · intro j hj
        rw [hn1]
        by_cases hja : j = account
        · subst hja
          rcases hcond with hc | hc
          · exact hacc j hc
          · simp only [CSStorage.has_nonce, hn1] at hc
            exact hc
        · rw [hst1, balances_foldl_balances_ne _ _ _ _ _ hja] at hj
          exact hbal j hj
      · intro j hj
        rw [hn1]
        exact hacc j hj

/-- C10: after `apply_changes` commits, every receiver account that is not a
sender and has no stored nonce is registered with a fresh versioned nonce 0
(no previous topoheight) at the commit topoheight; and if before the commit
every account with a stored balance had a stored nonce, the same holds after
the commit. -/
theorem apply_changes_default_nonce (cs : ChainState) (st2 : CSStorage)
    (happ : apply_changes cs = .ok st2)
    (hrbnd : (cs.receiver_balances.map Prod.fst).Nodup) :
    (∀ k, (alookup cs.receiver_balances k).isSome →
      alookup cs.accounts k = none →
      cs.storage.has_nonce k = false →
      alookup st2.nonces k = some (cs.topoheight, ⟨0, none⟩)) ∧
    ((∀ k, (alookup cs.storage.balances k).isSome → cs.storage.has_nonce k = true) →
      ∀ k, (alookup st2.balances k).isSome → st2.has_nonce k = true) := by
  simp only [apply_changes, Bind.bind, Except.bind] at happ
  cases ha : apply_accounts cs.topoheight cs.accounts cs.storage cs.receiver_balances with
  | error e => rw [ha] at happ; cases happ
  | ok pair =>
    obtain ⟨st1, rb1⟩ := pair
    rw [ha] at happ
    injection happ with happ2
    obtain ⟨s1, s2, s3, s4, s5⟩ :=
      apply_accounts_spec cs.topoheight cs.accounts cs.storage cs.receiver_balances st1 rb1 ha
    constructor
    · intro k hk hkacc hkn
      obtain ⟨e1, e2⟩ := s2 k hkacc
      rw [← happ2]
      apply apply_balances_default cs.accounts cs.topoheight rb1 st1 k (s5 hrbnd)
      · rw [e2]; exact hk
      · simp [hkacc]
      · rw [e1]
        simp only [CSStorage.has_nonce] at hkn
        simp only [Option.isNone_iff_eq_none]
        cases hv : alookup cs.storage.nonces k with
        | none => rfl
        | some v => rw [hv] at hkn; cases hkn
    · intro hpre k hk
      rw [← happ2] at hk ⊢
      simp only [CSStorage.has_nonce]
      apply apply_balances_invariant cs.accounts cs.topoheight rb1 st1
      · intro j hj
        rw [s1] at hj
        have := hpre j hj
        simp only [CSStorage.has_nonce] at this
        exact s3 j this
      · intro j hj
        exact s4 j hj
      · exact hk

/-- C10 witness: committing a block where account 7 only receives funds at
topoheight 3, is not a sender and has no stored nonce registers the default
zero nonce for it. -/
theorem apply_changes_default_nonce_witness :
    alookup (⟨[(7, [(0, (3, ⟨50, none, none⟩))])], [(7, (3, ⟨0, none⟩))]⟩ : CSStorage).nonces 7
      = some (3, ⟨0, none⟩) :=
  (apply_changes_default_nonce c10w_state
      ⟨[(7, [(0, (3, ⟨50, none, none⟩))])], [(7, (3, ⟨0, none⟩))]⟩ rfl (by decide)).1
    7 rfl rfl rfl

end XelisCS

namespace Xelis

/-- A successful association lookup means the pair is in the list. -/
theorem alookup_mem {α : Type} (l : List (Nat × α)) (k : Nat) (v : α)
    (h : alookup l k = some v) : (k, v) ∈ l := by
  induction l with
  | nil => cases h
  | cons head rest ih =>
    obtain ⟨k1, v1⟩ := head
    simp only [alookup] at h
    by_cases h1 : k1 = k
    · rw [if_pos h1] at h
      injection h with h2
      subst h1; subst h2
      exact List.mem_cons_self _ _
    · rw [if_neg h1] at h
      exact List.mem_cons_of_mem _ (ih h)

/-- `all` survives a set whose new entry satisfies the predicate. -/
theorem aset_all {α : Type} (l : List (Nat × α)) (k : Nat) (v : α)
    (p : Nat × α → Bool) (hl : l.all p = true) (hv : p (k, v) = true) :
    (aset l k v).all p = true := by
  induction l with
  | nil => simp [aset, hv]
  | cons head rest ih =>
    obtain ⟨k1, v1⟩ := head
    simp only [List.all_cons, Bool.and_eq_true] at hl
    by_cases h1 : k1 = k
    · subst h1
      have he : aset ((k1, v1) :: rest) k1 v = (k1, v) :: rest := by simp [aset]
      rw [he]
      simp only [List.all_cons, Bool.and_eq_true]
      exact ⟨hv, hl.2⟩
    · have he : aset ((k1, v1) :: rest) k v = (k1, v1) :: aset rest k v := by
        simp [aset, h1]
      rw [he]
      simp only [List.all_cons, Bool.and_eq_true]
      exact ⟨hl.1, ih hl.2⟩

/-- `sinsert` never empties a list. -/
theorem sinsert_ne_nil (x : Nat) (l : List Nat) : sinsert x l ≠ [] := by
  unfold sinsert
  split
  · intro h
    subst h
    simp_all
  · simp

/-- The inserted element is a member. -/
theorem mem_sinsert_self (x : Nat) (l : List Nat) : x ∈ sinsert x l := by
  unfold sinsert
  split
  · assumption
  · exact List.mem_cons_self _ _

/-- Members of `sinsert` come from the element or the list. -/
theorem mem_sinsert {x y : Nat} {l : List Nat} (h : y ∈ sinsert x l) :
    y = x ∨ y ∈ l := by
  unfold sinsert at h
  split at h
  · exact Or.inr h
  · rcases List.mem_cons.mp h with h | h
    · exact Or.inl h
    · exact Or.inr h

/-- A failing block fetch is the block-not-found error. -/
theorem get_block_by_hash_errors (s : Storage) (h : Nat) (e : BlockchainError)
    (he : s.get_block_by_hash h = .error e) : e = .blockNotFound := by
  simp only [Storage.get_block_by_hash] at he
  split at he
  · cases he; rfl
  · cases he

/-- A failing past-blocks fetch is the block-not-found error. -/
theorem get_past_blocks_of_errors (s : Storage) (h : Nat) (e : BlockchainError)
    (he : s.get_past_blocks_of h = .error e) : e = .blockNotFound := by
  simp only [Storage.get_past_blocks_of] at he
  cases hb : s.get_block_by_hash h with
  | error e2 =>
    rw [hb] at he
    injection he with h2
    subst h2
    exact get_block_by_hash_errors s h _ hb
  | ok d => rw [hb] at he; cases he

/-- A failing height fetch is the block-not-found error. -/
theorem get_height_for_block_errors (s : Storage) (h : Nat) (e : BlockchainError)
    (he : s.get_height_for_block h = .error e) : e = .blockNotFound := by
  simp only [Storage.get_height_for_block] at he
  cases hb : s.get_block_by_hash h with
  | error e2 =>
    rw [hb] at he
    injection he with h2
    subst h2
    exact get_block_by_hash_errors s h _ hb
  | ok d => rw [hb] at he; cases he

/-- A failing timestamp fetch is the block-not-found error. -/
theorem get_timestamp_for_block_errors (s : Storage) (h : Nat) (e : BlockchainError)
    (he : s.get_timestamp_for_block h = .error e) : e = .blockNotFound := by
  simp only [Storage.get_timestamp_for_block] at he
  cases hb : s.get_block_by_hash h with
  | error e2 =>
    rw [hb] at he
    injection he with h2
    subst h2
    exact get_block_by_hash_errors s h _ hb
  | ok d => rw [hb] at he; cases he

/-- A failing difficulty fetch is the block-not-found error. -/
theorem get_difficulty_for_block_errors (s : Storage) (h : Nat) (e : BlockchainError)
    (he : s.get_difficulty_for_block h = .error e) : e = .blockNotFound := by
  simp only [Storage.get_difficulty_for_block] at he
  cases hb : s.get_block_by_hash h with
  | error e2 =>
    rw [hb] at he
    injection he with h2
    subst h2
    exact get_block_by_hash_errors s h _ hb
  | ok d => rw [hb] at he; cases he

/-- A failing topoheight fetch is the block-not-found error. -/
theorem get_topo_height_for_hash_errors (s : Storage) (h : Nat) (e : BlockchainError)
    (he : s.get_topo_height_for_hash h = .error e) : e = .blockNotFound := by
  simp only [Storage.get_topo_height_for_hash] at he
  split at he
  · cases he; rfl
  · cases he

/-- A failing hash-at-topoheight fetch is the block-not-found error. -/
theorem get_hash_at_topo_height_errors (s : Storage) (t : Nat) (e : BlockchainError)
    (he : s.get_hash_at_topo_height t = .error e) : e = .blockNotFound := by
  simp only [Storage.get_hash_at_topo_height] at he
  split at he
  · cases he; rfl
  · cases he

/-- A failing cumulative-difficulty fetch is the block-not-found error. -/
theorem get_cumulative_difficulty_for_block_errors (s : Storage) (h : Nat)
    (e : BlockchainError) (he : s.get_cumulative_difficulty_for_block h = .error e) :
    e = .blockNotFound := by
  simp only [Storage.get_cumulative_difficulty_for_block] at he
  split at he
  · cases he; rfl
  · cases he

/-- A failing supply fetch is the block-not-found error. -/
theorem get_supply_at_topo_height_errors (s : Storage) (t : Nat) (e : BlockchainError)
    (he : s.get_supply_at_topo_height t = .error e) : e = .blockNotFound := by
  simp only [Storage.get_supply_at_topo_height, Bind.bind, Except.bind] at he
  cases hb : s.get_hash_at_topo_height t with
  | error e2 =>
    rw [hb] at he
    injection he with h2
    subst h2
    exact get_hash_at_topo_height_errors s t _ hb
  | ok hsh =>
    simp only [hb] at he
    split at he
    · cases he; rfl
    · cases he

end Xelis

namespace Xelis

/-- Fuel exhaustion is a safe (non-validation) error. -/
theorem tail_safe_fuel : tail_safe .dagRecursionLimit := Or.inr (Or.inr rfl)

/-- Block-not-found is a safe (non-validation) error. -/
theorem tail_safe_bnf : tail_safe .blockNotFound := Or.inl rfl

/-- Descending insertion grows the length by one. -/
theorem sort_desc_insert_length (x : Nat × Nat) (l : List (Nat × Nat)) :
    (sort_desc_insert x l).length = l.length + 1 := by
  induction l with
  | nil => rfl
  | cons y rest ih =>
    simp only [sort_desc_insert]
    split
    · simp
    · simp [ih]

/-- The descending sort preserves the length. -/
theorem sort_desc_length (l : List (Nat × Nat)) :
    (sort_descending_by_cumulative_difficulty l).length = l.length := by
  unfold sort_descending_by_cumulative_difficulty
  induction l with
  | nil => rfl
  | cons x rest ih => simp [List.foldr_cons, sort_desc_insert_length, ih]

/-- Members after descending insertion come from the element or the list. -/
theorem mem_sort_desc_insert {y x : Nat × Nat} {l : List (Nat × Nat)}
    (h : y ∈ sort_desc_insert x l) : y = x ∨ y ∈ l := by
  induction l with
  | nil =>
    simp [sort_desc_insert] at h
    exact Or.inl h
  | cons z rest ih =>
    simp only [sort_desc_insert] at h
    split at h
    · rcases List.mem_cons.mp h with h | h
      · exact Or.inl h
      · exact Or.inr h
    · rcases List.mem_cons.mp h with h | h
      · exact Or.inr (by simp [h])
      · rcases ih h with h | h
        · exact Or.inl h
        · exact Or.inr (List.mem_cons_of_mem _ h)

/-- Members of the descending sort come from the input. -/
theorem mem_sort_desc {y : Nat × Nat} {l : List (Nat × Nat)}
    (h : y ∈ sort_descending_by_cumulative_difficulty l) : y ∈ l := by
  unfold sort_descending_by_cumulative_difficulty at h
  induction l with
  | nil => simpa using h
  | cons x rest ih =>
    simp only [List.foldr_cons] at h
    rcases mem_sort_desc_insert h with h | h
    · simp [h]
    · exact List.mem_cons_of_mem _ (ih h)

/-- Ascending insertion grows the length by one. -/
theorem insert_asc_length (x : Nat × Nat) (l : List (Nat × Nat)) :
    (insert_asc x l).length = l.length + 1 := by
  induction l with
  | nil => rfl
  | cons y rest ih =>
    simp only [insert_asc]
    split
    · simp [ih]
    · simp

/-- The ascending sort preserves the length. -/
theorem sort_asc_length (l : List (Nat × Nat)) :
    (sort_asc_by_height l).length = l.length := by
  unfold sort_asc_by_height
  suffices h : ∀ acc : List (Nat × Nat),
      (l.foldl (fun acc x => insert_asc x acc) acc).length = acc.length + l.length by
    simpa using h []
  induction l with
  | nil => intro acc; simp
  | cons x rest ih =>
    intro acc
    simp only [List.foldl_cons]
    rw [ih (insert_asc x acc), insert_asc_length]
    simp only [List.length_cons]
    omega

/-- Height fold errors are storage errors. -/
theorem tips_best_height_errors (s : Storage) :
    ∀ (l : List Nat) (best : Nat) (e : BlockchainError),
      tips_best_height s l best = .error e → tail_safe e := by
  intro l
  induction l with
  | nil => intro best e he; cases he
  | cons h rest ih =>
    intro best e he
    simp only [tips_best_height, Bind.bind, Except.bind] at he
    cases hh : s.get_height_for_block h with
    | error e2 =>
      simp only [hh] at he
      injection he with h2
      subst h2
      exact Or.inl (get_height_for_block_errors s h _ hh)
    | ok ht =>
      simp only [hh] at he
      exact ih _ _ he

/-- Height-at-tips errors are storage errors. -/
theorem tips_max_height_errors (s : Storage) :
    ∀ (l : List Nat) (e : BlockchainError),
      tips_max_height s l = .error e → tail_safe e := by
  intro l
  induction l with
  | nil => intro e he; cases he
  | cons h rest ih =>
    intro e he
    simp only [tips_max_height, Bind.bind, Except.bind] at he
    cases hh : s.get_height_for_block h with
    | error e2 =>
      simp only [hh] at he
      injection he with h2
      subst h2
      exact Or.inl (get_height_for_block_errors s h _ hh)
    | ok ht =>
      simp only [hh] at he
      cases hm : tips_max_height s rest with
      | error e2 =>
        simp only [hm] at he
        injection he with h2
        subst h2
        exact ih _ hm
      | ok m => simp only [hm] at he; cases he

/-- Height-at-tips errors are storage errors. -/
theorem calculate_height_at_tips_errors (s : Storage) (tips : List Nat) (e : BlockchainError)
    (he : calculate_height_at_tips s tips = .error e) : tail_safe e := by
  simp only [calculate_height_at_tips, Bind.bind, Except.bind] at he
  split at he
  · cases he
  · cases hm : tips_max_height s tips with
    | error e2 =>
      simp only [hm] at he
      injection he with h2
      subst h2
      exact tips_max_height_errors s tips _ hm
    | ok m => simp only [hm] at he; cases he

/-- Pre-block cumulative checks only raise storage errors. -/
theorem sync_pre_check_errors (s : Storage) (scd : Nat) :
    ∀ (l : List Nat) (e : BlockchainError),
      sync_pre_check s scd l = .error e → tail_safe e := by
  intro l
  induction l with
  | nil => intro e he; cases he
  | cons h rest ih =>
    intro e he
    simp only [sync_pre_check, Bind.bind, Except.bind] at he
    cases hc : s.get_cumulative_difficulty_for_block h with
    | error e2 =>
      simp only [hc] at he
      injection he with h2
      subst h2
      exact Or.inl (get_cumulative_difficulty_for_block_errors s h _ hc)
    | ok cd =>
      simp only [hc] at he
      split at he
      · cases he
      · exact ih _ he

/-- Sync-block predicate errors are storage errors. -/
theorem is_block_sync_at_height_errors (s : Storage) (hash height : Nat) (e : BlockchainError)
    (he : is_block_sync_at_height s hash height = .error e) : tail_safe e := by
  simp only [is_block_sync_at_height, Bind.bind, Except.bind] at he
  cases hh : s.get_height_for_block hash with
  | error e2 =>
    simp only [hh] at he
    injection he with h2
    subst h2
    exact Or.inl (get_height_for_block_errors s hash _ hh)
  | ok bh =>
    simp only [hh] at he
    split at he
    · cases he
    · split at he
      · cases he
      · split at he
        · cases he
        · split at he
          · split at he
            · cases he
            · cases hc : s.get_cumulative_difficulty_for_block hash with
              | error e2 =>
                simp only [hc] at he
                injection he with h2
                subst h2
                exact Or.inl (get_cumulative_difficulty_for_block_errors s hash _ hc)
              | ok scd =>
                simp only [hc] at he
                exact sync_pre_check_errors s scd _ _ he
          · cases he

/-- Side-block scan errors are storage errors. -/
theorem side_block_scan_errors (s : Storage) (hgt : Nat) :
    ∀ (remaining i : Nat) (e : BlockchainError),
      side_block_scan s hgt remaining i = .error e → tail_safe e := by
  intro remaining
  induction remaining with
  | zero => intro i e he; cases he
  | succ rem ih =>
    intro i e he
    match i with
    | 0 => cases he
    | i + 1 =>
      simp only [side_block_scan, Bind.bind, Except.bind] at he
      cases hh : s.get_hash_at_topo_height (i + 1) with
      | error e2 =>
        simp only [hh] at he
        injection he with h2
        subst h2
        exact Or.inl (get_hash_at_topo_height_errors s _ _ hh)
      | ok hj =>
        simp only [hh] at he
        cases hd : s.get_height_for_block hj with
        | error e2 =>
          simp only [hd] at he
          injection he with h2
          subst h2
          exact Or.inl (get_height_for_block_errors s _ _ hd)
        | ok ph =>
          simp only [hd] at he
          split at he
          · cases he
          · exact ih i _ he

/-- Side-block predicate errors are storage errors. -/
theorem is_side_block_errors (s : Storage) (hash : Nat) (e : BlockchainError)
    (he : is_side_block s hash = .error e) : tail_safe e := by
  simp only [is_side_block, Bind.bind, Except.bind] at he
  split at he
  · cases he
  · cases ht : s.get_topo_height_for_hash hash with
    | error e2 =>
      simp only [ht] at he
      injection he with h2
      subst h2
      exact Or.inl (get_topo_height_for_hash_errors s hash _ ht)
    | ok topo =>
      simp only [ht] at he
      split at he
      · cases he
      · cases hh : s.get_height_for_block hash with
        | error e2 =>
          simp only [hh] at he
          injection he with h2
          subst h2
          exact Or.inl (get_height_for_block_errors s hash _ hh)
        | ok hgt =>
          simp only [hh] at he
          exact side_block_scan_errors s hgt _ _ _ he

end Xelis

namespace Xelis

/-- Cumulative-score collection only raises storage errors. -/
theorem collect_cumulative_scores_errors (s : Storage) :
    ∀ (l : List Nat) (e : BlockchainError),
      collect_cumulative_scores s l = .error e → tail_safe e := by
  intro l
  induction l with
  | nil => intro e he; cases he
  | cons h rest ih =>
    intro e he
    simp only [collect_cumulative_scores, Bind.bind, Except.bind] at he
    cases hc : s.get_cumulative_difficulty_for_block h with
    | error e2 =>
      simp only [hc] at he
      injection he with h2
      subst h2
      exact Or.inl (get_cumulative_difficulty_for_block_errors s h _ hc)
    | ok cd =>
      simp only [hc] at he
      cases hr : collect_cumulative_scores s rest with
      | error e2 =>
        simp only [hr] at he
        injection he with h2
        subst h2
        exact ih _ hr
      | ok tail => simp only [hr] at he; cases he

/-- Cumulative-score collection preserves the length. -/
theorem collect_cumulative_scores_length (s : Storage) :
    ∀ (l : List Nat) (r : List (Nat × Nat)),
      collect_cumulative_scores s l = .ok r → r.length = l.length := by
  intro l
  induction l with
  | nil => intro r hr; cases hr; rfl
  | cons h rest ih =>
    intro r hr
    simp only [collect_cumulative_scores, Bind.bind, Except.bind] at hr
    cases hc : s.get_cumulative_difficulty_for_block h with
    | error e2 => simp only [hc] at hr; cases hr
    | ok cd =>
      simp only [hc] at hr
      cases ht : collect_cumulative_scores s rest with
      | error e2 => simp only [ht] at hr; cases hr
      | ok tail =>
        simp only [ht] at hr
        cases hr
        simp [ih _ ht]

/-- The first components of collected cumulative scores are input tips. -/
theorem collect_cumulative_scores_mem (s : Storage) :
    ∀ (l : List Nat) (r : List (Nat × Nat)) (p : Nat × Nat),
      collect_cumulative_scores s l = .ok r → p ∈ r → p.1 ∈ l := by
  intro l
  induction l with
  | nil => intro r p hr hp; cases hr; cases hp
  | cons h rest ih =>
    intro r p hr hp
    simp only [collect_cumulative_scores, Bind.bind, Except.bind] at hr
    cases hc : s.get_cumulative_difficulty_for_block h with
    | error e2 => simp only [hc] at hr; cases hr
    | ok cd =>
      simp only [hc] at hr
      cases ht : collect_cumulative_scores s rest with
      | error e2 => simp only [ht] at hr; cases hr
      | ok tail =>
        simp only [ht] at hr
        cases hr
        rcases List.mem_cons.mp hp with hp | hp
        · subst hp; exact List.mem_cons_self _ _
        · exact List.mem_cons_of_mem _ (ih _ _ ht hp)

/-- Best-tip-by-cumulative-difficulty with a nonempty tip set only raises
storage errors. -/
theorem find_best_tip_by_cumulative_difficulty_errors (s : Storage) (tips : List Nat)
    (e : BlockchainError) (hne : tips ≠ [])
    (he : find_best_tip_by_cumulative_difficulty s tips = .error e) : tail_safe e := by
  simp only [find_best_tip_by_cumulative_difficulty, Bind.bind, Except.bind] at he
  cases hc : collect_cumulative_scores s tips with
  | error e2 =>
    simp only [hc] at he
    injection he with h2
    subst h2
    exact collect_cumulative_scores_errors s tips _ hc
  | ok scores =>
    simp only [hc] at he
    cases hs : sort_descending_by_cumulative_difficulty scores with
    | nil =>
      exfalso
      have hlen := sort_desc_length scores
      rw [hs] at hlen
      have hl2 := collect_cumulative_scores_length s tips scores hc
      rw [hl2] at hlen
      cases tips with
      | nil => exact hne rfl
      | cons a b => simp at hlen
    | cons p rest =>
      obtain ⟨ph, pd⟩ := p
      simp only [hs] at he
      cases he

/-- The selected best tip is one of the tips. -/
theorem find_best_tip_by_cumulative_difficulty_mem (s : Storage) (tips : List Nat) (h : Nat)
    (hok : find_best_tip_by_cumulative_difficulty s tips = .ok h) : h ∈ tips := by
  simp only [find_best_tip_by_cumulative_difficulty, Bind.bind, Except.bind] at hok
  cases hc : collect_cumulative_scores s tips with
  | error e2 => simp only [hc] at hok; cases hok
  | ok scores =>
    simp only [hc] at hok
    cases hs : sort_descending_by_cumulative_difficulty scores with
    | nil => simp only [hs] at hok; cases hok
    | cons p rest =>
      obtain ⟨ph, pd⟩ := p
      simp only [hs] at hok
      injection hok with h2
      subst h2
      have hmem : (ph, pd) ∈ sort_descending_by_cumulative_difficulty scores := by
        rw [hs]; exact List.mem_cons_self _ _
      exact collect_cumulative_scores_mem s tips scores _ hc (mem_sort_desc hmem)

/-- Distance computations only raise storage errors or exhaust fuel. -/
theorem calc_distance_errors (s : Storage) :
    ∀ fuel : Nat,
      (∀ (set : List Nat) (hash : Nat) (e : BlockchainError),
        calc_distance_rec s set hash fuel = .error e → tail_safe e) ∧
      (∀ (l set : List Nat) (e : BlockchainError),
        calc_distance_list s set l fuel = .error e → tail_safe e) := by
  intro fuel
  induction fuel with
  | zero =>
    have hQ : ∀ (l set : List Nat) (e : BlockchainError),
        calc_distance_list s set l 0 = .error e → tail_safe e := by
      intro l
      induction l with
      | nil => intro set e he; simp only [calc_distance_list] at he; cases he
      | cons h rest ih =>
        intro set e he
        simp only [calc_distance_list] at he
        split at he
        · simp only [Bind.bind, Except.bind] at he
          cases hh : s.get_height_for_block h with
          | error e2 =>
            simp only [hh] at he
            injection he with h2
            subst h2
            exact Or.inl (get_height_for_block_errors s h _ hh)
          | ok ht =>
            simp only [hh] at he
            exact ih _ _ he
        · simp only [Bind.bind, Except.bind, calc_distance_rec] at he
          injection he with h2
          subst h2
          exact tail_safe_fuel
    refine ⟨fun set hash e he => ?_, hQ⟩
    simp only [calc_distance_rec] at he
    injection he with h2
    subst h2
    exact tail_safe_fuel
  | succ n ih =>
    have hP : ∀ (set : List Nat) (hash : Nat) (e : BlockchainError),
        calc_distance_rec s set hash (n + 1) = .error e → tail_safe e := by
      intro set hash e he
      simp only [calc_distance_rec, Bind.bind, Except.bind] at he
      cases hp : s.get_past_blocks_of hash with
      | error e2 =>
        simp only [hp] at he
        injection he with h2
        subst h2
        exact Or.inl (get_past_blocks_of_errors s hash _ hp)
      | ok tips =>
        simp only [hp] at he
        exact ih.2 _ _ _ he
    have hQ : ∀ (l set : List Nat) (e : BlockchainError),
        calc_distance_list s set l (n + 1) = .error e → tail_safe e := by
      intro l
      induction l with
      | nil => intro set e he; simp only [calc_distance_list] at he; cases he
      | cons h rest ihl =>
        intro set e he
        simp only [calc_distance_list] at he
        split at he
        · simp only [Bind.bind, Except.bind] at he
          cases hh : s.get_height_for_block h with
          | error e2 =>
            simp only [hh] at he
            injection he with h2
            subst h2
            exact Or.inl (get_height_for_block_errors s h _ hh)
          | ok ht =>
            simp only [hh] at he
            exact ihl _ _ he
        · simp only [Bind.bind, Except.bind] at he
          cases hr : calc_distance_rec s set h (n + 1) with
          | error e2 =>
            simp only [hr] at he
            injection he with h2
            subst h2
            exact hP _ _ _ hr
          | ok set2 =>
            simp only [hr] at he
            exact ihl _ _ he
    exact ⟨hP, hQ⟩

/-- Distance-from-main-chain errors are storage errors or fuel exhaustion. -/
theorem calculate_distance_from_mainchain_errors (s : Storage) (hash fuel : Nat)
    (e : BlockchainError) (he : calculate_distance_from_mainchain s hash fuel = .error e) :
    tail_safe e := by
  simp only [calculate_distance_from_mainchain, Bind.bind, Except.bind] at he
  split at he
  · exact Or.inl (get_height_for_block_errors s hash _ he)
  · cases hr : calc_distance_rec s [] hash fuel with
    | error e2 =>
      simp only [hr] at he
      injection he with h2
      subst h2
      exact (calc_distance_errors s fuel).1 _ _ _ hr
    | ok set => simp only [hr] at he; cases he

end Xelis

namespace Xelis

/-- A successful block read exposes the underlying association entry. -/
theorem get_block_by_hash_ok (s : Storage) (h : Nat) (b : BlockData)
    (hok : s.get_block_by_hash h = .ok b) : alookup s.blocks h = some b := by
  simp only [Storage.get_block_by_hash] at hok
  cases ha : alookup s.blocks h with
  | none => simp only [ha] at hok; cases hok
  | some d => simp only [ha] at hok; injection hok with h2; subst h2; rfl

/-- A successful past-blocks read exposes the stored block's tips. -/
theorem get_past_blocks_of_ok (s : Storage) (h : Nat) (tl : List Nat)
    (hok : s.get_past_blocks_of h = .ok tl) :
    ∃ d, alookup s.blocks h = some d ∧ tl = d.tips := by
  simp only [Storage.get_past_blocks_of, Except.map] at hok
  cases hb : s.get_block_by_hash h with
  | error e => simp only [hb] at hok; cases hok
  | ok d =>
    simp only [hb] at hok
    injection hok with h2
    exact ⟨d, get_block_by_hash_ok s h d hb, h2.symm⟩

/-- Updating one key never erases another key from an association list. -/
theorem alookup_aset_isSome_mono {α : Type} (l : List (Nat × α)) (k k2 : Nat) (v : α)
    (h : (alookup l k2).isSome = true) : (alookup (aset l k v) k2).isSome = true := by
  by_cases hk : k2 = k
  · subst hk; rw [alookup_aset_self]; rfl
  · rw [alookup_aset_ne l k k2 v (fun he => hk he.symm)]; exact h

/-- `validate_tips` only raises storage read errors. -/
theorem validate_tips_errors (s : Storage) (best tip : Nat) (e : BlockchainError)
    (he : validate_tips s best tip = .error e) : tail_safe e := by
  simp only [validate_tips, Bind.bind, Except.bind] at he
  cases h1 : s.get_difficulty_for_block best with
  | error e2 =>
    simp only [h1] at he
    injection he with h2
    subst h2
    exact Or.inl (get_difficulty_for_block_errors s best _ h1)
  | ok d1 =>
    simp only [h1] at he
    cases h2 : s.get_difficulty_for_block tip with
    | error e2 =>
      simp only [h2] at he
      injection he with h3
      subst h3
      exact Or.inl (get_difficulty_for_block_errors s tip _ h2)
    | ok d2 => simp only [h2] at he; cases he

/-- The past-supply read of the ordering loop only raises storage errors. -/
theorem supply_branch_errors (s : Storage) (t : Nat) (e : BlockchainError)
    (he : (if t = 0 then Except.ok 0 else s.get_supply_at_topo_height (t - 1)) = .error e) :
    tail_safe e := by
  split at he
  · cases he
  · exact Or.inl (get_supply_at_topo_height_errors s (t - 1) _ he)

/-- Work-map accumulation only raises storage errors or exhausts fuel, given
that the recursive descent at the same fuel does. -/
theorem work_score_list_errors_of (s : Storage) (fuel : Nat)
    (hP : ∀ (bt : Nat) (map : List (Nat × Nat)) (hash : Nat) (e : BlockchainError),
      work_score_rec s bt map hash fuel = .error e → tail_safe e) :
    ∀ (l : List Nat) (bt : Nat) (map : List (Nat × Nat)) (e : BlockchainError),
      work_score_list s bt map l fuel = .error e → tail_safe e := by
  intro l
  induction l with
  | nil => intro bt map e he; simp only [work_score_list] at he; cases he
  | cons h rest ih =>
    intro bt map e he
    simp only [work_score_list, Bind.bind, Except.bind, pure, Except.pure] at he
    by_cases h1 : (alookup map h).isSome = true
    · rw [if_pos h1] at he
      exact ih bt map e he
    · rw [if_neg h1] at he
      by_cases h2 : ¬ s.is_block_topological_ordered h = true
      · rw [if_pos h2] at he
        cases hr : work_score_rec s bt map h fuel with
        | error e2 =>
          simp only [hr] at he
          injection he with h3
          subst h3
          exact hP _ _ _ _ hr
        | ok map2 =>
          simp only [hr] at he
          exact ih bt map2 e he
      · rw [if_neg h2] at he
        cases ht : s.get_topo_height_for_hash h with
        | error e2 =>
          simp only [ht] at he
          injection he with h3
          subst h3
          exact Or.inl (get_topo_height_for_hash_errors s h _ ht)
        | ok topo =>
          simp only [ht] at he
          by_cases h3 : topo ≥ bt
          · rw [if_pos h3] at he
            cases hr : work_score_rec s bt map h fuel with
            | error e2 =>
              simp only [hr] at he
              injection he with h4
              subst h4
              exact hP _ _ _ _ hr
            | ok map2 =>
              simp only [hr] at he
              exact ih bt map2 e he
          · rw [if_neg h3] at he
            exact ih bt map e he

/-- The work-score descent only raises storage errors or exhausts fuel. -/
theorem work_score_rec_errors (s : Storage) :
    ∀ (fuel bt : Nat) (map : List (Nat × Nat)) (hash : Nat) (e : BlockchainError),
      work_score_rec s bt map hash fuel = .error e → tail_safe e := by
  intro fuel
  induction fuel with
  | zero =>
    intro bt map hash e he
    simp only [work_score_rec] at he
    injection he with h2
    subst h2
    exact tail_safe_fuel
  | succ n ih =>
    intro bt map hash e he
    simp only [work_score_rec, Bind.bind, Except.bind] at he
    cases hp : s.get_past_blocks_of hash with
    | error e2 =>
      simp only [hp] at he
      injection he with h2
      subst h2
      exact Or.inl (get_past_blocks_of_errors s hash _ hp)
    | ok tips =>
      simp only [hp] at he
      cases hl : work_score_list s bt map tips n with
      | error e2 =>
        simp only [hl] at he
        injection he with h2
        subst h2
        exact work_score_list_errors_of s n ih _ _ _ _ hl
      | ok map2 =>
        simp only [hl] at he
        cases hd : s.get_difficulty_for_block hash with
        | error e2 =>
          simp only [hd] at he
          injection he with h2
          subst h2
          exact Or.inl (get_difficulty_for_block_errors s hash _ hd)
        | ok d => simp only [hd] at he; cases he

/-- The work-map loop only raises storage errors or exhausts fuel. -/
theorem work_score_list_errors (s : Storage) (fuel : Nat) :
    ∀ (l : List Nat) (bt : Nat) (map : List (Nat × Nat)) (e : BlockchainError),
      work_score_list s bt map l fuel = .error e → tail_safe e :=
  work_score_list_errors_of s fuel (fun bt map hash e => work_score_rec_errors s fuel bt map hash e)

/-- `find_tip_work_score` only raises storage errors or exhausts fuel. -/
theorem find_tip_work_score_errors (s : Storage) (hash base bh fuel : Nat) (e : BlockchainError)
    (he : find_tip_work_score s hash base bh fuel = .error e) : tail_safe e := by
  simp only [find_tip_work_score, Bind.bind, Except.bind, pure, Except.pure] at he
  cases hb : s.get_block_by_hash hash with
  | error e2 =>
    simp only [hb] at he
    injection he with h2
    subst h2
    exact Or.inl (get_block_by_hash_errors s hash _ hb)
  | ok block =>
    simp only [hb] at he
    cases ht : s.get_topo_height_for_hash base with
    | error e2 =>
      simp only [ht] at he
      injection he with h2
      subst h2
      exact Or.inl (get_topo_height_for_hash_errors s base _ ht)
    | ok bt =>
      simp only [ht] at he
      cases hl : work_score_list s bt [] block.tips fuel with
      | error e2 =>
        simp only [hl] at he
        injection he with h2
        subst h2
        exact work_score_list_errors s fuel _ _ _ _ hl
      | ok map =>
        simp only [hl] at he
        by_cases hbh : base ≠ hash
        · rw [if_pos hbh] at he
          cases hc : s.get_cumulative_difficulty_for_block base with
          | error e2 =>
            simp only [hc] at he
            injection he with h2
            subst h2
            exact Or.inl (get_cumulative_difficulty_for_block_errors s base _ hc)
          | ok cd =>
            simp only [hc] at he
            cases hd : s.get_difficulty_for_block hash with
            | error e2 =>
              simp only [hd] at he
              injection he with h2
              subst h2
              exact Or.inl (get_difficulty_for_block_errors s hash _ hd)
            | ok d => simp only [hd] at he; cases he
        · rw [if_neg hbh] at he
          cases hd : s.get_difficulty_for_block hash with
          | error e2 =>
            simp only [hd] at he
            injection he with h2
            subst h2
            exact Or.inl (get_difficulty_for_block_errors s hash _ hd)
          | ok d => simp only [hd] at he; cases he

/-- Per-tip work-score collection only raises storage errors or exhausts
fuel. -/
theorem collect_work_scores_errors (s : Storage) (base bh fuel : Nat) :
    ∀ (l : List Nat) (e : BlockchainError),
      collect_work_scores s base bh fuel l = .error e → tail_safe e := by
  intro l
  induction l with
  | nil => intro e he; cases he
  | cons h rest ih =>
    intro e he
    simp only [collect_work_scores, Bind.bind, Except.bind] at he
    cases hr : find_tip_work_score s h base bh fuel with
    | error e2 =>
      simp only [hr] at he
      injection he with h2
      subst h2
      exact find_tip_work_score_errors s h base bh fuel _ hr
    | ok r =>
      simp only [hr] at he
      cases ht : collect_work_scores s base bh fuel rest with
      | error e2 =>
        simp only [ht] at he
        injection he with h2
        subst h2
        exact ih _ ht
      | ok tail => simp only [ht] at he; cases he

/-- Work-score collection preserves the length. -/
theorem collect_work_scores_length (s : Storage) (base bh fuel : Nat) :
    ∀ (l : List Nat) (r : List (Nat × Nat)),
      collect_work_scores s base bh fuel l = .ok r → r.length = l.length := by
  intro l
  induction l with
  | nil => intro r hr; cases hr; rfl
  | cons h rest ih =>
    intro r hr
    simp only [collect_work_scores, Bind.bind, Except.bind] at hr
    cases hw : find_tip_work_score s h base bh fuel with
    | error e2 => simp only [hw] at hr; cases hr
    | ok w =>
      simp only [hw] at hr
      cases ht : collect_work_scores s base bh fuel rest with
      | error e2 => simp only [ht] at hr; cases hr
      | ok tail =>
        simp only [ht] at hr
        cases hr
        simp [ih _ ht]

/-- The first components of collected work scores are input tips. -/
theorem collect_work_scores_mem (s : Storage) (base bh fuel : Nat) :
    ∀ (l : List Nat) (r : List (Nat × Nat)) (p : Nat × Nat),
      collect_work_scores s base bh fuel l = .ok r → p ∈ r → p.1 ∈ l := by
  intro l
  induction l with
  | nil => intro r p hr hp; cases hr; cases hp
  | cons h rest ih =>
    intro r p hr hp
    simp only [collect_work_scores, Bind.bind, Except.bind] at hr
    cases hw : find_tip_work_score s h base bh fuel with
    | error e2 => simp only [hw] at hr; cases hr
    | ok w =>
      simp only [hw] at hr
      cases ht : collect_work_scores s base bh fuel rest with
      | error e2 => simp only [ht] at hr; cases hr
      | ok tail =>
        simp only [ht] at hr
        cases hr
        rcases List.mem_cons.mp hp with hp | hp
        · subst hp; exact List.mem_cons_self _ _
        · exact List.mem_cons_of_mem _ (ih _ _ ht hp)

/-- `find_best_tip` with a nonempty tip set only raises storage errors or
exhausts fuel. -/
theorem find_best_tip_errors (s : Storage) (tips : List Nat) (base bh fuel : Nat)
    (e : BlockchainError) (hne : tips ≠ [])
    (he : find_best_tip s tips base bh fuel = .error e) : tail_safe e := by
  simp only [find_best_tip, Bind.bind, Except.bind] at he
  rw [if_neg (fun h => hne (List.length_eq_zero.mp h))] at he
  cases hc : collect_work_scores s base bh fuel tips with
  | error e2 =>
    simp only [hc] at he
    injection he with h2
    subst h2
    exact collect_work_scores_errors s base bh fuel _ _ hc
  | ok scores =>
    simp only [hc] at he
    cases hs : sort_descending_by_cumulative_difficulty scores with
    | nil =>
      exfalso
      have hlen := sort_desc_length scores
      rw [hs] at hlen
      have hl2 := collect_work_scores_length s base bh fuel tips scores hc
      rw [hl2] at hlen
      cases tips with
      | nil => exact hne rfl
      | cons a b => simp at hlen
    | cons p rest =>
      obtain ⟨ph, pd⟩ := p
      simp only [hs] at he
      cases he

/-- The tip selected by `find_best_tip` is one of the tips. -/
theorem find_best_tip_mem (s : Storage) (tips : List Nat) (base bh fuel : Nat) (h : Nat)
    (hok : find_best_tip s tips base bh fuel = .ok h) : h ∈ tips := by
  simp only [find_best_tip, Bind.bind, Except.bind] at hok
  by_cases hz : tips.length = 0
  · rw [if_pos hz] at hok; cases hok
  · rw [if_neg hz] at hok
    cases hc : collect_work_scores s base bh fuel tips with
    | error e2 => simp only [hc] at hok; cases hok
    | ok scores =>
      simp only [hc] at hok
      cases hs : sort_descending_by_cumulative_difficulty scores with
      | nil => simp only [hs] at hok; cases hok
      | cons p rest =>
        obtain ⟨ph, pd⟩ := p
        simp only [hs] at hok
        injection hok with h2
        subst h2
        have hmem : (ph, pd) ∈ sort_descending_by_cumulative_difficulty scores := by
          rw [hs]; exact List.mem_cons_self _ _
        exact collect_work_scores_mem s base bh fuel tips scores _ hc (mem_sort_desc hmem)

/-- The last element of a list is a member. -/
theorem mem_of_getLast_eq {α : Type} :
    ∀ (l : List α) (a : α), l.getLast? = some a → a ∈ l := by
  intro l
  induction l with
  | nil => intro a h; cases h
  | cons x xs ih =>
    intro a h
    cases xs with
    | nil =>
      simp only [List.getLast?_singleton] at h
      injection h with h2
      subst h2
      exact List.mem_singleton_self _
    | cons y ys =>
      rw [List.getLast?_cons_cons] at h
      exact List.mem_cons_of_mem _ (ih a h)

end Xelis

namespace Xelis

/-- The tip-base loop, with a nonempty worklist or accumulator, only raises
storage errors or exhausts fuel, given that the recursive descent at the same
fuel does. -/
theorem find_tip_base_list_errors_of (s : Storage) (height fuel : Nat)
    (hP : ∀ (hash : Nat) (e : BlockchainError),
      find_tip_base s height hash fuel = .error e → tail_safe e) :
    ∀ (l : List Nat) (bases : List (Nat × Nat)) (e : BlockchainError),
      l ≠ [] ∨ bases ≠ [] → find_tip_base_list s height l bases fuel = .error e → tail_safe e := by
  intro l
  induction l with
  | nil =>
    intro bases e hor he
    simp only [find_tip_base_list] at he
    cases hs : sort_asc_by_height bases with
    | nil =>
      exfalso
      have hlen := sort_asc_length bases
      rw [hs] at hlen
      rcases hor with hor | hor
      · exact hor rfl
      · exact hor (List.length_eq_zero.mp hlen.symm)
    | cons b bs => simp only [hs] at he; cases he
  | cons h rest ih =>
    intro bases e hor he
    simp only [find_tip_base_list, Bind.bind, Except.bind] at he
    cases hsy : is_block_sync_at_height s h height with
    | error e2 =>
      simp only [hsy] at he
      injection he with h2
      subst h2
      exact is_block_sync_at_height_errors s h height _ hsy
    | ok sync =>
      simp only [hsy] at he
      split at he
      · cases hh : s.get_height_for_block h with
        | error e2 =>
          simp only [hh] at he
          injection he with h2
          subst h2
          exact Or.inl (get_height_for_block_errors s h _ hh)
        | ok bh => simp only [hh] at he; cases he
      · cases hb : find_tip_base s height h fuel with
        | error e2 =>
          simp only [hb] at he
          injection he with h2
          subst h2
          exact hP _ _ hb
        | ok b =>
          simp only [hb] at he
          exact ih _ _ (Or.inr (by simp)) he

/-- The tip-base descent only raises storage errors or exhausts fuel. -/
theorem find_tip_base_errors (s : Storage) (height : Nat) :
    ∀ (fuel hash : Nat) (e : BlockchainError),
      find_tip_base s height hash fuel = .error e → tail_safe e := by
  intro fuel
  induction fuel with
  | zero =>
    intro hash e he
    simp only [find_tip_base] at he
    injection he with h2
    subst h2
    exact tail_safe_fuel
  | succ n ih =>
    intro hash e he
    simp only [find_tip_base, Bind.bind, Except.bind] at he
    cases hp : s.get_past_blocks_of hash with
    | error e2 =>
      simp only [hp] at he
      injection he with h2
      subst h2
      exact Or.inl (get_past_blocks_of_errors s hash _ hp)
    | ok tips =>
      simp only [hp] at he
      by_cases hz : tips.length = 0
      · rw [if_pos hz] at he; cases he
      · rw [if_neg hz] at he
        exact find_tip_base_list_errors_of s height n (fun hash e => ih hash e) tips [] e
          (Or.inl (fun hn => hz (by rw [hn]; rfl))) he

/-- Per-tip base collection only raises storage errors or exhausts fuel. -/
theorem collect_tip_bases_errors (s : Storage) (bh fuel : Nat) :
    ∀ (l : List Nat) (e : BlockchainError),
      collect_tip_bases s bh fuel l = .error e → tail_safe e := by
  intro l
  induction l with
  | nil => intro e he; cases he
  | cons h rest ih =>
    intro e he
    simp only [collect_tip_bases, Bind.bind, Except.bind] at he
    cases hb : find_tip_base s bh h fuel with
    | error e2 =>
      simp only [hb] at he
      injection he with h2
      subst h2
      exact find_tip_base_errors s bh fuel h _ hb
    | ok b =>
      simp only [hb] at he
      cases ht : collect_tip_bases s bh fuel rest with
      | error e2 =>
        simp only [ht] at he
        injection he with h2
        subst h2
        exact ih _ ht
      | ok tail => simp only [ht] at he; cases he

/-- Base collection preserves the length. -/
theorem collect_tip_bases_length (s : Storage) (bh fuel : Nat) :
    ∀ (l : List Nat) (r : List (Nat × Nat)),
      collect_tip_bases s bh fuel l = .ok r → r.length = l.length := by
  intro l
  induction l with
  | nil => intro r hr; cases hr; rfl
  | cons h rest ih =>
    intro r hr
    simp only [collect_tip_bases, Bind.bind, Except.bind] at hr
    cases hb : find_tip_base s bh h fuel with
    | error e2 => simp only [hb] at hr; cases hr
    | ok b =>
      simp only [hb] at hr
      cases ht : collect_tip_bases s bh fuel rest with
      | error e2 => simp only [ht] at hr; cases hr
      | ok tail =>
        simp only [ht] at hr
        cases hr
        simp [ih _ ht]

/-- `find_common_base` with a nonempty tip set only raises storage errors or
exhausts fuel. -/
theorem find_common_base_errors (s : Storage) (tips : List Nat) (fuel : Nat)
    (e : BlockchainError) (hne : tips ≠ [])
    (he : find_common_base s tips fuel = .error e) : tail_safe e := by
  simp only [find_common_base, Bind.bind, Except.bind] at he
  cases hb : tips_best_height s tips 0 with
  | error e2 =>
    simp only [hb] at he
    injection he with h2
    subst h2
    exact tips_best_height_errors s _ _ _ hb
  | ok best_height =>
    simp only [hb] at he
    cases hcb : collect_tip_bases s best_height fuel tips with
    | error e2 =>
      simp only [hcb] at he
      injection he with h2
      subst h2
      exact collect_tip_bases_errors s best_height fuel _ _ hcb
    | ok bases =>
      simp only [hcb] at he
      cases hs : sort_asc_by_height bases with
      | nil =>
        exfalso
        have hlen := sort_asc_length bases
        rw [hs] at hlen
        have hl2 := collect_tip_bases_length s best_height fuel tips bases hcb
        rw [hl2] at hlen
        cases tips with
        | nil => exact hne rfl
        | cons a b => simp at hlen
      | cons p ps =>
        obtain ⟨ch, chh⟩ := p
        simp only [hs] at he
        cases hh : s.get_height_for_block ch with
        | error e2 =>
          simp only [hh] at he
          injection he with h2
          subst h2
          exact Or.inl (get_height_for_block_errors s ch _ hh)
        | ok common_height => simp only [hh] at he; cases he

/-- Score collection for the full order only raises storage errors. -/
theorem gfo_scores_errors (s : Storage) (bt : Nat) :
    ∀ (l : List Nat) (e : BlockchainError), gfo_scores s bt l = .error e → tail_safe e := by
  intro l
  induction l with
  | nil => intro e he; cases he
  | cons h rest ih =>
    intro e he
    simp only [gfo_scores, Bind.bind, Except.bind, pure, Except.pure] at he
    by_cases h1 : ¬ s.is_block_topological_ordered h = true
    · rw [if_pos h1] at he
      rw [if_pos trivial] at he
      cases hc : s.get_cumulative_difficulty_for_block h with
      | error e2 =>
        simp only [hc] at he
        injection he with h3
        subst h3
        exact Or.inl (get_cumulative_difficulty_for_block_errors s h _ hc)
      | ok cd =>
        simp only [hc] at he
        cases ht : gfo_scores s bt rest with
        | error e2 =>
          simp only [ht] at he
          injection he with h3
          subst h3
          exact ih _ ht
        | ok tail => simp only [ht] at he; cases he
    · rw [if_neg h1] at he
      cases ht : s.get_topo_height_for_hash h with
      | error e2 =>
        simp only [ht] at he
        injection he with h3
        subst h3
        exact Or.inl (get_topo_height_for_hash_errors s h _ ht)
      | ok topo =>
        simp only [ht] at he
        by_cases h2 : decide (topo ≥ bt) = true
        · rw [if_pos h2] at he
          cases hc : s.get_cumulative_difficulty_for_block h with
          | error e2 =>
            simp only [hc] at he
            injection he with h3
            subst h3
            exact Or.inl (get_cumulative_difficulty_for_block_errors s h _ hc)
          | ok cd =>
            simp only [hc] at he
            cases htl : gfo_scores s bt rest with
            | error e2 =>
              simp only [htl] at he
              injection he with h3
              subst h3
              exact ih _ htl
            | ok tail => simp only [htl] at he; cases he
        · rw [if_neg h2] at he
          exact ih _ he

/-- The sorted-parent loop only raises storage errors or exhausts fuel,
given that the recursive descent at the same fuel does. -/
theorem gfo_fold_errors_of (s : Storage) (base bt fuel : Nat)
    (hP : ∀ (hash : Nat) (e : BlockchainError),
      generate_full_order s hash base bt fuel = .error e → tail_safe e) :
    ∀ (l : List (Nat × Nat)) (order : List Nat) (e : BlockchainError),
      gfo_fold s base bt l order fuel = .error e → tail_safe e := by
  intro l
  induction l with
  | nil => intro order e he; simp only [gfo_fold] at he; cases he
  | cons entry rest ih =>
    intro order e he
    simp only [gfo_fold, Bind.bind, Except.bind] at he
    cases hg : generate_full_order s entry.1 base bt fuel with
    | error e2 =>
      simp only [hg] at he
      injection he with h2
      subst h2
      exact hP _ _ hg
    | ok sub =>
      simp only [hg] at he
      exact ih _ _ he

/-- The full-order generation only raises storage errors or exhausts fuel. -/
theorem generate_full_order_errors (s : Storage) (base bt : Nat) :
    ∀ (fuel hash : Nat) (e : BlockchainError),
      generate_full_order s hash base bt fuel = .error e → tail_safe e := by
  intro fuel
  induction fuel with
  | zero =>
    intro hash e he
    simp only [generate_full_order] at he
    injection he with h2
    subst h2
    exact tail_safe_fuel
  | succ n ih =>
    intro hash e he
    simp only [generate_full_order, Bind.bind, Except.bind] at he
    cases hp : s.get_past_blocks_of hash with
    | error e2 =>
      simp only [hp] at he
      injection he with h2
      subst h2
      exact Or.inl (get_past_blocks_of_errors s hash _ hp)
    | ok block_tips =>
      simp only [hp] at he
      by_cases hz : block_tips.length = 0
      · rw [if_pos hz] at he; cases he
      · rw [if_neg hz] at he
        by_cases hb : hash = base
        · rw [if_pos hb] at he; cases he
        · rw [if_neg hb] at he
          cases hs : gfo_scores s bt block_tips with
          | error e2 =>
            simp only [hs] at he
            injection he with h2
            subst h2
            exact gfo_scores_errors s bt _ _ hs
          | ok scores =>
            simp only [hs] at he
            cases hf : gfo_fold s base bt
                (sort_descending_by_cumulative_difficulty scores) [] n with
            | error e2 =>
              simp only [hf] at he
              injection he with h2
              subst h2
              exact gfo_fold_errors_of s base bt n (fun hash e => ih hash e) _ _ _ hf
            | ok order => simp only [hf] at he; cases he

/-- When the ordered hash has stored parents, it closes the generated full
order. -/
theorem generate_full_order_last (s : Storage) (hash base bt fuel : Nat) (ord : List Nat)
    (hok : generate_full_order s hash base bt fuel = .ok ord)
    (hne : ∀ tl, s.get_past_blocks_of hash = .ok tl → tl ≠ []) :
    ord.getLast? = some hash := by
  cases fuel with
  | zero => simp only [generate_full_order] at hok; cases hok
  | succ n =>
    simp only [generate_full_order, Bind.bind, Except.bind] at hok
    cases hp : s.get_past_blocks_of hash with
    | error e2 => simp only [hp] at hok; cases hok
    | ok tl =>
      simp only [hp] at hok
      rw [if_neg (fun hz => (hne tl hp) (List.length_eq_zero.mp hz))] at hok
      by_cases hb : hash = base
      · rw [if_pos hb] at hok
        injection hok with h2
        subst h2
        simp [hb]
      · rw [if_neg hb] at hok
        cases hs : gfo_scores s bt tl with
        | error e2 => simp only [hs] at hok; cases hok
        | ok scores =>
          simp only [hs] at hok
          cases hf : gfo_fold s base bt
              (sort_descending_by_cumulative_difficulty scores) [] n with
          | error e2 => simp only [hf] at hok; cases hok
          | ok order =>
            simp only [hf] at hok
            injection hok with h2
            subst h2
            simp

end Xelis

namespace Xelis

/-- Transaction execution only touches the nonce store: blocks and the
topological order are unchanged. -/
theorem execute_transaction_fields (s : Storage) (tx : Transaction) (n : List (Nat × Nat))
    (b : List (Nat × List (Nat × VersionedBalance))) (s2 : Storage) (n2 : List (Nat × Nat))
    (b2 : List (Nat × List (Nat × VersionedBalance)))
    (h : execute_transaction s tx n b = .ok (s2, n2, b2)) :
    s2.blocks = s.blocks ∧ s2.topo_by_hash = s.topo_by_hash := by
  cases hd : tx.data with
  | burn asset amount =>
    simp only [execute_transaction, hd, Bind.bind, Except.bind, pure, Except.pure] at h
    simp only [Except.ok.injEq, Prod.mk.injEq] at h
    obtain ⟨h1, h2, h3⟩ := h
    subst h1
    exact ⟨rfl, rfl⟩
  | transfer txs =>
    simp only [execute_transaction, hd, Bind.bind, Except.bind, pure, Except.pure] at h
    simp only [Except.ok.injEq, Prod.mk.injEq] at h
    obtain ⟨h1, h2, h3⟩ := h
    subst h1
    exact ⟨rfl, rfl⟩
  | smartContract =>
    simp only [execute_transaction, hd, Bind.bind, Except.bind, pure, Except.pure] at h
    cases h

/-- Transaction execution cannot fail on an executable payload. -/
theorem execute_transaction_executable (s : Storage) (tx : Transaction) (n : List (Nat × Nat))
    (b : List (Nat × List (Nat × VersionedBalance))) (hex : tx_executable tx.data = true)
    (e : BlockchainError) : execute_transaction s tx n b ≠ .error e := by
  intro h
  cases hd : tx.data with
  | burn asset amount =>
    simp only [execute_transaction, hd, Bind.bind, Except.bind, pure, Except.pure] at h
    cases h
  | transfer txs =>
    simp only [execute_transaction, hd, Bind.bind, Except.bind, pure, Except.pure] at h
    cases h
  | smartContract => rw [hd] at hex; simp [tx_executable] at hex

/-- The transaction-execution loop keeps blocks and the topological order,
and runs to completion when every transaction is executable. -/
theorem tx_exec_loop_spec (bh : Nat) :
    ∀ (l : List (Nat × Transaction)) (s : Storage) (n : List (Nat × Nat))
      (b : List (Nat × List (Nat × VersionedBalance))) (f : Nat),
      (tx_exec_loop bh l s n b f).1.blocks = s.blocks ∧
      (tx_exec_loop bh l s n b f).1.topo_by_hash = s.topo_by_hash ∧
      (l.all (fun t => tx_executable t.2.data) = true →
        (tx_exec_loop bh l s n b f).2.2.2.2 = none) := by
  intro l
  induction l with
  | nil => intro s n b f; exact ⟨rfl, rfl, fun _ => rfl⟩
  | cons p rest ih =>
    obtain ⟨th, tx⟩ := p
    intro s n b f
    cases hx : execute_transaction s tx n b with
    | error e =>
      have heq : tx_exec_loop bh ((th, tx) :: rest) s n b f = (s, n, b, f, some e) := by
        simp only [tx_exec_loop, hx]
      rw [heq]
      refine ⟨rfl, rfl, fun hall => ?_⟩
      simp only [List.all_cons, Bool.and_eq_true] at hall
      exact absurd hx (execute_transaction_executable s tx n b hall.1 e)
    | ok v =>
      obtain ⟨s2, n2, b2⟩ := v
      have hf := execute_transaction_fields s tx n b s2 n2 b2 hx
      simp only [tx_exec_loop, hx]
      by_cases hlink : ¬ s2.has_block_linked_to_tx th bh = true
      · rw [if_pos hlink]
        have ihr := ih (s2.add_block_for_tx th bh) n2 b2 (f + tx.fee)
        refine ⟨?_, ?_, fun hall => ?_⟩
        · rw [ihr.1]; exact hf.1
        · rw [ihr.2.1]; exact hf.2
        · simp only [List.all_cons, Bool.and_eq_true] at hall
          exact ihr.2.2 hall.2
      · rw [if_neg hlink]
        have ihr := ih s2 n2 b2 (f + tx.fee)
        refine ⟨?_, ?_, fun hall => ?_⟩
        · rw [ihr.1]; exact hf.1
        · rw [ihr.2.1]; exact hf.2
        · simp only [List.all_cons, Bool.and_eq_true] at hall
          exact ihr.2.2 hall.2

/-- Folding balance writes keeps blocks and the topological order. -/
theorem set_balance_fold_fields (key t : Nat) :
    ∀ (l : List (Nat × VersionedBalance)) (st : Storage),
      (l.foldl (fun st2 a => st2.set_balance_to key a.1 t a.2) st).blocks = st.blocks ∧
      (l.foldl (fun st2 a => st2.set_balance_to key a.1 t a.2) st).topo_by_hash =
        st.topo_by_hash := by
  intro l
  induction l with
  | nil => intro st; exact ⟨rfl, rfl⟩
  | cons a rest ih =>
    intro st
    simp only [List.foldl_cons]
    have ihr := ih (st.set_balance_to key a.1 t a.2)
    exact ⟨ihr.1, ihr.2⟩

/-- Persisting staged balances keeps blocks and the topological order. -/
theorem save_balances_fields (t : Nat) :
    ∀ (b : List (Nat × List (Nat × VersionedBalance))) (s : Storage),
      (save_balances t b s).blocks = s.blocks ∧
      (save_balances t b s).topo_by_hash = s.topo_by_hash := by
  intro b
  induction b with
  | nil => intro s; exact ⟨rfl, rfl⟩
  | cons entry rest ih =>
    intro s
    simp only [save_balances, List.foldl_cons]
    have hinner := set_balance_fold_fields entry.1 t entry.2 s
    have ihr := ih (entry.2.foldl (fun st2 a => st2.set_balance_to entry.1 a.1 t a.2) s)
    simp only [save_balances] at ihr
    refine ⟨?_, ?_⟩
    · rw [ihr.1]; exact hinner.1
    · rw [ihr.2]; exact hinner.2

/-- The ordering loop keeps the block map, only extends the topological
order, raises only storage errors or fuel exhaustion, and, when it completes,
leaves every processed hash topologically ordered — provided every stored
transaction is executable. -/
theorem order_loop_spec (tc bt : Nat) :
    ∀ (l : List Nat) (i : Nat) (w : Bool) (s : Storage) (n : List (Nat × Nat)) (h0 : Nat),
      (∀ (h : Nat) (blk : BlockData), alookup s.blocks h = some blk →
        blk.txs.all (fun t => tx_executable t.2.data) = true) →
      (order_loop tc bt l i w s n h0).1.blocks = s.blocks ∧
      (∀ k, (alookup s.topo_by_hash k).isSome = true →
        (alookup (order_loop tc bt l i w s n h0).1.topo_by_hash k).isSome = true) ∧
      (∀ e, (order_loop tc bt l i w s n h0).2.2.2 = some e → tail_safe e) ∧
      ((order_loop tc bt l i w s n h0).2.2.2 = none →
        ∀ x ∈ l, (alookup (order_loop tc bt l i w s n h0).1.topo_by_hash x).isSome = true) := by
  intro l
  induction l with
  | nil =>
    intro i w s n h0 hexec
    refine ⟨rfl, fun k hk => hk, fun e he => ?_, fun _ x hx => absurd hx (List.not_mem_nil x)⟩
    cases he
  | cons hash rest ih =>
    intro i w s n h0 hexec
    simp only [order_loop]
    by_cases hskip : ¬ w = true ∧ tc ≠ 0 ∧ alookup s.topo_by_hash hash = some (bt + i)
    · rw [if_pos hskip]
      have ihr := ih (i + 1) w s n (bt + i) hexec
      refine ⟨ihr.1, ihr.2.1, ihr.2.2.1, fun hnone x hx => ?_⟩
      rcases List.mem_cons.mp hx with hx | hx
      · subst hx
        exact ihr.2.1 _ (by rw [hskip.2.2]; rfl)
      · exact ihr.2.2.2 hnone x hx
    · rw [if_neg hskip]
      set s1 := s.set_topo_height_for_block hash (bt + i) with hs1
      have hs1b : s1.blocks = s.blocks := by rw [hs1]; rfl
      have hs1t : ∀ k, (alookup s.topo_by_hash k).isSome = true →
          (alookup s1.topo_by_hash k).isSome = true := by
        intro k hk
        rw [hs1]
        simp only [Storage.set_topo_height_for_block]
        exact alookup_aset_isSome_mono _ hash k _ hk
      have hs1self : (alookup s1.topo_by_hash hash).isSome = true := by
        rw [hs1]
        simp only [Storage.set_topo_height_for_block]
        rw [alookup_aset_self]
        rfl
      cases hsup : (if bt + i = 0 then Except.ok 0
          else s1.get_supply_at_topo_height (bt + i - 1)) with
      | error e1 =>
        simp only [hsup]
        refine ⟨hs1b, hs1t, fun e he => ?_, fun hnone => ?_⟩
        · injection he with h2
          subst h2
          exact supply_branch_errors s1 (bt + i) _ hsup
        · cases hnone
      | ok past_supply =>
        simp only [hsup]
        cases hside : is_side_block s1 hash with
        | error e1 =>
          simp only [hside]
          refine ⟨hs1b, hs1t, fun e he => ?_, fun hnone => ?_⟩
          · injection he with h2
            subst h2
            exact is_side_block_errors s1 hash _ hside
          · cases hnone
        | ok side =>
          simp only [hside]
          generalize hbr : (if side = true
              then get_block_reward past_supply * SIDE_BLOCK_REWARD_PERCENT / 100
              else get_block_reward past_supply) = br
          set s2 := (s1.set_block_reward hash br).set_supply_for_block hash (past_supply + br)
            with hs2
          have hs2b : s2.blocks = s.blocks := by rw [hs2]; exact hs1b
          have hs2t : s2.topo_by_hash = s1.topo_by_hash := by rw [hs2]; rfl
          cases hblk : s2.get_block_by_hash hash with
          | error e1 =>
            simp only [hblk]
            refine ⟨hs2b, fun k hk => by rw [hs2t]; exact hs1t k hk, fun e he => ?_,
              fun hnone => ?_⟩
            · injection he with h2
              subst h2
              exact Or.inl (get_block_by_hash_errors s2 hash _ hblk)
            · cases hnone
          | ok blk =>
            simp only [hblk]
            have hexec2 : blk.txs.all (fun t => tx_executable t.2.data) = true := by
              apply hexec hash blk
              rw [← hs2b]
              exact get_block_by_hash_ok s2 hash blk hblk
            rcases hte : tx_exec_loop hash blk.txs s2 n [] 0 with ⟨s3, n3, bal3, fees3, err3⟩
            have hspec := tx_exec_loop_spec hash blk.txs s2 n [] 0
            rw [hte] at hspec
            have hteb : s3.blocks = s2.blocks := hspec.1
            have htet : s3.topo_by_hash = s2.topo_by_hash := hspec.2.1
            have hnone3 : err3 = none := hspec.2.2 hexec2
            subst hnone3
            simp only [hte]
            set s4 := save_balances (bt + i) (reward_miner s3 blk.miner br fees3 bal3) s3
              with hs4
            have hsave := save_balances_fields (bt + i)
              (reward_miner s3 blk.miner br fees3 bal3) s3
            have hs4b : s4.blocks = s.blocks := by
              rw [hs4, hsave.1, hteb]; exact hs2b
            have hs4t : s4.topo_by_hash = s1.topo_by_hash := by
              rw [hs4, hsave.2, htet]; exact hs2t
            have hexec4 : ∀ (h : Nat) (blk2 : BlockData), alookup s4.blocks h = some blk2 →
                blk2.txs.all (fun t => tx_executable t.2.data) = true := by
              intro h blk2 hl
              rw [hs4b] at hl
              exact hexec h blk2 hl
            have ihr := ih (i + 1) true s4 n3 (bt + i) hexec4
            refine ⟨?_, ?_, ihr.2.2.1, fun hnone x hx => ?_⟩
            · rw [ihr.1]; exact hs4b
            · intro k hk
              apply ihr.2.1
              rw [hs4t]
              exact hs1t k hk
            · rcases List.mem_cons.mp hx with hx | hx
              · subst hx
                apply ihr.2.1
                rw [hs4t]
                exact hs1self
              · exact ihr.2.2.2 hnone x hx

end Xelis

namespace Xelis

/-- The new-tip filter only raises storage errors or exhausts fuel. -/
theorem filter_new_tips_errors (s : Storage) (bh fuel : Nat) :
    ∀ (l : List Nat) (e : BlockchainError),
      filter_new_tips s bh fuel l = .error e → tail_safe e := by
  intro l
  induction l with
  | nil => intro e he; cases he
  | cons hash rest ih =>
    intro e he
    simp only [filter_new_tips, Bind.bind, Except.bind] at he
    cases hd : calculate_distance_from_mainchain s hash fuel with
    | error e2 =>
      simp only [hd] at he
      injection he with h2
      subst h2
      exact calculate_distance_from_mainchain_errors s hash fuel _ hd
    | ok d =>
      simp only [hd] at he
      cases ht : filter_new_tips s bh fuel rest with
      | error e2 =>
        simp only [ht] at he
        injection he with h2
        subst h2
        exact ih _ ht
      | ok tail => simp only [ht] at he; cases he

/-- The new-tip filter returns a subset of its input. -/
theorem filter_new_tips_subset (s : Storage) (bh fuel : Nat) :
    ∀ (l : List Nat) (r : List Nat) (x : Nat),
      filter_new_tips s bh fuel l = .ok r → x ∈ r → x ∈ l := by
  intro l
  induction l with
  | nil => intro r x hr hx; cases hr; cases hx
  | cons hash rest ih =>
    intro r x hr hx
    simp only [filter_new_tips, Bind.bind, Except.bind] at hr
    cases hd : calculate_distance_from_mainchain s hash fuel with
    | error e2 => simp only [hd] at hr; cases hr
    | ok d =>
      simp only [hd] at hr
      cases ht : filter_new_tips s bh fuel rest with
      | error e2 => simp only [ht] at hr; cases hr
      | ok tail =>
        simp only [ht] at hr
        injection hr with h2
        subst h2
        split at hx
        · rcases List.mem_cons.mp hx with hx | hx
          · subst hx; exact List.mem_cons_self _ _
          · exact List.mem_cons_of_mem _ (ih _ _ ht hx)
        · exact List.mem_cons_of_mem _ (ih _ _ ht hx)

/-- A topologically ordered tip at exactly the reference height survives the
new-tip filter. -/
theorem filter_new_tips_keeps (s : Storage) (bh fuel : Nat) (x : Nat)
    (hord : s.is_block_topological_ordered x = true)
    (hh : s.get_height_for_block x = .ok bh) :
    ∀ (l : List Nat) (r : List Nat),
      filter_new_tips s bh fuel l = .ok r → x ∈ l → x ∈ r := by
  have hdist : calculate_distance_from_mainchain s x fuel = .ok bh := by
    simp only [calculate_distance_from_mainchain, hord, if_pos]
    exact hh
  intro l
  induction l with
  | nil => intro r hr hx; cases hx
  | cons hash rest ih =>
    intro r hr hx
    simp only [filter_new_tips, Bind.bind, Except.bind] at hr
    cases hd : calculate_distance_from_mainchain s hash fuel with
    | error e2 => simp only [hd] at hr; cases hr
    | ok d =>
      simp only [hd] at hr
      cases ht : filter_new_tips s bh fuel rest with
      | error e2 => simp only [ht] at hr; cases hr
      | ok tail =>
        simp only [ht] at hr
        injection hr with h2
        subst h2
        rcases List.mem_cons.mp hx with hx | hx
        · subst hx
          rw [hdist] at hd
          injection hd with h3
          subst h3
          rw [if_pos ⟨Nat.le_refl bh, by simp [STABLE_HEIGHT_LIMIT]⟩]
          exact List.mem_cons_self _ _
        · have hmem := ih _ ht hx
          split
          · exact List.mem_cons_of_mem _ hmem
          · exact hmem

/-- The final tip validation only raises storage errors. -/
theorem filter_valid_tips_errors (s : Storage) (best : Nat) :
    ∀ (l : List Nat) (e : BlockchainError),
      filter_valid_tips s best l = .error e → tail_safe e := by
  intro l
  induction l with
  | nil => intro e he; cases he
  | cons hash rest ih =>
    intro e he
    simp only [filter_valid_tips, Bind.bind, Except.bind] at he
    by_cases hb : best = hash
    · rw [if_pos hb] at he
      exact ih _ he
    · rw [if_neg hb] at he
      cases hv : validate_tips s best hash with
      | error e2 =>
        simp only [hv] at he
        injection he with h2
        subst h2
        exact validate_tips_errors s best hash _ hv
      | ok v =>
        simp only [hv] at he
        cases ht : filter_valid_tips s best rest with
        | error e2 =>
          simp only [ht] at he
          injection he with h2
          subst h2
          exact ih _ ht
        | ok tail => simp only [ht] at he; cases he

/-- The final tip validation returns a subset of its input. -/
theorem filter_valid_tips_subset (s : Storage) (best : Nat) :
    ∀ (l : List Nat) (r : List Nat) (x : Nat),
      filter_valid_tips s best l = .ok r → x ∈ r → x ∈ l := by
  intro l
  induction l with
  | nil => intro r x hr hx; cases hr; cases hx
  | cons hash rest ih =>
    intro r x hr hx
    simp only [filter_valid_tips, Bind.bind, Except.bind] at hr
    by_cases hb : best = hash
    · rw [if_pos hb] at hr
      exact List.mem_cons_of_mem _ (ih _ _ hr hx)
    · rw [if_neg hb] at hr
      cases hv : validate_tips s best hash with
      | error e2 => simp only [hv] at hr; cases hr
      | ok v =>
        simp only [hv] at hr
        cases ht : filter_valid_tips s best rest with
        | error e2 => simp only [ht] at hr; cases hr
        | ok tail =>
          simp only [ht] at hr
          injection hr with h2
          subst h2
          split at hx
          · rcases List.mem_cons.mp hx with hx | hx
            · subst hx; exact List.mem_cons_self _ _
            · exact List.mem_cons_of_mem _ (ih _ _ ht hx)
          · exact List.mem_cons_of_mem _ (ih _ _ ht hx)

/-- `get_difficulty_at_tips` on a nonempty tip set whose stored members all
have parents only raises storage errors. -/
theorem get_difficulty_at_tips_errors (s : Storage) (tips : List Nat) (e : BlockchainError)
    (hne : tips ≠ [])
    (hnp : ∀ h ∈ tips, ∀ tl, s.get_past_blocks_of h = .ok tl → tl ≠ [])
    (he : get_difficulty_at_tips s tips = .error e) : tail_safe e := by
  simp only [get_difficulty_at_tips, Bind.bind, Except.bind] at he
  rw [if_neg (fun hz => hne (List.length_eq_zero.mp hz))] at he
  cases hch : calculate_height_at_tips s tips with
  | error e2 =>
    simp only [hch] at he
    injection he with h2
    subst h2
    exact calculate_height_at_tips_errors s tips _ hch
  | ok height =>
    simp only [hch] at he
    by_cases hlt : height < 3
    · rw [if_pos hlt] at he; cases he
    · rw [if_neg hlt] at he
      cases hbt : find_best_tip_by_cumulative_difficulty s tips with
      | error e2 =>
        simp only [hbt] at he
        injection he with h2
        subst h2
        exact find_best_tip_by_cumulative_difficulty_errors s tips _ hne hbt
      | ok best_tip =>
        simp only [hbt] at he
        cases hd : s.get_difficulty_for_block best_tip with
        | error e2 =>
          simp only [hd] at he
          injection he with h2
          subst h2
          exact Or.inl (get_difficulty_for_block_errors s best_tip _ hd)
        | ok biggest =>
          simp only [hd] at he
          cases hts : s.get_timestamp_for_block best_tip with
          | error e2 =>
            simp only [hts] at he
            injection he with h2
            subst h2
            exact Or.inl (get_timestamp_for_block_errors s best_tip _ hts)
          | ok ts =>
            simp only [hts] at he
            cases hp : s.get_past_blocks_of best_tip with
            | error e2 =>
              simp only [hp] at he
              injection he with h2
              subst h2
              exact Or.inl (get_past_blocks_of_errors s best_tip _ hp)
            | ok parent_tips =>
              simp only [hp] at he
              have hpne : parent_tips ≠ [] :=
                hnp best_tip (find_best_tip_by_cumulative_difficulty_mem s tips best_tip hbt)
                  parent_tips hp
              cases hpb : find_best_tip_by_cumulative_difficulty s parent_tips with
              | error e2 =>
                simp only [hpb] at he
                injection he with h2
                subst h2
                exact find_best_tip_by_cumulative_difficulty_errors s parent_tips _ hpne hpb
              | ok parent_best =>
                simp only [hpb] at he
                cases hpk : s.get_block_by_hash parent_best with
                | error e2 =>
                  simp only [hpk] at he
                  injection he with h2
                  subst h2
                  exact Or.inl (get_block_by_hash_errors s parent_best _ hpk)
                | ok parent_block => simp only [hpk] at he; cases he

/-- A transaction that passes verification has an executable payload. -/
theorem verify_tx_ok_executable (s : VStorage) (tx : Transaction)
    (b : List (Nat × List (Nat × Nat))) (n : Option (List (Nat × Nat)))
    (r : List (Nat × List (Nat × Nat)) × Option (List (Nat × Nat)))
    (h : verify_transaction_with_hash s tx b n = .ok r) : tx_executable tx.data = true := by
  cases hd : tx.data with
  | transfer txs => rfl
  | burn asset amount => rfl
  | smartContract =>
    simp only [verify_transaction_with_hash, hd, Bind.bind, Except.bind, pure,
      Except.pure] at h
    repeat' split at h
    all_goals cases h

/-- Every transaction of a block that passes the per-block verification loop
has an executable payload. -/
theorem verify_block_txs_executable (vs : VStorage) :
    ∀ (l : List ((Nat × Transaction) × Nat)) (b : List (Nat × List (Nat × Nat)))
      (ca : List (Nat × Nat)) (ct : List Nat) (tot : Nat) (r : List Nat × Nat),
      verify_block_txs vs l b ca ct tot = .ok r →
      ∀ p ∈ l, tx_executable p.1.2.data = true := by
  intro l
  induction l with
  | nil => intro b ca ct tot r hr p hp; cases hp
  | cons q rest ih =>
    obtain ⟨txp, declared⟩ := q
    intro b ca ct tot r hr p hp
    simp only [verify_block_txs, Bind.bind, Except.bind] at hr
    by_cases h1 : txp.1 ≠ declared
    · rw [if_pos h1] at hr; cases hr
    · rw [if_neg h1] at hr
      by_cases h2 : ct.contains txp.1 = true
      · rw [if_pos h2] at hr; cases hr
      · rw [if_neg h2] at hr
        cases hv : verify_transaction_with_hash vs txp.2 b (some ca) with
        | error e2 => simp only [hv] at hr; cases hr
        | ok v =>
          obtain ⟨b2, n2⟩ := v
          simp only [hv] at hr
          rcases List.mem_cons.mp hp with hp | hp
          · subst hp
            exact verify_tx_ok_executable vs txp.2 b (some ca) _ hv
          · exact ih _ _ _ _ _ hr p hp

/-- A pointwise fact on the zipped list covers the whole left list when the
lengths agree. -/
theorem all_of_zip_all {α β : Type} (Q : α → Prop) :
    ∀ (l1 : List α) (l2 : List β), l1.length = l2.length →
      (∀ p ∈ l1.zip l2, Q p.1) → ∀ x ∈ l1, Q x := by
  intro l1
  induction l1 with
  | nil => intro l2 _ _ x hx; cases hx
  | cons a as ih =>
    intro l2 hlen hall x hx
    cases l2 with
    | nil => simp at hlen
    | cons b bs =>
      rcases List.mem_cons.mp hx with hx | hx
      · subst hx
        exact hall (x, b) (by rw [List.zip_cons_cons]; exact List.mem_cons_self _ _)
      · refine ih bs (by simpa using hlen) (fun p hp => ?_) x hx
        exact hall p (by rw [List.zip_cons_cons]; exact List.mem_cons_of_mem _ hp)

/-- A block admitted by validation is new, extends stored tips only, and
carries only executable transactions. -/
theorem validate_block_ok_facts (cache : ChainCache) (s : Storage) (block : CompleteBlock)
    (now fuel d : Nat) (h : validate_block cache s block now fuel = .ok d) :
    s.has_block block.hash = false ∧
    block.tips.all (fun t => s.has_block t) = true ∧
    block.transactions.all (fun t => tx_executable t.2.data) = true := by
  simp only [validate_block, Bind.bind, Except.bind, pure, Except.pure] at h
  by_cases h1 : s.has_block block.hash = true
  · rw [if_pos h1] at h; cases h
  · rw [if_neg h1] at h
    have W1 : s.has_block block.hash = false := by
      revert h1; cases s.has_block block.hash <;> simp
    by_cases h2 : block.timestamp > now + TIMESTAMP_IN_FUTURE_LIMIT
    · rw [if_pos h2] at h; cases h
    · rw [if_neg h2] at h
      by_cases h3 : block.tips.length > TIPS_LIMIT
      · rw [if_pos h3] at h; cases h
      · rw [if_neg h3] at h
        by_cases h4 : block.tips.length = 0 ∧ cache.height ≠ 0
        · rw [if_pos h4] at h; cases h
        · rw [if_neg h4] at h
          by_cases h5 : ¬ block.tips.all (fun t => s.has_block t) = true
          · rw [if_pos h5] at h; cases h
          · rw [if_neg h5] at h
            have W2 : block.tips.all (fun t => s.has_block t) = true := not_not.mp h5
            cases hch : calculate_height_at_tips s block.tips with
            | error e2 => simp only [hch] at h; cases h
            | ok bht =>
              simp only [hch] at h
              by_cases h6 : bht ≠ block.height
              · rw [if_pos h6] at h; cases h
              · rw [if_neg h6] at h
                by_cases h7 : block.tips.length > 0 ∧ bht < cache.stable_height
                · rw [if_pos h7] at h; cases h
                · rw [if_neg h7] at h
                  cases hvr : verify_non_reachability s block.tips with
                  | error e2 => simp only [hvr] at h; cases h
                  | ok reachable =>
                    simp only [hvr] at h
                    by_cases h8 : ¬ reachable = true
                    · rw [if_pos h8] at h; cases h
                    · rw [if_neg h8] at h
                      cases hct : check_tips_ts_dev s block.timestamp cache.height fuel
                          block.tips with
                      | error e2 => simp only [hct] at h; cases h
                      | ok u =>
                        simp only [hct] at h
                        by_cases h9 : block.tips.length > 1
                        · rw [if_pos h9] at h
                          cases hfb : find_best_tip_by_cumulative_difficulty s block.tips with
                          | error e2 => simp only [hfb] at h; cases h
                          | ok bt9 =>
                            simp only [hfb] at h
                            cases hcb : check_tips_band s bt9 block.tips with
                            | error e2 => simp only [hcb] at h; cases h
                            | ok u2 =>
                              simp only [hcb] at h
                              cases hpw : verify_proof_of_work s block.hash block.tips with
                              | error e2 => simp only [hpw] at h; cases h
                              | ok diff2 =>
                                simp only [hpw] at h
                                by_cases h10 : block.txs_hashes.length ≠
                                    block.transactions.length
                                · rw [if_pos h10] at h; cases h
                                · rw [if_neg h10] at h
                                  have hlen : block.transactions.length =
                                      block.txs_hashes.length := (not_not.mp h10).symm
                                  cases hvt : verify_block_txs s.to_vstorage
                                      (block.transactions.zip block.txs_hashes) [] [] [] 0 with
                                  | error e2 => simp only [hvt] at h; cases h
                                  | ok r =>
                                    refine ⟨W1, W2, List.all_eq_true.mpr ?_⟩
                                    exact all_of_zip_all (fun t => tx_executable t.2.data = true)
                                      block.transactions block.txs_hashes hlen
                                      (fun p hp =>
                                        verify_block_txs_executable s.to_vstorage _ _ _ _ _ _
                                          hvt p hp)
                        · rw [if_neg h9] at h
                          cases hpw : verify_proof_of_work s block.hash block.tips with
                          | error e2 => simp only [hpw] at h; cases h
                          | ok diff2 =>
                            simp only [hpw] at h
                            by_cases h10 : block.txs_hashes.length ≠
                                block.transactions.length
                            · rw [if_pos h10] at h; cases h
                            · rw [if_neg h10] at h
                              have hlen : block.transactions.length =
                                  block.txs_hashes.length := (not_not.mp h10).symm
                              cases hvt : verify_block_txs s.to_vstorage
                                  (block.transactions.zip block.txs_hashes) [] [] [] 0 with
                              | error e2 => simp only [hvt] at h; cases h
                              | ok r =>
                                refine ⟨W1, W2, List.all_eq_true.mpr ?_⟩
                                exact all_of_zip_all (fun t => tx_executable t.2.data = true)
                                  block.transactions block.txs_hashes hlen
                                  (fun p hp =>
                                    verify_block_txs_executable s.to_vstorage _ _ _ _ _ _
                                      hvt p hp)

/-- No commit-phase error is a validation error. -/
theorem tail_safe_not_validation (e : BlockchainError) (h : tail_safe e) :
    e ∉ validation_errors := by
  rcases h with h | h | h <;> subst h <;> decide

end Xelis

namespace Xelis

/-- Membership gives boolean containment on hash lists. -/
theorem mem_contains_true (l : List Nat) (a : Nat) (h : a ∈ l) : l.contains a = true := by
  induction l with
  | nil => cases h
  | cons x xs ih =>
    simp only [List.contains_cons, Bool.or_eq_true, beq_iff_eq]
    rcases List.mem_cons.mp h with h | h
    · exact Or.inl h
    · exact Or.inr (ih h)

/-- C3: for every chain state whose storage is well formed (every stored
transaction executable, parentless stored blocks only the genesis block, the
genesis block not among the tips) and every candidate block with at least one
tip, if `add_new_block_for_storage` returns one of the validation errors
(admission, PoW or per-transaction verification errors), then the returned
state — storage and mempool — is exactly the input state: validation performs
only reads, and the commit phase can only fail with storage-read errors or
fuel exhaustion, none of which is a validation error. -/
theorem add_new_block_validation_error_no_mutation
    (cache : ChainCache) (st st2 : SState) (block : CompleteBlock) (now fuel : Nat)
    (e : BlockchainError)
    (hwf : block_dag_well_formed st.storage = true)
    (htips : block.tips ≠ [])
    (hresult : add_new_block_for_storage cache st block now fuel = (st2, some e))
    (helem : e ∈ validation_errors) :
    st2 = st := by
  simp only [add_new_block_for_storage] at hresult
  cases hv : validate_block cache st.storage block now fuel with
  | error e1 =>
    simp only [hv] at hresult
    injection hresult with hA hB
    exact hA.symm
  | ok difficulty =>
    exfalso
    obtain ⟨W1, W2, W3⟩ := validate_block_ok_facts cache st.storage block now fuel difficulty hv
    have hwfs := hwf
    simp only [block_dag_well_formed, Bool.and_eq_true, List.all_eq_true] at hwfs
    obtain ⟨hwf1, hwf2⟩ := hwfs
    have hwf2f : st.storage.tips_set.contains GENESIS_BLOCK_HASH = false := by
      revert hwf2; cases st.storage.tips_set.contains GENESIS_BLOCK_HASH <;> simp
    simp only [hv] at hresult
    set storage1 := st.storage.add_new_block block difficulty with hst1
    have hbne : ¬ (block.tips.length = 0) := fun hz => htips (List.length_eq_zero.mp hz)
    rw [if_neg hbne] at hresult
    cases hfc : find_common_base storage1 block.tips fuel with
    | error e1 =>
      simp only [hfc, Bind.bind, Except.bind] at hresult
      have hts := find_common_base_errors storage1 block.tips fuel e1 htips hfc
      injection hresult with hA hB
      injection hB with hB2
      subst hB2
      exact tail_safe_not_validation _ hts helem
    | ok base =>
      simp only [hfc, Bind.bind, Except.bind] at hresult
      cases hws : find_tip_work_score storage1 block.hash base.1 base.2 fuel with
      | error e1 =>
        simp only [hws] at hresult
        have hts := find_tip_work_score_errors storage1 block.hash base.1 base.2 fuel e1 hws
        injection hresult with hA hB
        injection hB with hB2
        subst hB2
        exact tail_safe_not_validation _ hts helem
      | ok r =>
        simp only [hws] at hresult
        set storage2 := storage1.set_cumulative_difficulty_for_block block.hash r.2 with hst2
        have hs2blocks : storage2.blocks = storage1.blocks := by rw [hst2]; rfl
        have hs2tips : storage2.tips_set = st.storage.tips_set := by rw [hst2, hst1]; rfl
        have exec_all2 : ∀ (h : Nat) (blk : BlockData), alookup storage2.blocks h = some blk →
            blk.txs.all (fun t => tx_executable t.2.data) = true := by
          intro h blk hl
          rw [hs2blocks, hst1] at hl
          simp only [Storage.add_new_block] at hl
          by_cases hh : h = block.hash
          · subst hh
            rw [alookup_aset_self] at hl
            injection hl with h2
            subst h2
            exact W3
          · rw [alookup_aset_ne _ _ _ _ (fun he => hh he.symm)] at hl
            have hmem := alookup_mem _ _ _ hl
            have hq := hwf1 _ hmem
            exact List.all_eq_true.mpr hq.1
        have tipsne2 : ∀ (x : Nat), (x = block.hash ∨ x ∈ st.storage.tips_set) →
            ∀ (blk : BlockData), alookup storage2.blocks x = some blk → blk.tips ≠ [] := by
          intro x hx blk hl
          rw [hs2blocks, hst1] at hl
          simp only [Storage.add_new_block] at hl
          by_cases hh : x = block.hash
          · subst hh
            rw [alookup_aset_self] at hl
            injection hl with h2
            subst h2
            exact htips
          · rcases hx with hx | hx
            · exact absurd hx hh
            · rw [alookup_aset_ne _ _ _ _ (fun he => hh he.symm)] at hl
              have hmem := alookup_mem _ _ _ hl
              have hq := hwf1 _ hmem
              simp only [Bool.and_eq_true, Bool.or_eq_true, Bool.not_eq_true',
                decide_eq_true_eq] at hq
              rcases hq.2 with hq2 | hq2
              · intro hnil
                rw [hnil] at hq2
                simp at hq2
              · subst hq2
                rw [mem_contains_true _ _ hx] at hwf2f
                cases hwf2f
        have hash_not_tip : block.hash ∉ block.tips := by
          intro hmem
          have := List.all_eq_true.mp W2 block.hash hmem
          rw [W1] at this
          cases this
        set tips1 := (sinsert block.hash storage2.tips_set).filter
          (fun h => ¬ h ∈ block.tips) with htips1
        have hhash1 : block.hash ∈ tips1 := by
          rw [htips1]
          rw [List.mem_filter]
          exact ⟨mem_sinsert_self _ _, by simpa using hash_not_tip⟩
        have htips1ne : tips1 ≠ [] := List.ne_nil_of_mem hhash1
        have htips1mem : ∀ x ∈ tips1, x = block.hash ∨ x ∈ st.storage.tips_set := by
          intro x hx
          rw [htips1, List.mem_filter] at hx
          rcases mem_sinsert hx.1 with hx1 | hx1
          · exact Or.inl hx1
          · rw [hs2tips] at hx1
            exact Or.inr hx1
        cases hfc2 : find_common_base storage2 tips1 fuel with
        | error e1 =>
          simp only [hfc2, Bind.bind, Except.bind] at hresult
          have hts := find_common_base_errors storage2 tips1 fuel e1 htips1ne hfc2
          injection hresult with hA hB
          injection hB with hB2
          subst hB2
          exact tail_safe_not_validation _ hts helem
        | ok base2 =>
          simp only [hfc2, Bind.bind, Except.bind] at hresult
          cases hfbt : find_best_tip storage2 tips1 base2.1 base2.2 fuel with
          | error e1 =>
            simp only [hfbt] at hresult
            have hts := find_best_tip_errors storage2 tips1 base2.1 base2.2 fuel e1 htips1ne hfbt
            injection hresult with hA hB
            injection hB with hB2
            subst hB2
            exact tail_safe_not_validation _ hts helem
          | ok best_tip =>
            simp only [hfbt] at hresult
            cases hbt2 : storage2.get_topo_height_for_hash base2.1 with
            | error e1 =>
              simp only [hbt2] at hresult
              have hts : tail_safe e1 :=
                Or.inl (get_topo_height_for_hash_errors storage2 base2.1 e1 hbt2)
              injection hresult with hA hB
              injection hB with hB2
              subst hB2
              exact tail_safe_not_validation _ hts helem
            | ok btopo =>
              simp only [hbt2] at hresult
              cases hgfo : generate_full_order storage2 best_tip base2.1 btopo fuel with
              | error e1 =>
                simp only [hgfo] at hresult
                have hts := generate_full_order_errors storage2 base2.1 btopo fuel best_tip e1 hgfo
                injection hresult with hA hB
                injection hB with hB2
                subst hB2
                exact tail_safe_not_validation _ hts helem
              | ok full_order =>
                simp only [hgfo] at hresult
                have hbtmem : best_tip ∈ tips1 :=
                  find_best_tip_mem storage2 tips1 base2.1 base2.2 fuel best_tip hfbt
                have hlast : full_order.getLast? = some best_tip := by
                  apply generate_full_order_last storage2 best_tip base2.1 btopo fuel
                    full_order hgfo
                  intro tl htl
                  obtain ⟨d, hd, hdt⟩ := get_past_blocks_of_ok storage2 best_tip tl htl
                  rw [hdt]
                  exact tipsne2 best_tip (htips1mem best_tip hbtmem) d hd
                have hbtin : best_tip ∈ full_order := mem_of_getLast_eq full_order best_tip hlast
                rcases hol : order_loop block.tips.length btopo full_order 0 false storage2 [] 0
                  with ⟨storage3, nonces, ht3, err⟩
                have hos := order_loop_spec block.tips.length btopo full_order 0 false storage2
                  [] 0 exec_all2
                rw [hol] at hos
                have ho1 : storage3.blocks = storage2.blocks := hos.1
                cases err with
                | some e1 =>
                  simp only [hol] at hresult
                  have hts : tail_safe e1 := hos.2.2.1 e1 rfl
                  injection hresult with hA hB
                  injection hB with hB2
                  subst hB2
                  exact tail_safe_not_validation _ hts helem
                | none =>
                  simp only [hol] at hresult
                  have ho4 : ∀ x ∈ full_order,
                      (alookup storage3.topo_by_hash x).isSome = true := hos.2.2.2 rfl
                  have hordbt : storage3.is_block_topological_ordered best_tip = true := by
                    simp only [Storage.is_block_topological_ordered]
                    exact ho4 best_tip hbtin
                  cases hbh : storage3.get_height_for_block best_tip with
                  | error e1 =>
                    simp only [hbh, Bind.bind, Except.bind] at hresult
                    have hts : tail_safe e1 :=
                      Or.inl (get_height_for_block_errors storage3 best_tip e1 hbh)
                    injection hresult with hA hB
                    injection hB with hB2
                    subst hB2
                    exact tail_safe_not_validation _ hts helem
                  | ok best_height =>
                    simp only [hbh, Bind.bind, Except.bind] at hresult
                    cases hfnt : filter_new_tips storage3 best_height fuel tips1 with
                    | error e1 =>
                      simp only [hfnt] at hresult
                      have hts := filter_new_tips_errors storage3 best_height fuel tips1 e1 hfnt
                      injection hresult with hA hB
                      injection hB with hB2
                      subst hB2
                      exact tail_safe_not_validation _ hts helem
                    | ok new_tips =>
                      simp only [hfnt] at hresult
                      have hkeep : best_tip ∈ new_tips :=
                        filter_new_tips_keeps storage3 best_height fuel best_tip hordbt hbh
                          tips1 new_tips hfnt hbtmem
                      have hnewne : new_tips ≠ [] := List.ne_nil_of_mem hkeep
                      cases hfb2 : find_best_tip_by_cumulative_difficulty storage3 new_tips with
                      | error e1 =>
                        simp only [hfb2] at hresult
                        have hts := find_best_tip_by_cumulative_difficulty_errors storage3
                          new_tips e1 hnewne hfb2
                        injection hresult with hA hB
                        injection hB with hB2
                        subst hB2
                        exact tail_safe_not_validation _ hts helem
                      | ok best_tip2 =>
                        simp only [hfb2] at hresult
                        cases hfvt : filter_valid_tips storage3 best_tip2 new_tips with
                        | error e1 =>
                          simp only [hfvt] at hresult
                          have hts := filter_valid_tips_errors storage3 best_tip2 new_tips e1 hfvt
                          injection hresult with hA hB
                          injection hB with hB2
                          subst hB2
                          exact tail_safe_not_validation _ hts helem
                        | ok tips2 =>
                          simp only [hfvt] at hresult
                          set tips3 := sinsert best_tip2 tips2 with htips3
                          have htips3ne : tips3 ≠ [] := sinsert_ne_nil _ _
                          have htips3mem : ∀ x ∈ tips3,
                              x = block.hash ∨ x ∈ st.storage.tips_set := by
                            intro x hx
                            rw [htips3] at hx
                            rcases mem_sinsert hx with hx | hx
                            · subst hx
                              exact htips1mem _ (filter_new_tips_subset storage3 best_height
                                fuel tips1 new_tips _ hfnt
                                (find_best_tip_by_cumulative_difficulty_mem storage3 new_tips
                                  _ hfb2))
                            · exact htips1mem _ (filter_new_tips_subset storage3 best_height
                                fuel tips1 new_tips _ hfnt
                                (filter_valid_tips_subset storage3 best_tip2 new_tips tips2
                                  _ hfvt hx))
                          set storage4 := if cache.height = 0 ∨ ht3 > cache.topoheight then
                            storage3.set_top_topoheight ht3 else storage3 with hst4
                          set storage5 := storage4.store_tips tips3 with hst5
                          set storage6 := if cache.height = 0 ∨ block.height > cache.height then
                            storage5.set_top_height block.height else storage5 with hst6
                          have hs6blocks : storage6.blocks = storage2.blocks := by
                            have h4 : storage4.blocks = storage3.blocks := by
                              rw [hst4]; split <;> rfl
                            have h5 : storage5.blocks = storage3.blocks := by
                              rw [hst5]; exact h4
                            have h6 : storage6.blocks = storage3.blocks := by
                              rw [hst6]; split
                              · exact h5
                              · exact h5
                            rw [h6]; exact ho1
                          have hnp6 : ∀ h ∈ tips3, ∀ tl,
                              storage6.get_past_blocks_of h = .ok tl → tl ≠ [] := by
                            intro h hmem tl htl
                            obtain ⟨d, hd, hdt⟩ := get_past_blocks_of_ok storage6 h tl htl
                            rw [hs6blocks] at hd
                            rw [hdt]
                            exact tipsne2 h (htips3mem h hmem) d hd
                          cases hfc3 : find_common_base storage6 tips3 fuel with
                          | error e1 =>
                            simp only [hfc3, Bind.bind, Except.bind] at hresult
                            have hts := find_common_base_errors storage6 tips3 fuel e1
                              htips3ne hfc3
                            injection hresult with hA hB
                            injection hB with hB2
                            subst hB2
                            exact tail_safe_not_validation _ hts helem
                          | ok cb3 =>
                            simp only [hfc3, Bind.bind, Except.bind] at hresult
                            cases hgd : get_difficulty_at_tips storage6 tips3 with
                            | error e1 =>
                              simp only [hgd] at hresult
                              have hts := get_difficulty_at_tips_errors storage6 tips3 e1
                                htips3ne hnp6 hgd
                              injection hresult with hA hB
                              injection hB with hB2
                              subst hB2
                              exact tail_safe_not_validation _ hts helem
                            | ok d3 =>
                              simp only [hgd] at hresult
                              injection hresult with hA hB
                              cases hB

end Xelis

namespace Xelis

/-- Witness: on the two-block fixture, re-submitting the stored block 1 is
rejected with `AlreadyInChain` and the returned state is the input state. -/
theorem add_new_block_validation_error_no_mutation_witness :
    (add_new_block_for_storage ⟨1, 1, 0, 1⟩ ⟨c3w_storage, ⟨[]⟩⟩ c3_block1 20 10).1 =
      ⟨c3w_storage, ⟨[]⟩⟩ :=
  add_new_block_validation_error_no_mutation ⟨1, 1, 0, 1⟩ ⟨c3w_storage, ⟨[]⟩⟩ _ c3_block1 20 10
    .alreadyInChain (by decide) (by decide) rfl (by decide)

end Xelis
